import Mathlib

/-!
Verification of the signature-transform core (truncated tensor algebra,
restricted exponential, fused multiply-by-restricted-exponential kernel,
streaming signature driver, signature combine) against its specification.

Scalars are modelled as rationals (exact arithmetic).  A tensor of shape
`(B, C^k)` is a `List (List ℚ)`; the per-depth views of a signature buffer
are a `List (List ℚ)` of `D` grade components, the `k`-th of length `C^(k+1)`.
-/

namespace Signatory

/-- A 1-dimensional tensor slice (one batch element): a list of scalars. -/
abbrev Vec := List ℚ

/-- Pointwise addition of two vectors, padding the shorter with zeros.
In every use below both operands have equal length, where this agrees with
the tensor library's elementwise `+`. -/
def vadd : Vec → Vec → Vec
  | [], v => v
  | u, [] => u
  | a :: u, b :: v => (a + b) :: vadd u v

@[simp] theorem vadd_nil_left (v : Vec) : vadd [] v = v := by
  cases v <;> rfl

@[simp] theorem vadd_nil_right (u : Vec) : vadd u [] = u := by
  cases u <;> rfl

@[simp] theorem vadd_cons (a b : ℚ) (u v : Vec) :
    vadd (a :: u) (b :: v) = (a + b) :: vadd u v := rfl

theorem vadd_comm (u v : Vec) : vadd u v = vadd v u := by
  induction u generalizing v with
  | nil => simp
  | cons a u ih =>
    cases v with
    | nil => simp
    | cons b v => simp [ih, add_comm]

theorem vadd_assoc (u v w : Vec) : vadd (vadd u v) w = vadd u (vadd v w) := by
  induction u generalizing v w with
  | nil => simp
  | cons a u ih =>
    cases v with
    | nil => simp
    | cons b v =>
      cases w with
      | nil => simp
      | cons c w => simp [ih, add_assoc]

instance : Zero Vec := ⟨[]⟩

instance : Add Vec := ⟨vadd⟩

instance : AddCommMonoid Vec where
  add_assoc := vadd_assoc
  zero_add := vadd_nil_left
  add_zero := vadd_nil_right
  add_comm := vadd_comm
  nsmul := nsmulRec

theorem add_def (u v : Vec) : u + v = vadd u v := rfl

@[simp] theorem zero_def : (0 : Vec) = [] := rfl

theorem length_vadd (u v : Vec) : (vadd u v).length = max u.length v.length := by
  induction u generalizing v with
  | nil => simp
  | cons a u ih =>
    cases v with
    | nil => simp
    | cons b v =>
      have := ih v
      simp only [vadd_cons, List.length_cons, this]
      omega

/-- Scalar multiplication of a vector (tensor `*=` with a scalar). -/
def smul (c : ℚ) (v : Vec) : Vec := v.map (fun x => c * x)

@[simp] theorem smul_nil (c : ℚ) : smul c [] = [] := rfl

@[simp] theorem smul_cons (c a : ℚ) (v : Vec) :
    smul c (a :: v) = (c * a) :: smul c v := rfl

@[simp] theorem length_smul (c : ℚ) (v : Vec) : (smul c v).length = v.length := by
  simp [smul]

theorem smul_vadd (c : ℚ) (u v : Vec) :
    smul c (vadd u v) = vadd (smul c u) (smul c v) := by
  induction u generalizing v with
  | nil => simp
  | cons a u ih =>
    cases v with
    | nil => simp
    | cons b v => simp [ih, mul_add]

theorem vadd_smul_same (c d : ℚ) (v : Vec) :
    vadd (smul c v) (smul d v) = smul (c + d) v := by
  induction v with
  | nil => simp
  | cons a v ih => simp [ih, add_mul]

theorem smul_smul (c d : ℚ) (v : Vec) : smul c (smul d v) = smul (c * d) v := by
  induction v with
  | nil => simp
  | cons a v ih => simp [ih, mul_assoc]

@[simp] theorem smul_one_left (v : Vec) : smul 1 v = v := by
  induction v with
  | nil => simp
  | cons a v ih => simp [ih]

/-- The all-zeros vector of a given length. -/
def vzero (n : ℕ) : Vec := List.replicate n 0

@[simp] theorem length_vzero (n : ℕ) : (vzero n).length = n := by simp [vzero]

theorem vadd_vzero_self (u : Vec) : vadd u (vzero u.length) = u := by
  induction u with
  | nil => rfl
  | cons a v ih =>
    simp only [vzero, List.length_cons, List.replicate_succ, vadd_cons, add_zero]
    simp only [vzero] at ih
    rw [ih]

theorem vadd_vzero_right (u : Vec) (n : ℕ) (h : u.length = n) :
    vadd u (vzero n) = u := by
  subst h; exact vadd_vzero_self u

theorem vadd_vzero_left (u : Vec) (n : ℕ) (h : u.length = n) :
    vadd (vzero n) u = u := by
  rw [vadd_comm]; exact vadd_vzero_right u n h

@[simp] theorem smul_vzero (c : ℚ) (n : ℕ) : smul c (vzero n) = vzero n := by
  simp [smul, vzero, List.map_replicate]

theorem smul_zero_left (v : Vec) : smul 0 v = vzero v.length := by
  induction v with
  | nil => rfl
  | cons a v ih => simp [vzero, List.replicate_succ, ih]

/-- Elementwise negation. -/
def vneg (v : Vec) : Vec := v.map (fun x => -x)

/-- Elementwise subtraction (tensor `-`; both operands always have equal
length at every use site). -/
def vsub (u v : Vec) : Vec := vadd u (vneg v)

theorem vneg_eq_smul (v : Vec) : vneg v = smul (-1) v := by
  simp [vneg, smul]

/-- Concatenation of scalar multiples: a helper equation for `smul`. -/
theorem smul_append (c : ℚ) (x y : Vec) :
    smul c (x ++ y) = smul c x ++ smul c y := by
  simp [smul]

/-- Flattened outer product: the row-major Kronecker product of two vectors,
modelling `addcmul` of `(B, p, 1)` by `(B, 1, q)` views written into a
`(B, p*q)` buffer. -/
def kron (u v : Vec) : Vec := u.flatMap (fun a => v.map (fun b => a * b))

@[simp] theorem kron_nil_left (v : Vec) : kron [] v = [] := rfl

@[simp] theorem kron_cons (a : ℚ) (u v : Vec) :
    kron (a :: u) v = v.map (fun b => a * b) ++ kron u v := rfl

@[simp] theorem kron_nil_right (u : Vec) : kron u [] = [] := by
  induction u with
  | nil => rfl
  | cons a u ih => simp [ih]

@[simp] theorem length_kron (u v : Vec) :
    (kron u v).length = u.length * v.length := by
  induction u with
  | nil => simp
  | cons a u ih => simp [ih, Nat.succ_mul, Nat.add_comm]

theorem kron_append (x y v : Vec) : kron (x ++ y) v = kron x v ++ kron y v := by
  simp [kron]

theorem kron_smul_left (c : ℚ) (u v : Vec) :
    kron (smul c u) v = smul c (kron u v) := by
  induction u with
  | nil => rfl
  | cons a u ih =>
    rw [smul_cons, kron_cons, kron_cons, smul_append, ih]
    congr 1
    simp [smul, List.map_map, Function.comp_def, mul_assoc]

theorem kron_smul_right (c : ℚ) (u v : Vec) :
    kron u (smul c v) = smul c (kron u v) := by
  induction u with
  | nil => rfl
  | cons a u ih =>
    rw [kron_cons, kron_cons, smul_append, ih]
    congr 1
    simp [smul, List.map_map, Function.comp_def, mul_left_comm]

theorem kron_assoc (u v w : Vec) : kron (kron u v) w = kron u (kron v w) := by
  induction u with
  | nil => rfl
  | cons a u ih =>
    have hsm : kron (List.map (fun b => a * b) v) w
        = List.map (fun b => a * b) (kron v w) := by
      simpa [smul] using kron_smul_left a v w
    simp [kron_append, ih, hsm]

theorem vadd_append (x y u v : Vec) (h : x.length = u.length) :
    vadd (x ++ y) (u ++ v) = vadd x u ++ vadd y v := by
  induction x generalizing u with
  | nil =>
    cases u with
    | nil => simp
    | cons b u => simp at h
  | cons a x ih =>
    cases u with
    | nil => simp at h
    | cons b u =>
      simp only [List.length_cons] at h
      simp [ih u (by omega)]

theorem map_mul_vadd (a b : ℚ) (v : Vec) :
    vadd (v.map (fun x => a * x)) (v.map (fun x => b * x))
      = v.map (fun x => (a + b) * x) := by
  induction v with
  | nil => rfl
  | cons c v ih => simp [ih, add_mul]

theorem kron_vadd_left (u u' v : Vec) :
    kron (vadd u u') v = vadd (kron u v) (kron u' v) := by
  induction u generalizing u' with
  | nil => simp
  | cons a u ih =>
    cases u' with
    | nil => simp
    | cons b u' =>
      simp only [vadd_cons, kron_cons]
      rw [vadd_append _ _ _ _ (by simp), ih, map_mul_vadd]

theorem kron_vadd_right (u v v' : Vec) (h : v.length = v'.length) :
    kron u (vadd v v') = vadd (kron u v) (kron u v') := by
  induction u with
  | nil => simp
  | cons a u ih =>
    simp only [kron_cons]
    rw [vadd_append _ _ _ _ (by simp [h]), ih]
    congr 1
    simpa [smul] using smul_vadd a v v'

@[simp] theorem kron_one_left (v : Vec) : kron [1] v = v := by
  simp [kron]

@[simp] theorem kron_one_right (u : Vec) : kron u [1] = u := by
  induction u with
  | nil => rfl
  | cons a u ih => simp [ih]

theorem map_zero_mul (v : Vec) : v.map (fun b => (0 : ℚ) * b) = vzero v.length := by
  induction v with
  | nil => rfl
  | cons a v _ => simp [vzero, List.replicate_succ]

theorem kron_vzero_right (u : Vec) (n : ℕ) :
    kron u (vzero n) = vzero (u.length * n) := by
  induction u with
  | nil => simp [vzero]
  | cons a u ih =>
    rw [kron_cons, ih]
    simp only [vzero, List.map_replicate, mul_zero]
    rw [← List.replicate_add]
    congr 1
    simp only [List.length_cons]
    ring

theorem kron_vzero_left (v : Vec) (n : ℕ) :
    kron (vzero n) v = vzero (n * v.length) := by
  induction n with
  | zero => simp [vzero]
  | succ m ih =>
    simp only [vzero, List.replicate_succ, kron_cons] at ih ⊢
    rw [map_zero_mul, ih]
    simp only [vzero]
    rw [← List.replicate_add]
    congr 1
    ring

/-- Right-multiplication by a fixed vector under `kron`, as an additive map. -/
def kronRightHom (v : Vec) : Vec →+ Vec where
  toFun := fun u => kron u v
  map_zero' := rfl
  map_add' := fun u u' => kron_vadd_left u u' v

/-- Scalar multiplication as an additive map. -/
def smulHom (c : ℚ) : Vec →+ Vec where
  toFun := smul c
  map_zero' := rfl
  map_add' := smul_vadd c

theorem kron_sum_left {α : Type} (s : Finset α) (f : α → Vec) (v : Vec) :
    kron (∑ i ∈ s, f i) v = ∑ i ∈ s, kron (f i) v :=
  map_sum (kronRightHom v) f s

theorem smul_sum {α : Type} (c : ℚ) (s : Finset α) (f : α → Vec) :
    smul c (∑ i ∈ s, f i) = ∑ i ∈ s, smul c (f i) :=
  map_sum (smulHom c) f s

theorem length_sum {α : Type} (s : Finset α) (f : α → Vec) (n : ℕ)
    (hne : s.Nonempty) (h : ∀ i ∈ s, (f i).length = n) :
    (∑ i ∈ s, f i).length = n := by
  induction hne using Finset.Nonempty.cons_induction with
  | singleton a => simpa using h a (by simp)
  | cons a s ha hs ih =>
    rw [Finset.sum_cons]
    rw [add_def, length_vadd, h a (by simp), ih (fun i hi => h i (Finset.mem_cons_of_mem hi))]
    simp

theorem kron_vadd_right' (u v v' : Vec) (h : v.length = v'.length ∨ v' = []) :
    kron u (vadd v v') = vadd (kron u v) (kron u v') := by
  rcases h with h | h
  · exact kron_vadd_right u v v' h
  · subst h; simp

theorem kron_sum_right (u : Vec) (n : ℕ) {α : Type} (s : Finset α) (f : α → Vec)
    (h : ∀ i ∈ s, (f i).length = n) :
    kron u (∑ i ∈ s, f i) = ∑ i ∈ s, kron u (f i) := by
  classical
  induction s using Finset.cons_induction with
  | empty => simp
  | cons a s ha ih =>
    rw [Finset.sum_cons, Finset.sum_cons]
    rcases s.eq_empty_or_nonempty with hs | hs
    · subst hs; simp [← zero_def]
    · have hlen : (∑ i ∈ s, f i).length = n :=
        length_sum s f n hs (fun i hi => h i (Finset.mem_cons_of_mem hi))
      rw [add_def, add_def, kron_vadd_right u _ _ (by rw [h a (by simp), hlen]),
        ih (fun i hi => h i (Finset.mem_cons_of_mem hi))]

theorem sum_smul_same (n : ℕ) (c : ℕ → ℚ) (v : Vec) :
    ∑ m ∈ Finset.range (n + 1), smul (c m) v
      = smul (∑ m ∈ Finset.range (n + 1), c m) v := by
  induction n with
  | zero => simp
  | succ k ih =>
    rw [Finset.sum_range_succ, Finset.sum_range_succ (f := c), ih, add_def,
      vadd_smul_same]

/-- Iterated Kronecker power: `xpow x m` is the flattening of the m-fold
tensor power of `x` (with `xpow x 0 = [1]`, the scalar). -/
def xpow (x : Vec) : ℕ → Vec
  | 0 => [1]
  | m + 1 => kron (xpow x m) x

@[simp] theorem xpow_zero (x : Vec) : xpow x 0 = [1] := rfl

theorem xpow_succ (x : Vec) (m : ℕ) : xpow x (m + 1) = kron (xpow x m) x := rfl

theorem xpow_one (x : Vec) : xpow x 1 = x := by
  simp [xpow]

theorem kron_xpow_left (x : Vec) (m : ℕ) : kron x (xpow x m) = xpow x (m + 1) := by
  induction m with
  | zero => simp [xpow]
  | succ k ih =>
    calc kron x (xpow x (k + 1)) = kron x (kron (xpow x k) x) := rfl
    _ = kron (kron x (xpow x k)) x := (kron_assoc _ _ _).symm
    _ = kron (xpow x (k + 1)) x := by rw [ih]
    _ = xpow x (k + 2) := rfl

@[simp] theorem length_xpow (x : Vec) (m : ℕ) :
    (xpow x m).length = x.length ^ m := by
  induction m with
  | zero => simp [xpow]
  | succ k ih => rw [xpow_succ, length_kron, ih, pow_succ]

theorem xpow_neg (x : Vec) (m : ℕ) :
    xpow (vneg x) m = smul ((-1) ^ m) (xpow x m) := by
  induction m with
  | zero => simp [xpow]
  | succ k ih =>
    rw [xpow_succ, xpow_succ, ih, vneg_eq_smul, kron_smul_left, kron_smul_right,
      smul_smul, pow_succ]

/-- Falling-reciprocal coefficient `a! / (a+m)!` appearing in the Horner
scratch invariant of the fused kernel. -/
def cfac (a m : ℕ) : ℚ := (a.factorial : ℚ) / ((a + m).factorial : ℚ)

@[simp] theorem cfac_zero (a : ℕ) : cfac a 0 = 1 := by
  simp [cfac, Nat.factorial_ne_zero]

theorem cfac_one (a : ℕ) : cfac a 1 = 1 / ((a : ℚ) + 1) := by
  have h1 : ((a + 1).factorial : ℚ) = ((a : ℚ) + 1) * (a.factorial : ℚ) := by
    rw [Nat.factorial_succ]; push_cast; ring
  have h2 : (a.factorial : ℚ) ≠ 0 := by
    exact_mod_cast Nat.factorial_ne_zero a
  have h3 : ((a : ℚ) + 1) ≠ 0 := by positivity
  field_simp [cfac, h1]
  ring

theorem cfac_step (a m : ℕ) :
    cfac (a + 1) m * (1 / ((a : ℚ) + 1)) = cfac a (m + 1) := by
  have h1 : ((a + 1).factorial : ℚ) = ((a : ℚ) + 1) * (a.factorial : ℚ) := by
    rw [Nat.factorial_succ]; push_cast; ring
  have h2 : ((a + 1 + m).factorial : ℚ) ≠ 0 := by
    exact_mod_cast Nat.factorial_ne_zero (a + 1 + m)
  have h3 : ((a : ℚ) + 1) ≠ 0 := by positivity
  have h4 : a + 1 + m = a + (m + 1) := by omega
  rw [cfac, cfac, h1, h4] at *
  field_simp
  ring

theorem cfac_one_left (m : ℕ) : cfac 1 m = 1 / ((m + 1).factorial : ℚ) := by
  have : 1 + m = m + 1 := by omega
  simp [cfac, this, Nat.factorial_one]

/-- Model of `torch::linspace(a, b, steps)`: `steps` evenly spaced points
from `a` to `b` inclusive (a single point equals `a`). -/
def linspace (a b : ℚ) (steps : ℕ) : List ℚ :=
  if steps = 1 then [a]
  else (List.range steps).map
    (fun i : ℕ => a + (i : ℚ) * (b - a) / ((steps : ℚ) - 1))

theorem length_linspace (a b : ℚ) (steps : ℕ) :
    (linspace a b steps).length = steps := by
  rw [linspace]
  split
  · simp [*]
  · simp

/-- Model of `misc::make_reciprocals`: `ones({depth-1}) / linspace(2, depth,
depth-1)`, i.e. the vector `[1/2, 1/3, ..., 1/depth]`; empty for `depth = 1`. -/
def make_reciprocals (depth : ℕ) : List ℚ :=
  if 1 < depth then (linspace 2 (depth : ℚ) (depth - 1)).map (fun q => 1 / q)
  else []

theorem length_make_reciprocals (depth : ℕ) :
    (make_reciprocals depth).length = depth - 1 := by
  rw [make_reciprocals]
  split
  · simp [length_linspace]
  · simp
    omega

theorem make_reciprocals_getD (depth i : ℕ) (h : i < depth - 1) :
    (make_reciprocals depth).getD i 0 = 1 / ((i : ℚ) + 2) := by
  have hd : 1 < depth := by omega
  rw [make_reciprocals, if_pos hd]
  by_cases h2 : depth = 2
  · subst h2
    have hi : i = 0 := by omega
    subst hi
    norm_num [linspace]
  · have h3 : 3 ≤ depth := by omega
    have hsteps : depth - 1 ≠ 1 := by omega
    rw [linspace, if_neg hsteps, List.map_map, List.getD_eq_getElem?_getD,
      List.getElem?_map, List.getElem?_range (by omega : i < depth - 1)]
    have hc : ((depth - 1 : ℕ) : ℚ) = (depth : ℚ) - 1 := by
      push_cast [Nat.cast_sub (by omega : 1 ≤ depth)]; ring
    have hd3 : (3 : ℚ) ≤ (depth : ℚ) := by exact_mod_cast h3
    have hne : (depth : ℚ) - 1 - 1 ≠ 0 := by intro hc2; linarith
    simp only [Option.map_some', Option.getD_some, Function.comp_apply, hc]
    have hval : 2 + (i : ℚ) * ((depth : ℚ) - 2) / ((depth : ℚ) - 1 - 1)
        = (i : ℚ) + 2 := by
      have he : (depth : ℚ) - 1 - 1 = (depth : ℚ) - 2 := by ring
      rw [he]
      rw [mul_div_assoc, div_self (by intro hc2; linarith)]
      ring
    rw [hval]

/-- A truncated tensor-algebra element in by-term form (one batch element):
the list of `D` grade components produced by `misc::slice_by_term`, the
`i`-th of length `C^(i+1)`.  The scalar grade is implicitly `1`. -/
abbrev TA := List Vec

/-- Grade accessor with the empty default. -/
def gr (A : TA) (i : ℕ) : Vec := A.getD i []

/-- Shape predicate for a by-term element of the depth-`D` truncated tensor
algebra over `C` channels. -/
def TAShape (C D : ℕ) (A : TA) : Prop :=
  A.length = D ∧ ∀ i, i < D → (gr A i).length = C ^ (i + 1)

theorem getD_map_range (f : ℕ → Vec) (n i : ℕ) (h : i < n) :
    gr ((List.range n).map f) i = f i := by
  rw [gr, List.getD_eq_getElem?_getD, List.getElem?_map, List.getElem?_range h]
  rfl

/-- Inner recursion of `ta_ops::restricted_exp`: `out[0] = in` and
`out[i+1] = (in ⊗ out[i]) * reciprocals[i]` (the source forms the outer
product with the new factor of `in` on the left, cf. the `(B, C, C^i)` view). -/
def rexpAux (x : Vec) (r : List ℚ) : ℕ → Vec
  | 0 => x
  | i + 1 => smul (r.getD i 0) (kron x (rexpAux x r i))

/-- Model of `ta_ops::restricted_exp`: the restricted exponential of `x`,
truncated to `depth` grades. -/
def restricted_exp (x : Vec) (r : List ℚ) (depth : ℕ) : TA :=
  (List.range depth).map (rexpAux x r)

theorem length_restricted_exp (x : Vec) (r : List ℚ) (depth : ℕ) :
    (restricted_exp x r depth).length = depth := by
  simp [restricted_exp]

theorem gr_restricted_exp (x : Vec) (r : List ℚ) (depth k : ℕ) (h : k < depth) :
    gr (restricted_exp x r depth) k = rexpAux x r k :=
  getD_map_range _ _ _ h

/-- The grade-`(k+1)` term of the restricted exponential is
`x^{⊗(k+1)} / (k+1)!`. -/
theorem rexpAux_eq (x : Vec) (r : List ℚ) (D : ℕ)
    (hr : ∀ i, i < D - 1 → r.getD i 0 = 1 / ((i : ℚ) + 2)) (k : ℕ) (hk : k < D) :
    rexpAux x r k = smul (1 / ((k + 1).factorial : ℚ)) (xpow x (k + 1)) := by
  induction k with
  | zero => simp [rexpAux, xpow_one]
  | succ m ih =>
    rw [rexpAux, ih (by omega), hr m (by omega), kron_smul_right, smul_smul,
      kron_xpow_left]
    congr 1
    have h1 : ((m + 1 + 1).factorial : ℚ)
        = ((m : ℚ) + 2) * ((m + 1).factorial : ℚ) := by
      rw [Nat.factorial_succ]; push_cast; ring
    have h2 : ((m + 1).factorial : ℚ) ≠ 0 := by
      exact_mod_cast Nat.factorial_ne_zero (m + 1)
    have h3 : ((m : ℚ) + 2) ≠ 0 := by positivity
    rw [h1]
    field_simp

theorem length_rexpAux (x : Vec) (r : List ℚ) (C : ℕ) (hx : x.length = C)
    (k : ℕ) : (rexpAux x r k).length = C ^ (k + 1) := by
  induction k with
  | zero => simpa [rexpAux] using hx
  | succ m ih =>
    rw [rexpAux, length_smul, length_kron, hx, ih, ← pow_succ']

theorem restricted_exp_shape (x : Vec) (r : List ℚ) (C depth : ℕ)
    (hx : x.length = C) : TAShape C depth (restricted_exp x r depth) := by
  refine ⟨length_restricted_exp x r depth, fun i hi => ?_⟩
  rw [gr_restricted_exp x r depth i hi, length_rexpAux x r C hx i]

/-- Value of `arg1[depth_index]` after one depth of `ta_ops::mult`: the
`ta_ops::detail::mult_inner` loop accumulates `arg1[j] ⊗ arg2[k]` with
`j + k = depth_index - 1` (`j` ascending) into views of `arg1[depth_index]`,
and the caller then adds `arg2[depth_index]`. -/
def multAt (arg1 arg2 : TA) (d : ℕ) : Vec :=
  vadd ((List.range d).foldl
      (fun acc j => vadd acc (kron (gr arg1 j) (gr arg2 (d - 1 - j))))
      (gr arg1 d))
    (gr arg2 d)

/-- Model of `ta_ops::mult`: in-place `arg1 ← arg1 ⊗ arg2` on truncated
elements with implicit unit scalar term.  The source's descending
`depth_index` loop reads only grades of `arg1` below the one it writes and
those are only overwritten by later iterations, so each written grade is
`multAt` of the original operand values. -/
def mult (arg1 arg2 : TA) : TA :=
  (List.range arg1.length).map (multAt arg1 arg2)

theorem foldl_vadd_eq (g : ℕ → Vec) (init : Vec) (l : List ℕ) :
    l.foldl (fun acc j => vadd acc (g j)) init = init + (l.map g).sum := by
  induction l generalizing init with
  | nil => simp [← zero_def]
  | cons a l ih =>
    rw [List.foldl_cons, ih, List.map_cons, List.sum_cons, ← add_assoc]
    rfl

theorem list_range_sum {M : Type} [AddCommMonoid M] (g : ℕ → M) (n : ℕ) :
    ((List.range n).map g).sum = ∑ j ∈ Finset.range n, g j := by
  induction n with
  | zero => simp
  | succ m ih =>
    rw [List.range_succ, List.map_append, List.sum_append, Finset.sum_range_succ,
      ih]
    simp [← zero_def]

theorem multAt_eq (arg1 arg2 : TA) (d : ℕ) :
    multAt arg1 arg2 d
      = gr arg1 d
          + (∑ j ∈ Finset.range d, kron (gr arg1 j) (gr arg2 (d - 1 - j)))
          + gr arg2 d := by
  rw [multAt, foldl_vadd_eq, list_range_sum]
  rfl

theorem length_mult (arg1 arg2 : TA) : (mult arg1 arg2).length = arg1.length := by
  simp [mult]

theorem gr_mult (arg1 arg2 : TA) (d : ℕ) (h : d < arg1.length) :
    gr (mult arg1 arg2) d = multAt arg1 arg2 d :=
  getD_map_range _ _ _ h

theorem length_add_eq (u v : Vec) (n : ℕ) (hu : u.length = n) (hv : v.length = n) :
    (u + v).length = n := by
  rw [add_def, length_vadd, hu, hv, Nat.max_self]

theorem multAt_length (C D : ℕ) (a b : TA) (ha : TAShape C D a)
    (hb : TAShape C D b) (d : ℕ) (hd : d < D) :
    (multAt a b d).length = C ^ (d + 1) := by
  rw [multAt_eq]
  apply length_add_eq _ _ _ _ (hb.2 d hd)
  rcases Nat.eq_zero_or_pos d with h0 | h0
  · subst h0
    simpa [← zero_def] using ha.2 0 hd
  · apply length_add_eq _ _ _ (ha.2 d hd)
    apply length_sum _ _ _ (by rw [Finset.nonempty_range_iff]; omega)
    intro j hj
    rw [Finset.mem_range] at hj
    rw [length_kron, ha.2 j (by omega), hb.2 (d - 1 - j) (by omega), ← pow_add]
    congr 1
    omega

theorem mult_shape (C D : ℕ) (a b : TA) (ha : TAShape C D a)
    (hb : TAShape C D b) : TAShape C D (mult a b) := by
  refine ⟨by rw [length_mult, ha.1], fun i hi => ?_⟩
  rw [gr_mult a b i (by rw [ha.1]; exact hi)]
  exact multAt_length C D a b ha hb i hi

/-- Horner scratch chain of `ta_ops::mult_fused_restricted_exp` at target
depth index `d` (`1 ≤ d < D`): value of `scratch` after inner iteration `j`.
Iteration `0` sets `scratch = prev[0] + next * reciprocals[d-1]`; iteration
`j ≥ 1` (with `k = d - 1 - j`) sets `scratch = prev[j] + scratch ⊗
(next * reciprocals[k])`, the outer product growing the trailing axis
(sides swapped under `inverse`). -/
def hornerScratch (next : Vec) (prev : TA) (inverse : Bool) (r : List ℚ)
    (d : ℕ) : ℕ → Vec
  | 0 => vadd (gr prev 0) (smul (r.getD (d - 1) 0) next)
  | j + 1 =>
    if inverse then
      vadd (gr prev (j + 1))
        (kron (smul (r.getD (d - 2 - j) 0) next)
          (hornerScratch next prev inverse r d j))
    else
      vadd (gr prev (j + 1))
        (kron (hornerScratch next prev inverse r d j)
          (smul (r.getD (d - 2 - j) 0) next))

/-- Model of `ta_ops::mult_fused_restricted_exp`: in-place
`prev ← prev ⊗ exp(next)` (`exp(next) ⊗ prev` under `inverse`) via the
Horner-like recurrence, never materializing the exponential.  Grade index
`d ≥ 1` receives `prev[d] + scratch ⊗ next` (sides swapped under `inverse`)
with the scratch fully driven to inner index `d - 1`, and grade `0`
receives `prev[0] + next`.  The source writes grades in descending order,
reading only grades below the one written, so each written grade is a
function of the original `prev`. -/
def mult_fused_restricted_exp (next : Vec) (prev : TA) (inverse : Bool)
    (r : List ℚ) : TA :=
  (List.range prev.length).map (fun d =>
    if d = 0 then vadd (gr prev 0) next
    else if inverse then
      vadd (gr prev d) (kron next (hornerScratch next prev inverse r d (d - 1)))
    else
      vadd (gr prev d) (kron (hornerScratch next prev inverse r d (d - 1)) next))

/-- Grade accessor of a truncated element extended with the implicit unit
scalar term: `pP A 0 = [1]` and `pP A (i+1) = A[i]`. -/
def pP (A : TA) (i : ℕ) : Vec := if i = 0 then [1] else gr A (i - 1)

theorem pP_zero (A : TA) : pP A 0 = [1] := rfl

theorem pP_succ (A : TA) (i : ℕ) : pP A (i + 1) = gr A i := rfl

theorem pP_length (C D : ℕ) (A : TA) (h : TAShape C D A) (i : ℕ)
    (hi : i ≤ D) : (pP A i).length = C ^ i := by
  rcases Nat.eq_zero_or_pos i with h0 | h0
  · subst h0; rfl
  · rw [pP, if_neg (by omega)]
    have := h.2 (i - 1) (by omega)
    rw [this]
    congr 1
    omega

/-- Horner scratch invariant (plain orientation): after inner iteration `j`
the scratch equals the grade-`(j+1)` part of `prev ⊗ expShift`, where the
`m`-th term carries the falling-reciprocal coefficient `cfac (d-j) m`. -/
theorem hornerScratch_false_eq (x : Vec) (prev : TA) (r : List ℚ) (D : ℕ)
    (hr : ∀ i, i < D - 1 → r.getD i 0 = 1 / ((i : ℚ) + 2))
    (d : ℕ) (hd1 : 1 ≤ d) (hdD : d < D) :
    ∀ j, j ≤ d - 1 →
      hornerScratch x prev false r d j
        = ∑ m ∈ Finset.range (j + 2),
            smul (cfac (d - j) m) (kron (pP prev (j + 1 - m)) (xpow x m)) := by
  intro j
  induction j with
  | zero =>
    intro _
    rw [Finset.sum_range_succ, Finset.sum_range_succ, Finset.sum_range_zero,
      zero_add]
    have hm0 : smul (cfac (d - 0) 0) (kron (pP prev (0 + 1 - 0)) (xpow x 0))
        = gr prev 0 := by
      simp [pP]
    have hm1 : smul (cfac (d - 0) 1) (kron (pP prev (0 + 1 - 1)) (xpow x 1))
        = smul (1 / ((d : ℚ) + 1)) x := by
      rw [xpow_one]
      have h01 : (0 + 1 - 1 : ℕ) = 0 := rfl
      rw [h01, pP_zero, kron_one_left, Nat.sub_zero, cfac_one]
    rw [hm0, hm1]
    have hs0 : hornerScratch x prev false r d 0
        = gr prev 0 + smul (r.getD (d - 1) 0) x := rfl
    rw [hs0, hr (d - 1) (by omega)]
    have hc : ((d - 1 : ℕ) : ℚ) + 2 = (d : ℚ) + 1 := by
      rw [Nat.cast_sub hd1]; push_cast; ring
    rw [hc]
  | succ i ih =>
    intro hj
    have hile : i ≤ d - 1 := by omega
    have hid2 : i + 2 ≤ d := by omega
    have hstep : hornerScratch x prev false r d (i + 1)
        = gr prev (i + 1)
            + kron (hornerScratch x prev false r d i)
                (smul (r.getD (d - 2 - i) 0) x) := rfl
    have hrv : r.getD (d - 2 - i) 0 = 1 / ((d : ℚ) - (i : ℚ)) := by
      rw [hr (d - 2 - i) (by omega)]
      congr 1
      have h1 : d - 2 - i = d - (2 + i) := by omega
      rw [h1, Nat.cast_sub (by omega : 2 + i ≤ d)]
      push_cast; ring
    rw [hstep, ih hile, hrv, kron_smul_right, kron_sum_left, smul_sum]
    have hterm : ∀ m ∈ Finset.range (i + 2),
        smul (1 / ((d : ℚ) - (i : ℚ)))
            (kron (smul (cfac (d - i) m) (kron (pP prev (i + 1 - m)) (xpow x m))) x)
          = smul (cfac (d - (i + 1)) (m + 1))
              (kron (pP prev (i + 1 - m)) (xpow x (m + 1))) := by
      intro m _
      rw [kron_smul_left, smul_smul, kron_assoc, ← xpow_succ]
      congr 1
      have ha : d - i = (d - i - 1) + 1 := by omega
      have hcast : ((d - i - 1 : ℕ) : ℚ) + 1 = (d : ℚ) - (i : ℚ) := by
        have h1 : d - i - 1 = d - (i + 1) := by omega
        rw [h1, Nat.cast_sub (by omega : i + 1 ≤ d)]
        push_cast; ring
      have hb : d - (i + 1) = d - i - 1 := by omega
      rw [mul_comm, ha, ← hcast, cfac_step, hb]
    rw [Finset.sum_congr rfl hterm]
    conv_rhs => rw [Finset.sum_range_succ']
    have hshift : ∀ m ∈ Finset.range (i + 2),
        smul (cfac (d - (i + 1)) (m + 1))
            (kron (pP prev (i + 1 + 1 - (m + 1))) (xpow x (m + 1)))
          = smul (cfac (d - (i + 1)) (m + 1))
              (kron (pP prev (i + 1 - m)) (xpow x (m + 1))) := by
      intro m _
      have h1 : i + 1 + 1 - (m + 1) = i + 1 - m := by omega
      rw [h1]
    rw [Finset.sum_congr rfl hshift]
    have hzero : smul (cfac (d - (i + 1)) 0) (kron (pP prev (i + 1 + 1 - 0)) (xpow x 0))
        = gr prev (i + 1) := by
      have : i + 1 + 1 - 0 = (i + 1) + 1 := rfl
      rw [this, pP_succ]
      simp
    rw [hzero]
    exact add_comm (gr prev (i + 1))
      (∑ m ∈ Finset.range (i + 2),
        smul (cfac (d - (i + 1)) (m + 1)) (kron (pP prev (i + 1 - m)) (xpow x (m + 1))))

theorem map_range_congr (f g : ℕ → Vec) (n : ℕ) (h : ∀ i, i < n → f i = g i) :
    (List.range n).map f = (List.range n).map g := by
  induction n with
  | zero => rfl
  | succ m ih =>
    rw [List.range_succ, List.map_append, List.map_append,
      ih (fun i hi => h i (by omega))]
    simp [h m (by omega)]

theorem length_mult_fused (next : Vec) (prev : TA) (inverse : Bool) (r : List ℚ) :
    (mult_fused_restricted_exp next prev inverse r).length = prev.length := by
  simp [mult_fused_restricted_exp]

/-- Correctness of the fused kernel, plain orientation: it computes the
tensor-algebra product of `prev` with the restricted exponential of `next`. -/
theorem fused_false_eq_mult (x : Vec) (prev : TA) (r : List ℚ) (D : ℕ)
    (hr : ∀ i, i < D - 1 → r.getD i 0 = 1 / ((i : ℚ) + 2))
    (hlen : prev.length = D) :
    mult_fused_restricted_exp x prev false r
      = mult prev (restricted_exp x r D) := by
  rw [mult_fused_restricted_exp, mult, hlen]
  apply map_range_congr
  intro d hd
  by_cases h0 : d = 0
  · subst h0
    rw [if_pos rfl, multAt_eq, Finset.sum_range_zero,
      gr_restricted_exp x r D 0 (by omega)]
    show gr prev 0 + x = gr prev 0 + 0 + x
    rw [add_zero]
  · have hd1 : 1 ≤ d := by omega
    rw [if_neg h0, if_neg Bool.false_ne_true, multAt_eq,
      hornerScratch_false_eq x prev r D hr d hd1 hd (d - 1) le_rfl]
    have e1 : d - 1 + 2 = d + 1 := by omega
    have e2 : d - (d - 1) = 1 := by omega
    have e3 : d - 1 + 1 = d := by omega
    rw [e1, e2, e3, kron_sum_left]
    have hterm : ∀ m ∈ Finset.range (d + 1),
        kron (smul (cfac 1 m) (kron (pP prev (d - m)) (xpow x m))) x
          = smul (1 / (((m + 1).factorial : ℚ)))
              (kron (pP prev (d - m)) (xpow x (m + 1))) := by
      intro m _
      rw [kron_smul_left, kron_assoc, ← xpow_succ, cfac_one_left]
    rw [Finset.sum_congr rfl hterm]
    have hterm2 : ∀ j ∈ Finset.range d,
        kron (gr prev j) (gr (restricted_exp x r D) (d - 1 - j))
          = (fun m => smul (1 / (((m + 1).factorial : ℚ)))
              (kron (pP prev (d - m)) (xpow x (m + 1)))) (d - 1 - j) := by
      intro j hj
      rw [Finset.mem_range] at hj
      have hjd : d - (d - 1 - j) = j + 1 := by omega
      simp only
      rw [gr_restricted_exp x r D _ (by omega),
        rexpAux_eq x r D hr _ (by omega), kron_smul_right, hjd, pP_succ]
    rw [Finset.sum_congr rfl hterm2,
      Finset.sum_range_reflect (fun m => smul (1 / (((m + 1).factorial : ℚ)))
        (kron (pP prev (d - m)) (xpow x (m + 1)))) d,
      gr_restricted_exp x r D d hd, rexpAux_eq x r D hr d hd]
    have hEd : smul (1 / (((d + 1).factorial : ℚ))) (xpow x (d + 1))
        = smul (1 / (((d + 1).factorial : ℚ)))
            (kron (pP prev (d - d)) (xpow x (d + 1))) := by
      have hdd : d - d = 0 := by omega
      rw [hdd, pP_zero, kron_one_left]
    rw [hEd, add_assoc, ← Finset.sum_range_succ]
    rfl

/-- Horner scratch invariant, inverse orientation: the outer products grow
on the left, encoding `exp(next) ⊗ prev`. -/
theorem hornerScratch_true_eq (C : ℕ) (x : Vec) (prev : TA) (r : List ℚ)
    (D : ℕ) (hr : ∀ i, i < D - 1 → r.getD i 0 = 1 / ((i : ℚ) + 2))
    (hx : x.length = C) (hA : TAShape C D prev)
    (d : ℕ) (hd1 : 1 ≤ d) (hdD : d < D) :
    ∀ j, j ≤ d - 1 →
      hornerScratch x prev true r d j
        = ∑ m ∈ Finset.range (j + 2),
            smul (cfac (d - j) m) (kron (xpow x m) (pP prev (j + 1 - m))) := by
  intro j
  induction j with
  | zero =>
    intro _
    rw [Finset.sum_range_succ, Finset.sum_range_succ, Finset.sum_range_zero,
      zero_add]
    have hm0 : smul (cfac (d - 0) 0) (kron (xpow x 0) (pP prev (0 + 1 - 0)))
        = gr prev 0 := by
      simp [pP]
    have hm1 : smul (cfac (d - 0) 1) (kron (xpow x 1) (pP prev (0 + 1 - 1)))
        = smul (1 / ((d : ℚ) + 1)) x := by
      rw [xpow_one]
      have h01 : (0 + 1 - 1 : ℕ) = 0 := rfl
      rw [h01, pP_zero, kron_one_right, Nat.sub_zero, cfac_one]
    rw [hm0, hm1]
    have hs0 : hornerScratch x prev true r d 0
        = gr prev 0 + smul (r.getD (d - 1) 0) x := rfl
    rw [hs0, hr (d - 1) (by omega)]
    have hc : ((d - 1 : ℕ) : ℚ) + 2 = (d : ℚ) + 1 := by
      rw [Nat.cast_sub hd1]; push_cast; ring
    rw [hc]
  | succ i ih =>
    intro hj
    have hile : i ≤ d - 1 := by omega
    have hid2 : i + 2 ≤ d := by omega
    have hstep : hornerScratch x prev true r d (i + 1)
        = gr prev (i + 1)
            + kron (smul (r.getD (d - 2 - i) 0) x)
                (hornerScratch x prev true r d i) := rfl
    have hrv : r.getD (d - 2 - i) 0 = 1 / ((d : ℚ) - (i : ℚ)) := by
      rw [hr (d - 2 - i) (by omega)]
      congr 1
      have h1 : d - 2 - i = d - (2 + i) := by omega
      rw [h1, Nat.cast_sub (by omega : 2 + i ≤ d)]
      push_cast; ring
    rw [hstep, ih hile, hrv, kron_smul_left,
      kron_sum_right x (C ^ (i + 1)) _ _ (by
        intro m hm
        rw [Finset.mem_range] at hm
        rw [length_smul, length_kron, length_xpow, hx,
          pP_length C D prev hA (i + 1 - m) (by omega), ← pow_add]
        congr 1
        omega),
      smul_sum]
    have hterm : ∀ m ∈ Finset.range (i + 2),
        smul (1 / ((d : ℚ) - (i : ℚ)))
            (kron x (smul (cfac (d - i) m) (kron (xpow x m) (pP prev (i + 1 - m)))))
          = smul (cfac (d - (i + 1)) (m + 1))
              (kron (xpow x (m + 1)) (pP prev (i + 1 - m))) := by
      intro m _
      rw [kron_smul_right, smul_smul, ← kron_assoc, kron_xpow_left]
      congr 1
      have ha : d - i = (d - i - 1) + 1 := by omega
      have hcast : ((d - i - 1 : ℕ) : ℚ) + 1 = (d : ℚ) - (i : ℚ) := by
        have h1 : d - i - 1 = d - (i + 1) := by omega
        rw [h1, Nat.cast_sub (by omega : i + 1 ≤ d)]
        push_cast; ring
      have hb : d - (i + 1) = d - i - 1 := by omega
      rw [mul_comm, ha, ← hcast, cfac_step, hb]
    rw [Finset.sum_congr rfl hterm]
    conv_rhs => rw [Finset.sum_range_succ']
    have hshift : ∀ m ∈ Finset.range (i + 2),
        smul (cfac (d - (i + 1)) (m + 1))
            (kron (xpow x (m + 1)) (pP prev (i + 1 + 1 - (m + 1))))
          = smul (cfac (d - (i + 1)) (m + 1))
              (kron (xpow x (m + 1)) (pP prev (i + 1 - m))) := by
      intro m _
      have h1 : i + 1 + 1 - (m + 1) = i + 1 - m := by omega
      rw [h1]
    rw [Finset.sum_congr rfl hshift]
    have hzero : smul (cfac (d - (i + 1)) 0) (kron (xpow x 0) (pP prev (i + 1 + 1 - 0)))
        = gr prev (i + 1) := by
      have h1 : i + 1 + 1 - 0 = (i + 1) + 1 := rfl
      rw [h1, pP_succ]
      simp
    rw [hzero]
    exact add_comm (gr prev (i + 1))
      (∑ m ∈ Finset.range (i + 2),
        smul (cfac (d - (i + 1)) (m + 1)) (kron (xpow x (m + 1)) (pP prev (i + 1 - m))))

/-- Correctness of the fused kernel, inverse orientation: it computes the
product of the restricted exponential of `next` with `prev` (the new
increment multiplied on the left). -/
theorem fused_true_eq_mult (C : ℕ) (x : Vec) (prev : TA) (r : List ℚ) (D : ℕ)
    (hr : ∀ i, i < D - 1 → r.getD i 0 = 1 / ((i : ℚ) + 2))
    (hx : x.length = C) (hA : TAShape C D prev) :
    mult_fused_restricted_exp x prev true r
      = mult (restricted_exp x r D) prev := by
  rw [mult_fused_restricted_exp, mult, hA.1, length_restricted_exp]
  apply map_range_congr
  intro d hd
  by_cases h0 : d = 0
  · subst h0
    rw [if_pos rfl, multAt_eq, Finset.sum_range_zero,
      gr_restricted_exp x r D 0 (by omega)]
    show gr prev 0 + x = rexpAux x r 0 + 0 + gr prev 0
    rw [add_zero]
    exact add_comm (gr prev 0) x
  · have hd1 : 1 ≤ d := by omega
    rw [if_neg h0, if_pos rfl, multAt_eq,
      hornerScratch_true_eq C x prev r D hr hx hA d hd1 hd (d - 1) le_rfl]
    have e1 : d - 1 + 2 = d + 1 := by omega
    have e2 : d - (d - 1) = 1 := by omega
    have e3 : d - 1 + 1 = d := by omega
    rw [e1, e2, e3,
      kron_sum_right x (C ^ d) _ _ (by
        intro m hm
        rw [Finset.mem_range] at hm
        rw [length_smul, length_kron, length_xpow, hx,
          pP_length C D prev hA (d - m) (by omega), ← pow_add]
        congr 1
        omega)]
    have hterm : ∀ m ∈ Finset.range (d + 1),
        kron x (smul (cfac 1 m) (kron (xpow x m) (pP prev (d - m))))
          = smul (1 / (((m + 1).factorial : ℚ)))
              (kron (xpow x (m + 1)) (pP prev (d - m))) := by
      intro m _
      rw [kron_smul_right, ← kron_assoc, kron_xpow_left, cfac_one_left]
    rw [Finset.sum_congr rfl hterm]
    have hterm2 : ∀ j ∈ Finset.range d,
        kron (gr (restricted_exp x r D) j) (gr prev (d - 1 - j))
          = smul (1 / (((j + 1).factorial : ℚ)))
              (kron (xpow x (j + 1)) (pP prev (d - j))) := by
      intro j hj
      rw [Finset.mem_range] at hj
      have hjd : d - 1 - j + 1 = d - j := by omega
      rw [gr_restricted_exp x r D _ (by omega),
        rexpAux_eq x r D hr _ (by omega), kron_smul_left, ← pP_succ, hjd]
    rw [Finset.sum_congr rfl hterm2,
      gr_restricted_exp x r D d hd, rexpAux_eq x r D hr d hd]
    have hEd : smul (1 / (((d + 1).factorial : ℚ))) (xpow x (d + 1))
        = smul (1 / (((d + 1).factorial : ℚ)))
            (kron (xpow x (d + 1)) (pP prev (d - d))) := by
      have hdd : d - d = 0 := by omega
      rw [hdd, pP_zero, kron_one_right]
    rw [hEd, Finset.sum_range_succ]
    show gr prev d + _ = _
    abel

theorem kron_add_left (u u' v : Vec) :
    kron (u + u') v = kron u v + kron u' v := kron_vadd_left u u' v

theorem kron_add_right (u v v' : Vec) (h : v.length = v'.length ∨ v' = 0) :
    kron u (v + v') = kron u v + kron u v' := kron_vadd_right' u v v' h

theorem inner_sum_length (C D : ℕ) (b c : TA) (hb : TAShape C D b)
    (hc : TAShape C D c) (g : ℕ) (hg : g < D) (h0 : 0 < g) :
    (∑ q ∈ Finset.range g, kron (gr b q) (gr c (g - 1 - q))).length
      = C ^ (g + 1) := by
  apply length_sum _ _ _ (by rw [Finset.nonempty_range_iff]; omega)
  intro q hq
  rw [Finset.mem_range] at hq
  rw [length_kron, hb.2 q (by omega), hc.2 (g - 1 - q) (by omega), ← pow_add]
  congr 1
  omega

theorem kron_multAt_right (C D : ℕ) (b c : TA) (hb : TAShape C D b)
    (hc : TAShape C D c) (u : Vec) (g : ℕ) (hg : g < D) :
    kron u (multAt b c g)
      = kron u (gr b g)
          + (∑ q ∈ Finset.range g, kron u (kron (gr b q) (gr c (g - 1 - q))))
          + kron u (gr c g) := by
  rw [multAt_eq]
  by_cases h0 : g = 0
  · subst h0
    rw [Finset.sum_range_zero, Finset.sum_range_zero, add_zero, add_zero,
      kron_add_right u _ _ (Or.inl (by rw [hb.2 0 hg, hc.2 0 hg]))]
  · have hgpos : 0 < g := by omega
    have hlen := inner_sum_length C D b c hb hc g hg hgpos
    have h1 : (gr b g + ∑ q ∈ Finset.range g, kron (gr b q) (gr c (g - 1 - q))).length
        = (gr c g).length := by
      rw [add_def, length_vadd, hb.2 g hg, hlen, hc.2 g hg]
      simp
    rw [kron_add_right u _ _ (Or.inl h1),
      kron_add_right u _ _ (Or.inl (by rw [hb.2 g hg, hlen])),
      kron_sum_right u (C ^ (g + 1)) _ _ (by
        intro q hq
        rw [Finset.mem_range] at hq
        rw [length_kron, hb.2 q (by omega), hc.2 (g - 1 - q) (by omega), ← pow_add]
        congr 1
        omega)]

theorem multAt_kron_left (a b : TA) (w : Vec) (g : ℕ) :
    kron (multAt a b g) w
      = kron (gr a g) w
          + (∑ p ∈ Finset.range g, kron (kron (gr a p) (gr b (g - 1 - p))) w)
          + kron (gr b g) w := by
  rw [multAt_eq, kron_add_left, kron_add_left, kron_sum_left]

/-- Associativity of the truncated tensor-algebra product on shape-correct
by-term elements. -/
theorem mult_assoc_ta (C D : ℕ) (a b c : TA) (ha : TAShape C D a)
    (hb : TAShape C D b) (hc : TAShape C D c) :
    mult (mult a b) c = mult a (mult b c) := by
  show (List.range (mult a b).length).map (multAt (mult a b) c)
      = (List.range a.length).map (multAt a (mult b c))
  rw [length_mult]
  apply map_range_congr
  intro d hdlen
  have hd : d < D := by rw [ha.1] at hdlen; exact hdlen
  rw [multAt_eq, multAt_eq, gr_mult a b d hdlen, multAt_eq,
    gr_mult b c d (by rw [hb.1]; exact hd), multAt_eq]
  have hL : ∀ j ∈ Finset.range d,
      kron (gr (mult a b) j) (gr c (d - 1 - j))
        = kron (gr a j) (gr c (d - 1 - j))
            + (∑ p ∈ Finset.range j,
                kron (kron (gr a p) (gr b (j - 1 - p))) (gr c (d - 1 - j)))
            + kron (gr b j) (gr c (d - 1 - j)) := by
    intro j hj
    rw [Finset.mem_range] at hj
    rw [gr_mult a b j (by rw [ha.1]; omega), multAt_kron_left]
  have hR : ∀ j ∈ Finset.range d,
      kron (gr a j) (gr (mult b c) (d - 1 - j))
        = kron (gr a j) (gr b (d - 1 - j))
            + (∑ q ∈ Finset.range (d - 1 - j),
                kron (gr a j) (kron (gr b q) (gr c (d - 1 - j - 1 - q))))
            + kron (gr a j) (gr c (d - 1 - j)) := by
    intro j hj
    rw [Finset.mem_range] at hj
    rw [gr_mult b c (d - 1 - j) (by rw [hb.1]; omega),
      kron_multAt_right C D b c hb hc _ _ (by omega)]
  rw [Finset.sum_congr rfl hL, Finset.sum_congr rfl hR,
    Finset.sum_add_distrib, Finset.sum_add_distrib,
    Finset.sum_add_distrib, Finset.sum_add_distrib]
  have hdd :
      ∑ j ∈ Finset.range d, ∑ p ∈ Finset.range j,
          kron (kron (gr a p) (gr b (j - 1 - p))) (gr c (d - 1 - j))
        = ∑ j ∈ Finset.range d, ∑ q ∈ Finset.range (d - 1 - j),
            kron (gr a j) (kron (gr b q) (gr c (d - 1 - j - 1 - q))) := by
    rw [Finset.sum_sigma' (Finset.range d) (fun j => Finset.range j),
      Finset.sum_sigma' (Finset.range d) (fun j => Finset.range (d - 1 - j))]
    refine Finset.sum_nbij' (fun x => ⟨x.2, x.1 - 1 - x.2⟩)
      (fun x => ⟨x.1 + x.2 + 1, x.1⟩) ?_ ?_ ?_ ?_ ?_
    · rintro ⟨j, p⟩ hx
      simp only [Finset.mem_sigma, Finset.mem_range] at hx ⊢
      omega
    · rintro ⟨j, q⟩ hx
      simp only [Finset.mem_sigma, Finset.mem_range] at hx ⊢
      omega
    · rintro ⟨j, p⟩ hx
      simp only [Finset.mem_sigma, Finset.mem_range] at hx
      have h1 : p + (j - 1 - p) + 1 = j := by omega
      simp only [h1]
    · rintro ⟨j, q⟩ hx
      simp only [Finset.mem_sigma, Finset.mem_range] at hx
      have h1 : j + q + 1 - 1 - j = q := by omega
      simp only [h1]
    · rintro ⟨j, p⟩ hx
      simp only [Finset.mem_sigma, Finset.mem_range] at hx
      simp only
      rw [kron_assoc,
        (by omega : d - 1 - p - 1 - (j - 1 - p) = d - 1 - j)]
  rw [hdd]
  abel

/-- The unit of the truncated tensor algebra in by-term form: every stored
grade is zero (the implicit scalar term is `1`). -/
def oneTA (C D : ℕ) : TA := (List.range D).map (fun i => vzero (C ^ (i + 1)))

theorem gr_oneTA (C D i : ℕ) (h : i < D) : gr (oneTA C D) i = vzero (C ^ (i + 1)) :=
  getD_map_range _ _ _ h

theorem oneTA_shape (C D : ℕ) : TAShape C D (oneTA C D) :=
  ⟨by simp [oneTA], fun i hi => by rw [gr_oneTA C D i hi, length_vzero]⟩

theorem map_range_gr (A : TA) : (List.range A.length).map (gr A) = A := by
  apply List.ext_getElem (by simp)
  intro i h1 h2
  simp only [List.getElem_map, List.getElem_range]
  rw [gr, List.getD_eq_getElem?_getD, List.getElem?_eq_getElem h2]
  rfl

theorem sum_vzero (n d : ℕ) (hd : 0 < d) :
    (∑ _j ∈ Finset.range d, vzero n) = vzero n := by
  induction d with
  | zero => omega
  | succ m ih =>
    rcases Nat.eq_zero_or_pos m with h0 | h0
    · subst h0; simp
    · rw [Finset.sum_range_succ, ih h0, add_def,
        vadd_vzero_right _ _ (by simp)]

theorem mult_oneTA_right (C D : ℕ) (a : TA) (ha : TAShape C D a) :
    mult a (oneTA C D) = a := by
  rw [mult]
  have h : ∀ d, d < a.length → multAt a (oneTA C D) d = gr a d := by
    intro d hd
    have hdD : d < D := by rw [← ha.1]; exact hd
    rw [multAt_eq, gr_oneTA C D d hdD]
    have hterm : ∀ j ∈ Finset.range d,
        kron (gr a j) (gr (oneTA C D) (d - 1 - j)) = vzero (C ^ (d + 1)) := by
      intro j hj
      rw [Finset.mem_range] at hj
      rw [gr_oneTA C D (d - 1 - j) (by omega), kron_vzero_right,
        ha.2 j (by omega), ← pow_add,
        (by omega : j + 1 + (d - 1 - j + 1) = d + 1)]
    rw [Finset.sum_congr rfl hterm]
    have h6 : gr a d + vzero (C ^ (d + 1)) = gr a d := by
      rw [add_def]
      exact vadd_vzero_right _ _ (ha.2 d hdD)
    rcases Nat.eq_zero_or_pos d with h0 | h0
    · subst h0
      rw [Finset.sum_range_zero, add_zero, h6]
    · rw [sum_vzero _ _ h0, h6, h6]
  calc (List.range a.length).map (multAt a (oneTA C D))
      = (List.range a.length).map (gr a) := map_range_congr _ _ _ h
    _ = a := map_range_gr a

theorem mult_oneTA_left (C D : ℕ) (a : TA) (ha : TAShape C D a) :
    mult (oneTA C D) a = a := by
  rw [mult]
  have hlen : (oneTA C D).length = a.length := by
    simp [oneTA, ha.1]
  rw [hlen]
  have h : ∀ d, d < a.length → multAt (oneTA C D) a d = gr a d := by
    intro d hd
    have hdD : d < D := by rw [← ha.1]; exact hd
    rw [multAt_eq, gr_oneTA C D d hdD]
    have hterm : ∀ j ∈ Finset.range d,
        kron (gr (oneTA C D) j) (gr a (d - 1 - j)) = vzero (C ^ (d + 1)) := by
      intro j hj
      rw [Finset.mem_range] at hj
      rw [gr_oneTA C D j (by omega), kron_vzero_left,
        ha.2 (d - 1 - j) (by omega), ← pow_add,
        (by omega : j + 1 + (d - 1 - j + 1) = d + 1)]
    rw [Finset.sum_congr rfl hterm]
    rcases Nat.eq_zero_or_pos d with h0 | h0
    · subst h0
      rw [Finset.sum_range_zero, add_zero, add_def]
      exact vadd_vzero_left _ _ (ha.2 0 hdD)
    · rw [sum_vzero _ _ h0]
      have hz : vzero (C ^ (d + 1)) + vzero (C ^ (d + 1)) = vzero (C ^ (d + 1)) := by
        rw [add_def]
        exact vadd_vzero_right _ _ (by simp)
      rw [hz, add_def]
      exact vadd_vzero_left _ _ (ha.2 d hdD)
  calc (List.range a.length).map (multAt (oneTA C D) a)
      = (List.range a.length).map (gr a) := map_range_congr _ _ _ h
    _ = a := map_range_gr a

theorem xpow_add (x : Vec) (m n : ℕ) :
    kron (xpow x m) (xpow x n) = xpow x (m + n) := by
  induction n with
  | zero => simp
  | succ k ih =>
    rw [xpow_succ, ← kron_assoc, ih, ← xpow_succ]
    rfl

theorem alt_sum_reciprocal_factorials (n : ℕ) (hn : 1 ≤ n) :
    ∑ m ∈ Finset.range (n + 1),
        ((-1 : ℚ) ^ m * (1 / ((m.factorial : ℚ) * ((n - m).factorial : ℚ)))) = 0 := by
  have h1 : ∀ m ∈ Finset.range (n + 1),
      ((-1 : ℚ)) ^ m * (1 / ((m.factorial : ℚ) * ((n - m).factorial : ℚ)))
        = ((-1 : ℚ) ^ m * (n.choose m : ℚ)) / (n.factorial : ℚ) := by
    intro m hm
    rw [Finset.mem_range] at hm
    have hm2 : m ≤ n := by omega
    have hcast : ((n.choose m : ℕ) : ℚ) * (m.factorial : ℚ) * ((n - m).factorial : ℚ)
        = (n.factorial : ℚ) := by
      exact_mod_cast congrArg (fun t : ℕ => (t : ℚ))
        (Nat.choose_mul_factorial_mul_factorial hm2)
    have hmf : (m.factorial : ℚ) ≠ 0 := by
      exact_mod_cast Nat.factorial_ne_zero m
    have hnmf : ((n - m).factorial : ℚ) ≠ 0 := by
      exact_mod_cast Nat.factorial_ne_zero (n - m)
    have hnf : (n.factorial : ℚ) ≠ 0 := by
      exact_mod_cast Nat.factorial_ne_zero n
    have h6 : (1 : ℚ) / ((m.factorial : ℚ) * ((n - m).factorial : ℚ))
        = (n.choose m : ℚ) / (n.factorial : ℚ) := by
      rw [div_eq_div_iff (by positivity) hnf]
      nlinarith [hcast]
    rw [h6]
    exact (mul_div_assoc _ _ _).symm
  rw [Finset.sum_congr rfl h1, ← Finset.sum_div]
  have h2 : ∑ m ∈ Finset.range (n + 1), ((-1 : ℚ) ^ m * (n.choose m : ℚ)) = 0 := by
    have h3 := Int.alternating_sum_range_choose_of_ne (n := n) (by omega)
    have h4 : ((∑ m ∈ Finset.range (n + 1),
        ((-1 : ℤ) ^ m * (n.choose m : ℤ))) : ℚ) = ((0 : ℤ) : ℚ) := by
      exact_mod_cast congrArg (fun t : ℤ => (t : ℚ)) h3
    push_cast at h4
    exact h4
  rw [h2, zero_div]

/-- The restricted exponentials of `x` and `-x` are mutually inverse in the
truncated tensor algebra. -/
theorem rexp_mult_rexp_neg (C D : ℕ) (x : Vec) (r : List ℚ)
    (hr : ∀ i, i < D - 1 → r.getD i 0 = 1 / ((i : ℚ) + 2))
    (hx : x.length = C) :
    mult (restricted_exp x r D) (restricted_exp (vneg x) r D) = oneTA C D := by
  rw [mult, length_restricted_exp, oneTA]
  apply map_range_congr
  intro d hd
  rw [multAt_eq]
  have hEd : gr (restricted_exp x r D) d
      = smul ((-1 : ℚ) ^ 0 * (1 / ((0 : ℕ).factorial * ((d + 1 - 0).factorial : ℚ))))
          (xpow x (d + 1)) := by
    rw [gr_restricted_exp x r D d hd, rexpAux_eq x r D hr d hd]
    congr 1
    simp
  have hEd' : gr (restricted_exp (vneg x) r D) d
      = smul ((-1 : ℚ) ^ (d + 1)
            * (1 / (((d + 1).factorial : ℚ) * ((d + 1 - (d + 1)).factorial : ℚ))))
          (xpow x (d + 1)) := by
    rw [gr_restricted_exp _ r D d hd, rexpAux_eq _ r D hr d hd, xpow_neg,
      smul_smul]
    congr 1
    simp [Nat.factorial]
    ring
  have hterm : ∀ j ∈ Finset.range d,
      kron (gr (restricted_exp x r D) j) (gr (restricted_exp (vneg x) r D) (d - 1 - j))
        = (fun m => smul ((-1 : ℚ) ^ m
              * (1 / ((m.factorial : ℚ) * ((d + 1 - m).factorial : ℚ))))
            (xpow x (d + 1))) (d - j) := by
    intro j hj
    rw [Finset.mem_range] at hj
    simp only
    rw [gr_restricted_exp x r D j (by omega), rexpAux_eq x r D hr j (by omega),
      gr_restricted_exp _ r D (d - 1 - j) (by omega),
      rexpAux_eq _ r D hr (d - 1 - j) (by omega), xpow_neg, smul_smul,
      kron_smul_left, kron_smul_right, smul_smul, xpow_add]
    have e1 : d - 1 - j + 1 = d - j := by omega
    rw [e1]
    have e2 : j + 1 + (d - j) = d + 1 := by omega
    have e3 : d + 1 - (d - j) = j + 1 := by omega
    rw [e2, e3]
    congr 1
    ring
  rw [Finset.sum_congr rfl hterm, hEd, hEd']
  have hrefl : ∑ j ∈ Finset.range d,
      (fun m => smul ((-1 : ℚ) ^ m
            * (1 / ((m.factorial : ℚ) * ((d + 1 - m).factorial : ℚ))))
          (xpow x (d + 1))) (d - j)
      = ∑ j ∈ Finset.range d,
          (fun m => smul ((-1 : ℚ) ^ (m + 1)
                * (1 / (((m + 1).factorial : ℚ) * ((d + 1 - (m + 1)).factorial : ℚ))))
              (xpow x (d + 1))) (d - 1 - j) := by
    apply Finset.sum_congr rfl
    intro j hj
    rw [Finset.mem_range] at hj
    simp only
    have e1 : d - 1 - j + 1 = d - j := by omega
    rw [e1]
  rw [hrefl,
    Finset.sum_range_reflect (fun m => smul ((-1 : ℚ) ^ (m + 1)
        * (1 / (((m + 1).factorial : ℚ) * ((d + 1 - (m + 1)).factorial : ℚ))))
      (xpow x (d + 1))) d]
  have h5 : ∀ F : ℕ → Vec,
      F 0 + (∑ j ∈ Finset.range d, F (j + 1)) + F (d + 1)
        = ∑ m ∈ Finset.range (d + 1 + 1), F m := by
    intro F
    rw [Finset.sum_range_succ F (d + 1), Finset.sum_range_succ' F d]
    abel
  rw [h5 (fun m => smul ((-1 : ℚ) ^ m
      * (1 / ((m.factorial : ℚ) * ((d + 1 - m).factorial : ℚ))))
    (xpow x (d + 1)))]
  rw [sum_smul_same (d + 1)
    (fun m => (-1 : ℚ) ^ m * (1 / ((m.factorial : ℚ) * ((d + 1 - m).factorial : ℚ))))
    (xpow x (d + 1))]
  rw [alt_sum_reciprocal_factorials (d + 1) (by omega), smul_zero_left,
    length_xpow, hx]

theorem vneg_vneg (v : Vec) : vneg (vneg v) = v := by
  simp [vneg, List.map_map, Function.comp_def]

@[simp] theorem length_vneg (v : Vec) : (vneg v).length = v.length := by
  simp [vneg]

/-- The restricted exponentials of `-x` and `x` are mutually inverse. -/
theorem rexp_neg_mult_rexp (C D : ℕ) (x : Vec) (r : List ℚ)
    (hr : ∀ i, i < D - 1 → r.getD i 0 = 1 / ((i : ℚ) + 2))
    (hx : x.length = C) :
    mult (restricted_exp (vneg x) r D) (restricted_exp x r D) = oneTA C D := by
  have h := rexp_mult_rexp_neg C D (vneg x) r hr (by simpa using hx)
  rwa [vneg_vneg] at h

/-- Shape preservation for the fused kernel (via its product form). -/
theorem fused_shape (C D : ℕ) (x : Vec) (prev : TA) (inv : Bool) (r : List ℚ)
    (hr : ∀ i, i < D - 1 → r.getD i 0 = 1 / ((i : ℚ) + 2))
    (hx : x.length = C) (hA : TAShape C D prev) :
    TAShape C D (mult_fused_restricted_exp x prev inv r) := by
  cases inv
  · rw [fused_false_eq_mult x prev r D hr hA.1]
    exact mult_shape C D _ _ hA (restricted_exp_shape x r C D hx)
  · rw [fused_true_eq_mult C x prev r D hr hx hA]
    exact mult_shape C D _ _ (restricted_exp_shape x r C D hx) hA

/-- Round-trip invertibility of the fused kernel: applying it with `x` and
then with `-x` restores the original element exactly. -/
theorem fused_roundtrip (C D : ℕ) (x : Vec) (A : TA) (inv : Bool) (r : List ℚ)
    (hr : ∀ i, i < D - 1 → r.getD i 0 = 1 / ((i : ℚ) + 2))
    (hx : x.length = C) (hA : TAShape C D A) :
    mult_fused_restricted_exp (vneg x)
        (mult_fused_restricted_exp x A inv r) inv r = A := by
  have hEx := restricted_exp_shape x r C D hx
  have hEnx := restricted_exp_shape (vneg x) r C D (by simpa using hx)
  cases inv
  · rw [fused_false_eq_mult x A r D hr hA.1,
      fused_false_eq_mult (vneg x) _ r D hr (by rw [length_mult, hA.1]),
      mult_assoc_ta C D A _ _ hA hEx hEnx,
      rexp_mult_rexp_neg C D x r hr hx, mult_oneTA_right C D A hA]
  · rw [fused_true_eq_mult C x A r D hr hx hA,
      fused_true_eq_mult C (vneg x) _ r D hr (by simpa using hx)
        (mult_shape C D _ _ hEx hA),
      ← mult_assoc_ta C D _ _ A hEnx hEx hA,
      rexp_neg_mult_rexp C D x r hr hx, mult_oneTA_left C D A hA]

/-- Per-batch fold of the fused kernel over a list of increments: the body
of `signature_forward_inner` restricted to one batch element. -/
def sigFold (r : List ℚ) (inv : Bool) (A : TA) (incs : List Vec) : TA :=
  incs.foldl (fun acc nx => mult_fused_restricted_exp nx acc inv r) A

/-- Per-batch signature of a nonempty increment list, no initial value:
restricted exponential of the first increment, then the fused kernel for
the rest (steps 3-4 of the forward pipeline at one batch element). -/
def sigOf (r : List ℚ) (D : ℕ) (inv : Bool) (incs : List Vec) : TA :=
  sigFold r inv (restricted_exp (incs.headD []) r D) (incs.drop 1)

theorem sigFold_append (r : List ℚ) (inv : Bool) (A : TA) (l1 l2 : List Vec) :
    sigFold r inv A (l1 ++ l2) = sigFold r inv (sigFold r inv A l1) l2 :=
  List.foldl_append _ _ l1 l2

theorem sigFold_shape (C D : ℕ) (r : List ℚ)
    (hr : ∀ i, i < D - 1 → r.getD i 0 = 1 / ((i : ℚ) + 2))
    (inv : Bool) (A : TA) (hA : TAShape C D A) (l : List Vec)
    (hl : ∀ v ∈ l, v.length = C) : TAShape C D (sigFold r inv A l) := by
  induction l generalizing A with
  | nil => exact hA
  | cons y l ih =>
    rw [sigFold, List.foldl_cons]
    exact ih _ (fused_shape C D y A inv r hr (hl y (by simp)) hA)
      (fun v hv => hl v (List.mem_cons_of_mem y hv))

theorem sigOf_shape (C D : ℕ) (r : List ℚ)
    (hr : ∀ i, i < D - 1 → r.getD i 0 = 1 / ((i : ℚ) + 2))
    (inv : Bool) (l : List Vec) (hl : ∀ v ∈ l, v.length = C) (hne : l ≠ []) :
    TAShape C D (sigOf r D inv l) := by
  rw [sigOf]
  apply sigFold_shape C D r hr inv _ _ _ (fun v hv => hl v (List.mem_of_mem_drop hv))
  apply restricted_exp_shape
  cases l with
  | nil => exact absurd rfl hne
  | cons y l => exact hl y (by simp)

theorem sigOf_snoc (r : List ℚ) (D : ℕ) (inv : Bool) (l : List Vec) (y : Vec)
    (hne : l ≠ []) :
    sigOf r D inv (l ++ [y])
      = mult_fused_restricted_exp y (sigOf r D inv l) inv r := by
  cases l with
  | nil => exact absurd rfl hne
  | cons z l =>
    rw [sigOf, sigOf]
    simp only [List.cons_append, List.headD_cons, List.drop_succ_cons,
      List.drop_zero]
    rw [sigFold_append]
    rfl

theorem sigFold_single (r : List ℚ) (inv : Bool) (A : TA) (y : Vec) :
    sigFold r inv A [y] = mult_fused_restricted_exp y A inv r := rfl

/-- Folding the fused kernel (plain orientation) from any start element
equals right-multiplication by the signature of the increments. -/
theorem sigFold_eq_mult_false (C D : ℕ) (r : List ℚ)
    (hr : ∀ i, i < D - 1 → r.getD i 0 = 1 / ((i : ℚ) + 2))
    (A : TA) (hA : TAShape C D A) (l : List Vec) :
    (∀ v ∈ l, v.length = C) → l ≠ [] →
      sigFold r false A l = mult A (sigOf r D false l) := by
  induction l using List.reverseRecOn with
  | nil => exact fun _ hne => absurd rfl hne
  | append_singleton l y ih =>
    intro hl _
    have hy : y.length = C := hl y (by simp)
    by_cases hl0 : l = []
    · subst hl0
      rw [List.nil_append, sigFold_single,
        fused_false_eq_mult y A r D hr hA.1]
      rfl
    · have hly : ∀ v ∈ l, v.length = C := fun v hv => hl v (by simp [hv])
      have hsig := sigOf_shape C D r hr false l hly hl0
      rw [sigFold_append, sigFold_single, ih hly hl0,
        fused_false_eq_mult y _ r D hr (by rw [length_mult, hA.1]),
        mult_assoc_ta C D A _ _ hA hsig (restricted_exp_shape y r C D hy),
        ← fused_false_eq_mult y (sigOf r D false l) r D hr hsig.1,
        ← sigOf_snoc r D false l y hl0]

/-- Folding the fused kernel (inverse orientation) from any start element
equals left-multiplication by the inverse signature of the increments. -/
theorem sigFold_eq_mult_true (C D : ℕ) (r : List ℚ)
    (hr : ∀ i, i < D - 1 → r.getD i 0 = 1 / ((i : ℚ) + 2))
    (A : TA) (hA : TAShape C D A) (l : List Vec) :
    (∀ v ∈ l, v.length = C) → l ≠ [] →
      sigFold r true A l = mult (sigOf r D true l) A := by
  induction l using List.reverseRecOn with
  | nil => exact fun _ hne => absurd rfl hne
  | append_singleton l y ih =>
    intro hl _
    have hy : y.length = C := hl y (by simp)
    by_cases hl0 : l = []
    · subst hl0
      rw [List.nil_append, sigFold_single,
        fused_true_eq_mult C y A r D hr hy hA]
      rfl
    · have hly : ∀ v ∈ l, v.length = C := fun v hv => hl v (by simp [hv])
      have hsig := sigOf_shape C D r hr true l hly hl0
      rw [sigFold_append, sigFold_single, ih hly hl0,
        fused_true_eq_mult C y _ r D hr hy (mult_shape C D _ _ hsig hA),
        ← mult_assoc_ta C D _ _ A (restricted_exp_shape y r C D hy) hsig hA,
        ← fused_true_eq_mult C y (sigOf r D true l) r D hr hy hsig,
        ← sigOf_snoc r D true l y hl0]

/-- Chen's identity at the increment level: the signature of a
concatenation is the product of the signatures. -/
theorem sigOf_append_false (C D : ℕ) (r : List ℚ)
    (hr : ∀ i, i < D - 1 → r.getD i 0 = 1 / ((i : ℚ) + 2))
    (l1 l2 : List Vec) (h1 : ∀ v ∈ l1, v.length = C)
    (h2 : ∀ v ∈ l2, v.length = C) (hne1 : l1 ≠ []) (hne2 : l2 ≠ []) :
    sigOf r D false (l1 ++ l2)
      = mult (sigOf r D false l1) (sigOf r D false l2) := by
  have hhead : (l1 ++ l2).headD [] = l1.headD [] := by
    cases l1 with
    | nil => exact absurd rfl hne1
    | cons z l => rfl
  have hdrop : (l1 ++ l2).drop 1 = l1.drop 1 ++ l2 := by
    cases l1 with
    | nil => exact absurd rfl hne1
    | cons z l => simp
  rw [sigOf, hhead, hdrop, sigFold_append]
  exact sigFold_eq_mult_false C D r hr _ (sigOf_shape C D r hr false l1 h1 hne1)
    l2 h2 hne2

/-- Inverse counterpart of Chen's identity: concatenation reverses the
product order. -/
theorem sigOf_append_true (C D : ℕ) (r : List ℚ)
    (hr : ∀ i, i < D - 1 → r.getD i 0 = 1 / ((i : ℚ) + 2))
    (l1 l2 : List Vec) (h1 : ∀ v ∈ l1, v.length = C)
    (h2 : ∀ v ∈ l2, v.length = C) (hne1 : l1 ≠ []) (hne2 : l2 ≠ []) :
    sigOf r D true (l1 ++ l2)
      = mult (sigOf r D true l2) (sigOf r D true l1) := by
  have hhead : (l1 ++ l2).headD [] = l1.headD [] := by
    cases l1 with
    | nil => exact absurd rfl hne1
    | cons z l => rfl
  have hdrop : (l1 ++ l2).drop 1 = l1.drop 1 ++ l2 := by
    cases l1 with
    | nil => exact absurd rfl hne1
    | cons z l => simp
  rw [sigOf, hhead, hdrop, sigFold_append]
  exact sigFold_eq_mult_true C D r hr _ (sigOf_shape C D r hr true l1 h1 hne1)
    l2 h2 hne2

/-- The inverse-flag signature equals the plain signature of the reversed
increment list. -/
theorem sigOf_true_eq_reverse (C D : ℕ) (r : List ℚ)
    (hr : ∀ i, i < D - 1 → r.getD i 0 = 1 / ((i : ℚ) + 2))
    (l : List Vec) : (∀ v ∈ l, v.length = C) → l ≠ [] →
      sigOf r D true l = sigOf r D false l.reverse := by
  induction l using List.reverseRecOn with
  | nil => exact fun _ hne => absurd rfl hne
  | append_singleton l y ih =>
    intro hl _
    have hy : y.length = C := hl y (by simp)
    by_cases hl0 : l = []
    · subst hl0
      rfl
    · have hly : ∀ v ∈ l, v.length = C := fun v hv => hl v (by simp [hv])
      have hrevne : l.reverse ≠ [] := by simpa using hl0
      rw [sigOf_snoc r D true l y hl0,
        fused_true_eq_mult C y _ r D hr hy (sigOf_shape C D r hr true l hly hl0),
        ih hly hl0, List.reverse_append, List.reverse_singleton,
        List.singleton_append]
      have hcons : sigOf r D false (y :: l.reverse)
          = sigFold r false (restricted_exp y r D) l.reverse := rfl
      rw [hcons, sigFold_eq_mult_false C D r hr _
        (restricted_exp_shape y r C D hy) l.reverse
        (fun v hv => hly v (by simpa using hv)) hrevne]

/-- Elementwise subtraction of `(B, C)` tensors. -/
def bsub (x y : List Vec) : List Vec := List.zipWith vsub x y

/-- Model of `signature::detail::compute_path_increments`.  The `path` is in
`(stream, batch, channel)` layout.  The four basepoint/inverse cases follow
the source: without a basepoint the result is the out-of-place difference
of the two stream `narrow`s; with a basepoint the source materializes the
result in a fresh buffer (a `clone` of `path`, or `empty_like` filled and
subtracted in place) whose final values are listed here. -/
def compute_path_increments (path : List (List Vec)) (basepoint : Bool)
    (basepoint_value : List Vec) (inverse : Bool) : List (List Vec) :=
  if basepoint then
    if inverse then
      bsub basepoint_value (path.headD [])
        :: List.zipWith bsub path (path.drop 1)
    else
      bsub (path.headD []) basepoint_value
        :: List.zipWith bsub (path.drop 1) path
  else
    if inverse then List.zipWith bsub path (path.drop 1)
    else List.zipWith bsub (path.drop 1) path

/-- Modelled from the spec: `signature_channels(C, D)` is declared in the
headers but its definition is not among the provided sources; per the spec
the signature width is `W(C, D) = C + C^2 + ... + C^D`. -/
def signature_channels (input_channels depth : ℕ) : ℕ :=
  ∑ k ∈ Finset.range depth, input_channels ^ (k + 1)

/-- Inner loop of `misc::slice_by_term`: successive `narrow`s of the flat
channel axis, the `i`-th of length `input_channel_size^(i+1)`. -/
def slice_by_term_go (C : ℕ) : Vec → ℕ → ℕ → TA
  | _, _, 0 => []
  | flat, len, d + 1 => flat.take len :: slice_by_term_go C (flat.drop len) (len * C) d

/-- Model of `misc::slice_by_term` on one batch element. -/
def slice_by_term (flat : Vec) (C depth : ℕ) : TA :=
  slice_by_term_go C flat C depth

/-- Concatenating the grade views recovers the flat buffer they alias. -/
def joinTA (A : TA) : Vec := A.flatten

/-- Batched `ta_ops::restricted_exp` over `(B, C)` increments. -/
def bRexp (x : List Vec) (r : List ℚ) (depth : ℕ) : List TA :=
  x.map (fun v => restricted_exp v r depth)

/-- Batched `ta_ops::mult_fused_restricted_exp`. -/
def bFused (next : List Vec) (prev : List TA) (inv : Bool) (r : List ℚ) :
    List TA :=
  List.zipWith (fun nx A => mult_fused_restricted_exp nx A inv r) next prev

/-- Modelled from the spec: the three-argument `ta_ops::mult(arg1, arg2,
inverse)` overload used by the chunked combine of `signature_forward` is
not among the provided sources (the provided `ta_ops::mult` is the
two-argument version).  Per the spec, the `inverse` flag swaps the side on
which the second operand is multiplied (cf. 4.D for the fused kernel and
the ordering guarantee of section 5), so `inverse = true` computes
`arg1 ← arg2 ⊗ arg1`. -/
def mult3 (arg1 arg2 : TA) (inverse : Bool) : TA :=
  if inverse then mult arg2 arg1 else mult arg1 arg2

/-- Batched three-argument `mult`. -/
def bMult3 (a b : List TA) (inv : Bool) : List TA :=
  List.zipWith (fun x y => mult3 x y inv) a b

/-- Batched stream fold of the fused kernel: `signature_forward_inner`
(and its CPU variant) driving increments `[start, end)` with `stream=false`. -/
def sigFoldB (r : List ℚ) (inv : Bool) (start : List TA)
    (incs : List (List Vec)) : List TA :=
  incs.foldl (fun acc nx => bFused nx acc inv r) start

/-- Batched signature of a chunk: `restricted_exp` on its first increment,
then the fused kernel on the rest (the per-chunk body of the OpenMP block). -/
def sigOfB (r : List ℚ) (depth : ℕ) (inv : Bool) (incs : List (List Vec)) :
    List TA :=
  sigFoldB r inv (bRexp (incs.headD []) r depth) (incs.drop 1)

/-- Stream-thread count chosen by the CPU driver of `signature_forward`:
one thread for small problems (the `1392640` empirical threshold),
otherwise `ceil(max_threads / B)` clamped by `(N + 2) / 3`; always clamped
by the process-wide `max_parallelism`. -/
def streamThreadsOf (batch_size output_stream_size output_channel_size
    input_stream_size maxThreads maxParallelism : ℕ) : ℕ :=
  let st :=
    if batch_size * output_stream_size * output_channel_size < 1392640 then 1
    else min ((maxThreads + batch_size - 1) / batch_size)
      ((input_stream_size + 2) / 3)
  min st maxParallelism

/-- Chunk boundary of the OpenMP block: thread `t` of `T` drives stream
indices `[1 + (S-1)*t/T, 1 + (S-1)*(t+1)/T)`. -/
def chunkBound (S T t : ℕ) : ℕ := 1 + (S - 1) * t / T

/-- First stream slot of the forward pass (step 3 of the pipeline): either
the fused update of a copied `initial_value`, or the restricted exponential
of the first increment. -/
def first_term_of (path : List (List Vec)) (depth : ℕ) (basepoint : Bool)
    (basepoint_value : List Vec) (inverse initial : Bool)
    (initial_value : List Vec) : List TA :=
  let input_channel_size := ((path.headD []).headD []).length
  let reciprocals := make_reciprocals depth
  let path_increments :=
    compute_path_increments path basepoint basepoint_value inverse
  if initial then
    bFused (path_increments.headD [])
      (initial_value.map (fun v => slice_by_term v input_channel_size depth))
      inverse reciprocals
  else bRexp (path_increments.headD []) reciprocals depth

/-- Output of the forward pass: a `(B, W)` signature, or `(S, B, W)` with
`stream`. -/
inductive SigOutput where
  | flat (sig : List Vec) : SigOutput
  | streamed (sig : List (List Vec)) : SigOutput

/-- Model of `signatory::signature_forward` (numerical core, after
`signature_checkargs` and `detach`): computes the path increments, the
first term (restricted exponential, or fused update of `initial_value`),
then drives the remaining increments - serially when `stream` or when the
chosen stream-thread count is `1`, otherwise in chunks whose signatures are
combined left-to-right in ascending chunk index with the three-argument
`mult`.  The per-batch CPU kernel `mult_fused_restricted_exp_single_cpu`
(not among the provided sources) is modelled, per the spec's batch-axis
parallelism description, as the batchwise application of 4.D.  Returns the
signature and saved path increments. -/
def signature_forward (path : List (List Vec)) (depth : ℕ)
    (stream basepoint : Bool) (basepoint_value : List Vec)
    (inverse initial : Bool) (initial_value : List Vec)
    (maxThreads maxParallelism : ℕ) : SigOutput × List (List Vec) :=
  let batch_size := (path.headD []).length
  let input_stream_size := path.length
  let input_channel_size := ((path.headD []).headD []).length
  let output_stream_size := input_stream_size - (if basepoint then 0 else 1)
  let output_channel_size := signature_channels input_channel_size depth
  let reciprocals := make_reciprocals depth
  let path_increments :=
    compute_path_increments path basepoint basepoint_value inverse
  let first_term : List TA :=
    first_term_of path depth basepoint basepoint_value inverse initial
      initial_value
  if stream then
    (SigOutput.streamed
      ((List.scanl (fun acc nx => bFused nx acc inverse reciprocals)
          first_term (path_increments.drop 1)).map (fun bt => bt.map joinTA)),
      path_increments)
  else
    let stream_threads := streamThreadsOf batch_size output_stream_size
      output_channel_size input_stream_size maxThreads maxParallelism
    if stream_threads ≤ 1 then
      (SigOutput.flat
        ((sigFoldB reciprocals inverse first_term (path_increments.drop 1)).map
          joinTA),
        path_increments)
    else
      let T := stream_threads
      let chunks := (List.range T).map (fun t =>
        (path_increments.drop (chunkBound output_stream_size T t)).take
          (chunkBound output_stream_size T (t + 1)
            - chunkBound output_stream_size T t))
      let global := chunks.foldl (fun g ch =>
        if ch.isEmpty then g
        else bMult3 g (sigOfB reciprocals depth inverse ch) inverse) first_term
      (SigOutput.flat (global.map joinTA), path_increments)

/-- Rectangularity of a `(B, C)` tensor modelled as nested lists. -/
def Rect2 (B C : ℕ) (t : List Vec) : Prop :=
  t.length = B ∧ ∀ v ∈ t, v.length = C

/-- Rectangularity of an `(N, B, C)` tensor modelled as nested lists. -/
def Rect3 (N B C : ℕ) (p : List (List Vec)) : Prop :=
  p.length = N ∧ ∀ sl ∈ p, Rect2 B C sl

instance (B C : ℕ) (t : List Vec) : Decidable (Rect2 B C t) := by
  unfold Rect2; infer_instance

instance (N B C : ℕ) (p : List (List Vec)) : Decidable (Rect3 N B C p) := by
  unfold Rect3; infer_instance

/-- Per-batch slice of a batched tensor. -/
def sliceB (b : ℕ) (t : List Vec) : Vec := t.getD b []

theorem getD_zipWith {α β γ : Type} (f : α → β → γ) (x : List α) (y : List β)
    (dx : α) (dy : β) (dz : γ) (b : ℕ) (hb : b < x.length)
    (hxy : x.length ≤ y.length) :
    (List.zipWith f x y).getD b dz = f (x.getD b dx) (y.getD b dy) := by
  have hby : b < y.length := by omega
  have hbz : b < (List.zipWith f x y).length := by
    rw [List.length_zipWith]; omega
  rw [List.getD_eq_getElem?_getD, List.getD_eq_getElem?_getD,
    List.getD_eq_getElem?_getD, List.getElem?_eq_getElem hb,
    List.getElem?_eq_getElem hby, List.getElem?_eq_getElem hbz,
    List.getElem_zipWith]
  rfl

theorem getD_map {α β : Type} (f : α → β) (x : List α) (dx : α) (dy : β)
    (b : ℕ) (hb : b < x.length) :
    (x.map f).getD b dy = f (x.getD b dx) := by
  have hbm : b < (x.map f).length := by simpa using hb
  rw [List.getD_eq_getElem?_getD, List.getD_eq_getElem?_getD,
    List.getElem?_eq_getElem hb, List.getElem?_eq_getElem hbm,
    List.getElem_map]
  rfl

theorem scanl_getD {α β : Type} (f : β → α → β) (l : List α) (b : β) (d : β)
    (s : ℕ) (hs : s ≤ l.length) :
    (List.scanl f b l).getD s d = List.foldl f b (l.take s) := by
  induction l generalizing b s with
  | nil =>
    have : s = 0 := by simpa using hs
    subst this
    rfl
  | cons x l ih =>
    rw [List.scanl_cons]
    cases s with
    | zero => rfl
    | succ m =>
      have hm : m ≤ l.length := by simpa using hs
      simp only [List.singleton_append, List.getD_cons_succ, List.take_succ_cons,
        List.foldl_cons]
      exact ih (f b x) m hm

theorem zipWith_take_right {α β γ : Type} (f : α → β → γ) :
    ∀ (x : List α) (y : List β) (n : ℕ), x.length ≤ n →
      List.zipWith f x (y.take n) = List.zipWith f x y := by
  intro x
  induction x with
  | nil => intro y n _; simp
  | cons a x ih =>
    intro y n h
    cases y with
    | nil => simp
    | cons b y =>
      cases n with
      | zero => simp at h
      | succ m =>
        simp only [List.take_succ_cons, List.zipWith_cons_cons]
        rw [ih y m (by simpa using h)]

theorem zipWith_reverse_eq {α β γ : Type} (f : α → β → γ) :
    ∀ (a : List α) (b : List β), a.length = b.length →
      (List.zipWith f a b).reverse = List.zipWith f a.reverse b.reverse := by
  intro a
  induction a with
  | nil => intro b _; simp
  | cons x a ih =>
    intro b hb
    cases b with
    | nil => simp at hb
    | cons y b =>
      have hab : a.length = b.length := by simpa using hb
      simp only [List.zipWith_cons_cons, List.reverse_cons]
      rw [ih b hab, List.zipWith_append _ _ _ _ _ (by simp [hab])]
      simp

theorem mem_zipWith {α β γ : Type} (f : α → β → γ) :
    ∀ (x : List α) (y : List β) (z : γ), z ∈ List.zipWith f x y →
      ∃ a ∈ x, ∃ b ∈ y, z = f a b := by
  intro x
  induction x with
  | nil => intro y z hz; simp at hz
  | cons a x ih =>
    intro y z hz
    cases y with
    | nil => simp at hz
    | cons b y =>
      rw [List.zipWith_cons_cons, List.mem_cons] at hz
      rcases hz with hz | hz
      · exact ⟨a, by simp, b, by simp, hz⟩
      · rcases ih y z hz with ⟨a2, ha2, b2, hb2, hab⟩
        exact ⟨a2, by simp [ha2], b2, by simp [hb2], hab⟩

theorem length_vsub (u v : Vec) : (vsub u v).length = max u.length v.length := by
  rw [vsub, length_vadd, length_vneg]

theorem rect2_bsub (B C : ℕ) (x y : List Vec) (hx : Rect2 B C x)
    (hy : Rect2 B C y) : Rect2 B C (bsub x y) := by
  constructor
  · simp [bsub, hx.1, hy.1]
  · intro w hw
    rcases mem_zipWith vsub x y w hw with ⟨a, ha, b, hb, hab⟩
    rw [hab, length_vsub, hx.2 a ha, hy.2 b hb]
    simp

theorem rect_zipWith_bsub (B C : ℕ) (x y : List (List Vec))
    (hx : ∀ sl ∈ x, Rect2 B C sl) (hy : ∀ sl ∈ y, Rect2 B C sl) :
    ∀ w ∈ List.zipWith bsub x y, Rect2 B C w := by
  intro w hw
  rcases mem_zipWith bsub x y w hw with ⟨a, ha, b, hb, hab⟩
  rw [hab]
  exact rect2_bsub B C a b (hx a ha) (hy b hb)

theorem rect2_headD (N B C : ℕ) (p : List (List Vec)) (h : Rect3 N B C p)
    (hN : 1 ≤ N) : Rect2 B C (p.headD []) := by
  cases p with
  | nil => rw [Rect3] at h; simp at h; omega
  | cons sl p => exact h.2 sl (by simp)

/-- Rectangularity of the computed path increments. -/
theorem rect_incs (N B C : ℕ) (path : List (List Vec)) (bp : Bool)
    (bpv : List Vec) (inv : Bool) (hrect : Rect3 N B C path)
    (hbpv : bp = true → Rect2 B C bpv) (hN : 1 ≤ N) :
    Rect3 (N - (if bp then 0 else 1)) B C
      (compute_path_increments path bp bpv inv) := by
  have hmem : ∀ sl ∈ path, Rect2 B C sl := hrect.2
  have hmemd : ∀ sl ∈ path.drop 1, Rect2 B C sl :=
    fun sl hsl => hmem sl (List.mem_of_mem_drop hsl)
  have hlen : path.length = N := hrect.1
  have hhead := rect2_headD N B C path hrect hN
  cases bp with
  | false =>
    cases inv with
    | false =>
      have hinc : compute_path_increments path false bpv false
          = List.zipWith bsub (path.drop 1) path := rfl
      rw [hinc]
      exact ⟨by simp [hlen], rect_zipWith_bsub B C _ _ hmemd hmem⟩
    | true =>
      have hinc : compute_path_increments path false bpv true
          = List.zipWith bsub path (path.drop 1) := rfl
      rw [hinc]
      refine ⟨?_, rect_zipWith_bsub B C _ _ hmem hmemd⟩
      simp [hlen]
  | true =>
    cases inv with
    | false =>
      have hinc : compute_path_increments path true bpv false
          = bsub (path.headD []) bpv :: List.zipWith bsub (path.drop 1) path := rfl
      rw [hinc]
      refine ⟨by simp [hlen]; omega, ?_⟩
      intro w hw
      rw [List.mem_cons] at hw
      rcases hw with hw | hw
      · rw [hw]; exact rect2_bsub B C _ _ hhead (hbpv rfl)
      · exact rect_zipWith_bsub B C _ _ hmemd hmem w hw
    | true =>
      have hinc : compute_path_increments path true bpv true
          = bsub bpv (path.headD []) :: List.zipWith bsub path (path.drop 1) := rfl
      rw [hinc]
      refine ⟨?_, ?_⟩
      · simp [hlen]; omega
      · intro w hw
        rw [List.mem_cons] at hw
        rcases hw with hw | hw
        · rw [hw]; exact rect2_bsub B C _ _ (hbpv rfl) hhead
        · exact rect_zipWith_bsub B C _ _ hmem hmemd w hw

theorem bnd_chain (bnd : ℕ → ℕ) (T : ℕ) (h : ∀ t, t < T → bnd t ≤ bnd (t + 1)) :
    ∀ t, t ≤ T → bnd 0 ≤ bnd t := by
  intro t
  induction t with
  | zero => intro _; exact le_refl _
  | succ m ih =>
    intro hm
    exact le_trans (ih (by omega)) (h m (by omega))

/-- Concatenating monotone take/drop chunks recovers the full slice. -/
theorem chunks_flatten {α : Type} (l : List α) (bnd : ℕ → ℕ) :
    ∀ T, (∀ t, t < T → bnd t ≤ bnd (t + 1)) →
      ((List.range T).map
        (fun t => (l.drop (bnd t)).take (bnd (t + 1) - bnd t))).flatten
        = (l.drop (bnd 0)).take (bnd T - bnd 0) := by
  intro T
  induction T with
  | zero => intro _; simp
  | succ m ih =>
    intro hmono
    rw [List.range_succ, List.map_append, List.flatten_append,
      ih (fun t ht => hmono t (by omega))]
    have h0m : bnd 0 ≤ bnd m := bnd_chain bnd (m + 1) hmono m (by omega)
    have hm1 : bnd m ≤ bnd (m + 1) := hmono m (by omega)
    have hsum : bnd (m + 1) - bnd 0 = (bnd m - bnd 0) + (bnd (m + 1) - bnd m) := by
      omega
    have he : bnd 0 + (bnd m - bnd 0) = bnd m := by omega
    simp only [List.map_cons, List.map_nil, List.flatten_cons, List.flatten_nil,
      List.append_nil]
    rw [hsum, List.take_add, List.drop_drop, he]

theorem chunkBound_mono (S T t : ℕ) : chunkBound S T t ≤ chunkBound S T (t + 1) := by
  rw [chunkBound, chunkBound]
  have : (S - 1) * t ≤ (S - 1) * (t + 1) := Nat.mul_le_mul_left _ (by omega)
  have := Nat.div_le_div_right (c := T) this
  omega

theorem chunkBound_zero (S T : ℕ) : chunkBound S T 0 = 1 := by
  simp [chunkBound]

theorem chunkBound_last (S T : ℕ) (hT : 0 < T) : chunkBound S T T = S ∨ S = 0 := by
  rcases Nat.eq_zero_or_pos S with h0 | h0
  · right; exact h0
  · left
    rw [chunkBound, Nat.mul_div_cancel _ hT]
    omega

theorem slice_by_term_go_shape (C : ℕ) :
    ∀ (d : ℕ) (flat : Vec) (len : ℕ),
      (∑ i ∈ Finset.range d, len * C ^ i) ≤ flat.length →
      (slice_by_term_go C flat len d).length = d
        ∧ ∀ i, i < d → (gr (slice_by_term_go C flat len d) i).length = len * C ^ i := by
  intro d
  induction d with
  | zero => intro flat len _; exact ⟨rfl, fun i hi => absurd hi (by omega)⟩
  | succ m ih =>
    intro flat len hflat
    have hlen : len ≤ flat.length := by
      have h0 : len * C ^ 0 ≤ ∑ i ∈ Finset.range (m + 1), len * C ^ i :=
        Finset.single_le_sum (fun i _ => Nat.zero_le (len * C ^ i))
          (Finset.mem_range.mpr (by omega))
      simp only [pow_zero, mul_one] at h0
      omega
    have hrec : (∑ i ∈ Finset.range m, len * C * C ^ i) ≤ (flat.drop len).length := by
      rw [List.length_drop]
      have hsum : ∑ i ∈ Finset.range (m + 1), len * C ^ i
          = len + ∑ i ∈ Finset.range m, len * C * C ^ i := by
        rw [Finset.sum_range_succ' (fun i => len * C ^ i) m]
        simp only [pow_zero, mul_one, pow_succ]
        rw [add_comm]
        congr 1
        apply Finset.sum_congr rfl
        intro i _
        ring
      omega
    rcases ih (flat.drop len) (len * C) hrec with ⟨ihl, ihg⟩
    refine ⟨by simp [slice_by_term_go, ihl], ?_⟩
    intro i hi
    cases i with
    | zero =>
      show (flat.take len).length = len * C ^ 0
      rw [List.length_take]
      simp
      omega
    | succ j =>
      show (gr (slice_by_term_go C (flat.drop len) (len * C) m) j).length = _
      rw [ihg j (by omega), pow_succ]
      ring

theorem slice_by_term_shape (C depth : ℕ) (flat : Vec)
    (hflat : flat.length = signature_channels C depth) :
    TAShape C depth (slice_by_term flat C depth) := by
  have hsum : (∑ i ∈ Finset.range depth, C * C ^ i) ≤ flat.length := by
    rw [hflat, signature_channels]
    apply le_of_eq
    apply Finset.sum_congr rfl
    intro i _
    rw [pow_succ']
  rcases slice_by_term_go_shape C depth flat C hsum with ⟨h1, h2⟩
  refine ⟨h1, fun i hi => ?_⟩
  rw [slice_by_term] at *
  rw [h2 i hi, pow_succ']

theorem slice_by_term_go_join (C : ℕ) :
    ∀ (d : ℕ) (A : TA) (len : ℕ), A.length = d →
      (∀ i, i < d → (gr A i).length = len * C ^ i) →
      slice_by_term_go C A.flatten len d = A := by
  intro d
  induction d with
  | zero =>
    intro A len hA _
    cases A with
    | nil => rfl
    | cons g rest => simp at hA
  | succ m ih =>
    intro A len hA hg
    cases A with
    | nil => simp at hA
    | cons g0 rest =>
      have hg0 : g0.length = len := by
        have := hg 0 (by omega)
        simpa [gr] using this
      show (g0 :: rest).flatten.take len
          :: slice_by_term_go C ((g0 :: rest).flatten.drop len) (len * C) m = rest.cons g0
      rw [List.flatten_cons, List.take_left' hg0, List.drop_left' hg0]
      congr 1
      apply ih rest (len * C) (by simpa using hA)
      intro i hi
      have := hg (i + 1) (by omega)
      rw [show gr (g0 :: rest) (i + 1) = gr rest i from rfl] at this
      rw [this, pow_succ]
      ring

/-- Slicing the flattened by-term buffer recovers the views. -/
theorem slice_by_term_joinTA (C depth : ℕ) (A : TA) (hA : TAShape C depth A) :
    slice_by_term (joinTA A) C depth = A := by
  rw [slice_by_term, joinTA]
  apply slice_by_term_go_join C depth A C hA.1
  intro i hi
  rw [hA.2 i hi, pow_succ']

theorem slice_by_term_go_flatten (C : ℕ) :
    ∀ (d : ℕ) (flat : Vec) (len : ℕ),
      flat.length = (∑ i ∈ Finset.range d, len * C ^ i) →
      (slice_by_term_go C flat len d).flatten = flat := by
  intro d
  induction d with
  | zero =>
    intro flat len hflat
    simp only [Finset.sum_range_zero] at hflat
    rw [slice_by_term_go]
    simpa using (List.length_eq_zero.mp hflat).symm
  | succ m ih =>
    intro flat len hflat
    have hsum : ∑ i ∈ Finset.range (m + 1), len * C ^ i
        = len + ∑ i ∈ Finset.range m, len * C * C ^ i := by
      rw [Finset.sum_range_succ' (fun i => len * C ^ i) m]
      simp only [pow_zero, mul_one, pow_succ]
      rw [add_comm]
      congr 1
      apply Finset.sum_congr rfl
      intro i _
      ring
    show (flat.take len :: slice_by_term_go C (flat.drop len) (len * C) m).flatten = flat
    rw [List.flatten_cons, ih (flat.drop len) (len * C) (by
      rw [List.length_drop, hflat, hsum]
      omega)]
    exact List.take_append_drop len flat

/-- Flattening the by-term views recovers the flat buffer. -/
theorem joinTA_slice_by_term (C depth : ℕ) (flat : Vec)
    (hflat : flat.length = signature_channels C depth) :
    joinTA (slice_by_term flat C depth) = flat := by
  rw [joinTA, slice_by_term]
  apply slice_by_term_go_flatten C depth flat C
  rw [hflat, signature_channels]
  apply Finset.sum_congr rfl
  intro i _
  rw [pow_succ']

theorem length_joinTA (C depth : ℕ) (A : TA) (hA : TAShape C depth A) :
    (joinTA A).length = signature_channels C depth := by
  rw [joinTA, List.length_flatten, ← map_range_gr A, List.map_map,
    list_range_sum, hA.1, signature_channels]
  apply Finset.sum_congr rfl
  intro i hi
  rw [Finset.mem_range] at hi
  simp only [Function.comp_apply]
  exact hA.2 i hi

theorem length_bRexp (x : List Vec) (r : List ℚ) (d : ℕ) :
    (bRexp x r d).length = x.length := by simp [bRexp]

theorem length_bFused (nx : List Vec) (prev : List TA) (inv : Bool) (r : List ℚ) :
    (bFused nx prev inv r).length = min nx.length prev.length := by
  simp [bFused]

theorem length_bMult3 (a b : List TA) (inv : Bool) :
    (bMult3 a b inv).length = min a.length b.length := by simp [bMult3]

theorem length_sigFoldB (r : List ℚ) (inv : Bool) (B : ℕ) :
    ∀ (incs : List (List Vec)) (start : List TA), start.length = B →
      (∀ sl ∈ incs, sl.length = B) → (sigFoldB r inv start incs).length = B := by
  intro incs
  induction incs with
  | nil => intro start h _; exact h
  | cons nx rest ih =>
    intro start hstart hincs
    rw [sigFoldB, List.foldl_cons]
    exact ih _ (by rw [length_bFused, hstart, hincs nx (by simp)]; simp)
      (fun sl hsl => hincs sl (List.mem_cons_of_mem nx hsl))

theorem length_sigOfB (r : List ℚ) (d : ℕ) (inv : Bool) (B : ℕ)
    (ch : List (List Vec)) (hch : ∀ sl ∈ ch, sl.length = B) (hne : ch ≠ []) :
    (sigOfB r d inv ch).length = B := by
  rw [sigOfB]
  apply length_sigFoldB r inv B _ _ _
    (fun sl hsl => hch sl (List.mem_of_mem_drop hsl))
  rw [length_bRexp]
  cases ch with
  | nil => exact absurd rfl hne
  | cons sl rest => exact hch sl (by simp)

theorem bRexp_getD (x : List Vec) (r : List ℚ) (d : ℕ) (b : ℕ)
    (hb : b < x.length) :
    (bRexp x r d).getD b [] = restricted_exp (sliceB b x) r d :=
  getD_map _ x [] [] b hb

theorem bFused_getD (nx : List Vec) (prev : List TA) (inv : Bool) (r : List ℚ)
    (b : ℕ) (hb : b < nx.length) (hlen : nx.length ≤ prev.length) :
    (bFused nx prev inv r).getD b []
      = mult_fused_restricted_exp (sliceB b nx) (prev.getD b []) inv r :=
  getD_zipWith _ nx prev [] [] [] b hb hlen

theorem bMult3_getD (a b : List TA) (inv : Bool) (i : ℕ) (hi : i < a.length)
    (hlen : a.length ≤ b.length) :
    (bMult3 a b inv).getD i [] = mult3 (a.getD i []) (b.getD i []) inv :=
  getD_zipWith _ a b [] [] [] i hi hlen

theorem sigFoldB_getD (r : List ℚ) (inv : Bool) (B : ℕ) (b : ℕ) (hb : b < B) :
    ∀ (incs : List (List Vec)) (start : List TA), start.length = B →
      (∀ sl ∈ incs, sl.length = B) →
      (sigFoldB r inv start incs).getD b []
        = sigFold r inv (start.getD b []) (incs.map (sliceB b)) := by
  intro incs
  induction incs with
  | nil => intro start _ _; rfl
  | cons nx rest ih =>
    intro start hstart hincs
    have hnx : nx.length = B := hincs nx (by simp)
    rw [sigFoldB, List.foldl_cons]
    have h1 : (bFused nx start inv r).length = B := by
      rw [length_bFused, hstart, hnx]; simp
    have h2 := ih (bFused nx start inv r) h1
      (fun sl hsl => hincs sl (List.mem_cons_of_mem nx hsl))
    rw [show (List.foldl (fun acc nx => bFused nx acc inv r)
        (bFused nx start inv r) rest) = sigFoldB r inv (bFused nx start inv r) rest
        from rfl, h2,
      bFused_getD nx start inv r b (by omega) (by omega)]
    rfl

theorem sigOfB_getD (r : List ℚ) (d : ℕ) (inv : Bool) (B : ℕ) (b : ℕ)
    (hb : b < B) (ch : List (List Vec)) (hch : ∀ sl ∈ ch, sl.length = B)
    (hne : ch ≠ []) :
    (sigOfB r d inv ch).getD b [] = sigOf r d inv (ch.map (sliceB b)) := by
  rw [sigOfB, sigOf,
    sigFoldB_getD r inv B b hb _ _
      (by rw [length_bRexp]
          cases ch with
          | nil => exact absurd rfl hne
          | cons sl rest => exact hch sl (by simp))
      (fun sl hsl => hch sl (List.mem_of_mem_drop hsl)),
    bRexp_getD _ r d b (by
      cases ch with
      | nil => exact absurd rfl hne
      | cons sl rest =>
        show b < sl.length
        rw [hch sl (by simp)]
        exact hb)]
  congr 1
  · cases ch with
    | nil => exact absurd rfl hne
    | cons sl rest => rfl
  · rw [List.map_drop]

/-- Shape preservation for the three-argument `mult`. -/
theorem mult3_shape (C D : ℕ) (a b : TA) (inv : Bool) (ha : TAShape C D a)
    (hb : TAShape C D b) : TAShape C D (mult3 a b inv) := by
  cases inv
  · exact mult_shape C D a b ha hb
  · exact mult_shape C D b a hb ha

/-- The per-batch combine fold over chunk signatures equals the serial
fold over the concatenated chunks. -/
theorem combine_fold_eq_sigFold_single (C D : ℕ) (r : List ℚ)
    (hr : ∀ i, i < D - 1 → r.getD i 0 = 1 / ((i : ℚ) + 2)) (inv : Bool) :
    ∀ (chunks : List (List Vec)) (A : TA), TAShape C D A →
      (∀ ch ∈ chunks, ∀ v ∈ ch, v.length = C) →
      chunks.foldl (fun g ch => if ch.isEmpty then g
          else mult3 g (sigOf r D inv ch) inv) A
        = sigFold r inv A chunks.flatten := by
  intro chunks
  induction chunks with
  | nil => intro A _ _; rfl
  | cons ch rest ih =>
    intro A hA hch
    have hchv : ∀ v ∈ ch, v.length = C := hch ch (by simp)
    have hrest : ∀ ch2 ∈ rest, ∀ v ∈ ch2, v.length = C :=
      fun ch2 h2 => hch ch2 (List.mem_cons_of_mem ch h2)
    rw [List.foldl_cons, List.flatten_cons]
    by_cases hche : ch.isEmpty
    · rw [if_pos hche]
      rw [List.isEmpty_iff] at hche
      subst hche
      rw [List.nil_append]
      exact ih A hA hrest
    · rw [if_neg hche]
      rw [List.isEmpty_iff] at hche
      have hsig := sigOf_shape C D r hr inv ch hchv hche
      rw [sigFold_append,
        ih (mult3 A (sigOf r D inv ch) inv) (mult3_shape C D _ _ inv hA hsig)
          hrest]
      congr 1
      cases inv
      · rw [mult3]
        simp only [if_neg Bool.false_ne_true]
        exact (sigFold_eq_mult_false C D r hr A hA ch hchv hche).symm
      · rw [mult3, if_pos rfl]
        exact (sigFold_eq_mult_true C D r hr A hA ch hchv hche).symm

theorem length_sliceB (B C b : ℕ) (hb : b < B) (sl : List Vec)
    (h : Rect2 B C sl) : (sliceB b sl).length = C := by
  have hb2 : b < sl.length := by rw [h.1]; exact hb
  rw [sliceB, List.getD_eq_getElem?_getD, List.getElem?_eq_getElem hb2]
  exact h.2 _ (List.getElem_mem hb2)

theorem list_eq_of_getD {α : Type} (dflt : α) (x y : List α)
    (hx : x.length = y.length)
    (h : ∀ b, b < x.length → x.getD b dflt = y.getD b dflt) : x = y := by
  apply List.ext_getElem hx
  intro i h1 h2
  have := h i h1
  rwa [List.getD_eq_getElem?_getD, List.getD_eq_getElem?_getD,
    List.getElem?_eq_getElem h1, List.getElem?_eq_getElem h2,
    Option.getD_some, Option.getD_some] at this

theorem length_combine_fold (r : List ℚ) (depth : ℕ) (inv : Bool) (B : ℕ) :
    ∀ (chunks : List (List (List Vec))) (g : List TA), g.length = B →
      (∀ ch ∈ chunks, ∀ sl ∈ ch, sl.length = B) →
      (chunks.foldl (fun g ch => if ch.isEmpty then g
          else bMult3 g (sigOfB r depth inv ch) inv) g).length = B := by
  intro chunks
  induction chunks with
  | nil => intro g hg _; exact hg
  | cons ch rest ih =>
    intro g hg hch
    have hrest : ∀ ch2 ∈ rest, ∀ sl ∈ ch2, sl.length = B :=
      fun ch2 h2 => hch ch2 (List.mem_cons_of_mem ch h2)
    rw [List.foldl_cons]
    by_cases hche : ch.isEmpty
    · rw [if_pos hche]; exact ih g hg hrest
    · rw [if_neg hche]
      rw [List.isEmpty_iff] at hche
      apply ih _ _ hrest
      rw [length_bMult3, hg,
        length_sigOfB r depth inv B ch (hch ch (by simp)) hche]
      simp

theorem combine_fold_getD (r : List ℚ) (depth : ℕ) (inv : Bool) (B b : ℕ)
    (hb : b < B) :
    ∀ (chunks : List (List (List Vec))) (g : List TA), g.length = B →
      (∀ ch ∈ chunks, ∀ sl ∈ ch, sl.length = B) →
      (chunks.foldl (fun g ch => if ch.isEmpty then g
          else bMult3 g (sigOfB r depth inv ch) inv) g).getD b []
        = (chunks.map (fun ch => ch.map (sliceB b))).foldl
            (fun g ch => if ch.isEmpty then g
              else mult3 g (sigOf r depth inv ch) inv) (g.getD b []) := by
  intro chunks
  induction chunks with
  | nil => intro g _ _; rfl
  | cons ch rest ih =>
    intro g hg hch
    have hrest : ∀ ch2 ∈ rest, ∀ sl ∈ ch2, sl.length = B :=
      fun ch2 h2 => hch ch2 (List.mem_cons_of_mem ch h2)
    rw [List.foldl_cons, List.map_cons, List.foldl_cons]
    by_cases hche : ch.isEmpty
    · rw [List.isEmpty_iff] at hche
      subst hche
      rw [if_pos (show ([] : List (List Vec)).isEmpty = true from rfl),
        if_pos (show (List.map (sliceB b) ([] : List (List Vec))).isEmpty = true
          from rfl)]
      exact ih g hg hrest
    · rw [List.isEmpty_iff] at hche
      have hmape : (ch.map (sliceB b)).isEmpty = false := by
        cases ch with
        | nil => exact absurd rfl hche
        | cons a t => rfl
      rw [if_neg (by rw [List.isEmpty_iff]; exact hche),
        if_neg (by rw [hmape]; exact Bool.false_ne_true)]
      have hlen1 : (bMult3 g (sigOfB r depth inv ch) inv).length = B := by
        rw [length_bMult3, hg,
          length_sigOfB r depth inv B ch (hch ch (by simp)) hche]
        simp
      rw [ih _ hlen1 hrest,
        bMult3_getD g _ inv b (by omega)
          (by rw [hg, length_sigOfB r depth inv B ch (hch ch (by simp)) hche]),
        sigOfB_getD r depth inv B b hb ch (hch ch (by simp)) hche]

theorem channel_size_eq (N B C : ℕ) (path : List (List Vec))
    (hrect : Rect3 N B C path) (hN : 1 ≤ N) (hB : 1 ≤ B) :
    ((path.headD []).headD []).length = C := by
  have hhead := rect2_headD N B C path hrect hN
  cases hh : path.headD [] with
  | nil => rw [hh] at hhead; rw [Rect2] at hhead; simp at hhead; omega
  | cons v t =>
    rw [hh] at hhead
    exact hhead.2 v (by simp)

theorem batch_size_eq (N B C : ℕ) (path : List (List Vec))
    (hrect : Rect3 N B C path) (hN : 1 ≤ N) :
    (path.headD []).length = B := (rect2_headD N B C path hrect hN).1

theorem length_first_term_of (N B C depth : ℕ) (path : List (List Vec))
    (bp : Bool) (bpv : List Vec) (inv init : Bool) (iv : List Vec)
    (hrect : Rect3 N B C path) (hbpv : bp = true → Rect2 B C bpv)
    (hiv : init = true → iv.length = B)
    (hS : 1 ≤ N - (if bp then 0 else 1)) :
    (first_term_of path depth bp bpv inv init iv).length = B := by
  have hN : 1 ≤ N := by rcases bp <;> simp at hS <;> omega
  have hincs := rect_incs N B C path bp bpv inv hrect hbpv hN
  have hhead := rect2_headD _ B C _ hincs hS
  rw [first_term_of]
  cases init with
  | false =>
    simp only [Bool.false_eq_true, if_false]
    rw [length_bRexp, hhead.1]
  | true =>
    simp only [if_true]
    rw [length_bFused, hhead.1, List.length_map, hiv rfl]
    simp

theorem first_term_of_getD_shape (N B C depth : ℕ) (path : List (List Vec))
    (bp : Bool) (bpv : List Vec) (inv init : Bool) (iv : List Vec)
    (hrect : Rect3 N B C path) (hbpv : bp = true → Rect2 B C bpv)
    (hiv : init = true → Rect2 B (signature_channels C depth) iv)
    (hS : 1 ≤ N - (if bp then 0 else 1)) (hB : 1 ≤ B) (b : ℕ) (hb : b < B) :
    TAShape C depth ((first_term_of path depth bp bpv inv init iv).getD b []) := by
  have hN : 1 ≤ N := by rcases bp <;> simp at hS <;> omega
  have hincs := rect_incs N B C path bp bpv inv hrect hbpv hN
  have hhead := rect2_headD _ B C _ hincs hS
  have hr := fun i hi => make_reciprocals_getD depth i hi
  have hx : (sliceB b ((compute_path_increments path bp bpv inv).headD [])).length
      = C := length_sliceB B C b hb _ hhead
  have hC := channel_size_eq N B C path hrect hN hB
  rw [first_term_of]
  cases init with
  | false =>
    simp only [Bool.false_eq_true, if_false]
    rw [bRexp_getD _ _ depth b (by rw [hhead.1]; exact hb)]
    exact restricted_exp_shape _ _ C depth hx
  | true =>
    simp only [if_true]
    have hivr := hiv rfl
    rw [bFused_getD _ _ inv _ b (by rw [hhead.1]; exact hb)
      (by rw [hhead.1, List.length_map, hivr.1]),
      getD_map _ iv [] [] b (by rw [hivr.1]; exact hb)]
    apply fused_shape C depth _ _ inv _ hr hx
    rw [hC]
    apply slice_by_term_shape
    exact hivr.2 _ (by
      rw [List.getD_eq_getElem?_getD,
        List.getElem?_eq_getElem (by rw [hivr.1]; exact hb)]
      exact List.getElem_mem _)

/-- The `stream=false` forward pass returns the serial fold regardless of
the parallelism parameters: the chunked-parallel driver combines the
per-chunk signatures into exactly the serial result. -/
theorem signature_forward_false_eq_serial
    (N B C depth : ℕ) (path : List (List Vec)) (basepoint : Bool)
    (bpv : List Vec) (inverse initial : Bool) (iv : List Vec) (mT mP : ℕ)
    (hrect : Rect3 N B C path)
    (hbpv : basepoint = true → Rect2 B C bpv)
    (hiv : initial = true → Rect2 B (signature_channels C depth) iv)
    (hS : 1 ≤ N - (if basepoint then 0 else 1)) (hB : 1 ≤ B) :
    signature_forward path depth false basepoint bpv inverse initial iv mT mP
      = (SigOutput.flat
          ((sigFoldB (make_reciprocals depth) inverse
            (first_term_of path depth basepoint bpv inverse initial iv)
            ((compute_path_increments path basepoint bpv inverse).drop 1)).map
            joinTA),
        compute_path_increments path basepoint bpv inverse) := by
  have hN : 1 ≤ N := by rcases basepoint <;> simp at hS <;> omega
  have hincs := rect_incs N B C path basepoint bpv inverse hrect hbpv hN
  have hr := fun i hi => make_reciprocals_getD depth i hi
  rw [signature_forward]
  simp only [Bool.false_eq_true, if_false]
  rw [hrect.1, batch_size_eq N B C path hrect hN,
    channel_size_eq N B C path hrect hN hB]
  by_cases hst : streamThreadsOf B (N - if basepoint = true then 0 else 1)
      (signature_channels C depth) N mT mP ≤ 1
  · rw [if_pos hst]
  · rw [if_neg hst]
    have hT2 : 2 ≤ streamThreadsOf B (N - if basepoint = true then 0 else 1)
        (signature_channels C depth) N mT mP := by omega
    refine congrArg (fun t : List TA => (SigOutput.flat (t.map joinTA),
      compute_path_increments path basepoint bpv inverse)) ?_
    set Sz := N - (if basepoint = true then 0 else 1) with hSz
    set T := streamThreadsOf B Sz (signature_channels C depth) N mT mP with hT
    set r := make_reciprocals depth with hrd
    set incs := compute_path_increments path basepoint bpv inverse with hincsd
    set first := first_term_of path depth basepoint bpv inverse initial iv
      with hfirstd
    have hfirstlen : first.length = B :=
      length_first_term_of N B C depth path basepoint bpv inverse initial iv
        hrect hbpv (fun h => (hiv h).1) hS
    have hchB : ∀ ch ∈ (List.range T).map (fun t =>
        (incs.drop (chunkBound Sz T t)).take
          (chunkBound Sz T (t + 1) - chunkBound Sz T t)),
        ∀ sl ∈ ch, sl.length = B := by
      intro ch hch sl hsl
      rw [List.mem_map] at hch
      rcases hch with ⟨t, _, hteq⟩
      rw [← hteq] at hsl
      have hsl2 : sl ∈ incs :=
        List.mem_of_mem_drop (List.mem_of_mem_take hsl)
      exact (hincs.2 sl hsl2).1
    have hflat : ((List.range T).map (fun t =>
        (incs.drop (chunkBound Sz T t)).take
          (chunkBound Sz T (t + 1) - chunkBound Sz T t))).flatten
        = incs.drop 1 := by
      rw [chunks_flatten incs (chunkBound Sz T) T
        (fun t _ => chunkBound_mono Sz T t), chunkBound_zero]
      rcases chunkBound_last Sz T (by omega) with hlast | hlast
      · rw [hlast]
        apply List.take_of_length_le
        rw [List.length_drop, hincs.1]
      · exfalso
        rw [hSz] at hlast
        omega
    apply list_eq_of_getD ([] : TA)
    · rw [length_combine_fold r depth inverse B _ first hfirstlen hchB,
        length_sigFoldB r inverse B _ first hfirstlen
          (fun sl hsl => (hincs.2 sl (List.mem_of_mem_drop hsl)).1)]
    · intro b hb
      rw [length_combine_fold r depth inverse B _ first hfirstlen hchB] at hb
      rw [combine_fold_getD r depth inverse B b hb _ first hfirstlen hchB,
        combine_fold_eq_sigFold_single C depth r hr inverse _ _
          (first_term_of_getD_shape N B C depth path basepoint bpv inverse
            initial iv hrect hbpv hiv hS hB b hb)
          (by
            intro ch hch v hv
            rw [List.mem_map] at hch
            rcases hch with ⟨ch0, hch0, hcheq⟩
            rw [← hcheq] at hv
            rw [List.mem_map] at hv
            rcases hv with ⟨sl, hsl, hsleq⟩
            rw [← hsleq]
            exact length_sliceB B C b hb sl
              (by
                rw [List.mem_map] at hch0
                rcases hch0 with ⟨t, _, hteq⟩
                rw [← hteq] at hsl
                exact hincs.2 sl
                  (List.mem_of_mem_drop (List.mem_of_mem_take hsl)))),
        sigFoldB_getD r inverse B b hb _ first hfirstlen
          (fun sl hsl => (hincs.2 sl (List.mem_of_mem_drop hsl)).1)]
      congr 1
      rw [← List.map_flatten, hflat]

theorem headD_take {α : Type} (l : List α) (d : α) (n : ℕ) (hn : 1 ≤ n) :
    (l.take n).headD d = l.headD d := by
  cases l with
  | nil => simp
  | cons x t =>
    cases n with
    | zero => omega
    | succ m => rfl

theorem headD_eq_getD_zero {α : Type} (l : List α) (d : α) :
    l.headD d = l.getD 0 d := by
  cases l <;> rfl

theorem zipWith_take_left {α β γ : Type} (f : α → β → γ) :
    ∀ (x : List α) (y : List β) (n : ℕ), y.length ≤ n →
      List.zipWith f (x.take n) y = List.zipWith f x y := by
  intro x
  induction x with
  | nil => intro y n _; simp
  | cons a x ih =>
    intro y n h
    cases y with
    | nil => simp
    | cons b y =>
      cases n with
      | zero => simp at h
      | succ m =>
        simp only [List.take_succ_cons, List.zipWith_cons_cons]
        rw [ih y m (by simpa using h)]

theorem getD_drop {α : Type} (l : List α) (d : α) (n i : ℕ) :
    (l.drop n).getD i d = l.getD (n + i) d := by
  rw [List.getD_eq_getElem?_getD, List.getD_eq_getElem?_getD,
    List.getElem?_drop]

theorem getD_take {α : Type} (l : List α) (d : α) (n i : ℕ) (h : i < n) :
    (l.take n).getD i d = l.getD i d := by
  rw [List.getD_eq_getElem?_getD, List.getD_eq_getElem?_getD,
    List.getElem?_take_of_lt h]

/-- Truncating the path to its first `m+1` stream slots truncates the
(no-basepoint) increments to the first `m`. -/
theorem incs_take (path : List (List Vec)) (bpv : List Vec) (inv : Bool)
    (m : ℕ) :
    compute_path_increments (path.take (m + 1)) false bpv inv
      = (compute_path_increments path false bpv inv).take m := by
  have hdt : (path.take (m + 1)).drop 1 = (path.drop 1).take m := by
    rw [show m + 1 = 1 + m from by omega]
    exact (List.take_drop 1 m path).symm
  have h1 : path.take m = (path.take (m + 1)).take m := by
    rw [List.take_take]
    congr 1
    omega
  cases inv with
  | false =>
    have hl : compute_path_increments (path.take (m + 1)) false bpv false
        = List.zipWith bsub ((path.take (m + 1)).drop 1) (path.take (m + 1)) :=
      rfl
    have hr : compute_path_increments path false bpv false
        = List.zipWith bsub (path.drop 1) path := rfl
    rw [hl, hr, List.take_zipWith, hdt, h1]
    exact (zipWith_take_right bsub _ (path.take (m + 1)) m
      (by rw [List.length_take]; omega)).symm
  | true =>
    have hl : compute_path_increments (path.take (m + 1)) false bpv true
        = List.zipWith bsub (path.take (m + 1)) ((path.take (m + 1)).drop 1) :=
      rfl
    have hr : compute_path_increments path false bpv true
        = List.zipWith bsub path (path.drop 1) := rfl
    rw [hl, hr, List.take_zipWith, hdt, h1]
    exact (zipWith_take_left bsub (path.take (m + 1)) _ m
      (by rw [List.length_take]; omega)).symm

/-- Dropping the first `m` stream slots of the path drops the first `m`
(no-basepoint) increments. -/
theorem incs_drop (path : List (List Vec)) (bpv : List Vec) (inv : Bool)
    (m : ℕ) :
    compute_path_increments (path.drop m) false bpv inv
      = (compute_path_increments path false bpv inv).drop m := by
  have hdd : (path.drop m).drop 1 = (path.drop 1).drop m := by
    rw [List.drop_drop, List.drop_drop]
    congr 1
    omega
  cases inv with
  | false =>
    have hl : compute_path_increments (path.drop m) false bpv false
        = List.zipWith bsub ((path.drop m).drop 1) (path.drop m) := rfl
    have hr : compute_path_increments path false bpv false
        = List.zipWith bsub (path.drop 1) path := rfl
    rw [hl, hr, List.drop_zipWith, hdd]
  | true =>
    have hl : compute_path_increments (path.drop m) false bpv true
        = List.zipWith bsub (path.drop m) ((path.drop m).drop 1) := rfl
    have hr : compute_path_increments path false bpv true
        = List.zipWith bsub path (path.drop 1) := rfl
    rw [hl, hr, List.drop_zipWith, hdd]

/-- Increments of the stream-reversed path: the plain increments of the
reversal are the reversed inverse increments of the original path. -/
theorem incs_reverse (path : List (List Vec)) (bpv bpv2 : List Vec) :
    compute_path_increments path.reverse false bpv false
      = (compute_path_increments path false bpv2 true).reverse := by
  cases path with
  | nil => rfl
  | cons p0 rest =>
    set pa := p0 :: rest with hpa
    have h1 : compute_path_increments pa.reverse false bpv false
        = List.zipWith bsub (pa.reverse.drop 1) pa.reverse := rfl
    have h2 : compute_path_increments pa false bpv2 true
        = List.zipWith bsub pa (pa.drop 1) := rfl
    rw [h1, h2]
    have htrunc : List.zipWith bsub pa (pa.drop 1)
        = List.zipWith bsub (pa.take (pa.length - 1)) (pa.drop 1) :=
      (zipWith_take_left bsub pa (pa.drop 1) (pa.length - 1)
        (by rw [List.length_drop])).symm
    rw [htrunc, zipWith_reverse_eq bsub _ _
        (by rw [List.length_take, List.length_drop]; omega),
      List.reverse_take, List.reverse_drop]
    have hone : pa.length - (pa.length - 1) = 1 := by
      rw [hpa]
      simp
    rw [hone]
    exact (zipWith_take_right bsub (pa.reverse.drop 1) pa.reverse
      (pa.length - 1) (by rw [List.length_drop, List.length_reverse])).symm

theorem rect3_take (N B C m : ℕ) (p : List (List Vec)) (h : Rect3 N B C p)
    (hm : m ≤ N) : Rect3 m B C (p.take m) :=
  ⟨by rw [List.length_take, h.1]; omega,
    fun sl hsl => h.2 sl (List.mem_of_mem_take hsl)⟩

theorem rect3_drop (N B C m : ℕ) (p : List (List Vec)) (h : Rect3 N B C p) :
    Rect3 (N - m) B C (p.drop m) :=
  ⟨by rw [List.length_drop, h.1], fun sl hsl => h.2 sl (List.mem_of_mem_drop hsl)⟩

theorem rect3_reverse (N B C : ℕ) (p : List (List Vec)) (h : Rect3 N B C p) :
    Rect3 N B C p.reverse :=
  ⟨by rw [List.length_reverse, h.1],
    fun sl hsl => h.2 sl (List.mem_reverse.mp hsl)⟩

/-- Per-batch value of the serial `stream=false` signature without an
initial value: batch row `b` of the driven fold is the signature of the
per-batch increment list. -/
theorem forward_flat_getD (N B C depth : ℕ) (path : List (List Vec))
    (bp : Bool) (bpv : List Vec) (inv : Bool)
    (hrect : Rect3 N B C path) (hbpv : bp = true → Rect2 B C bpv)
    (hS : 1 ≤ N - (if bp then 0 else 1)) (b : ℕ) (hb : b < B) :
    (sigFoldB (make_reciprocals depth) inv
        (first_term_of path depth bp bpv inv false [])
        ((compute_path_increments path bp bpv inv).drop 1)).getD b []
      = sigOf (make_reciprocals depth) depth inv
          ((compute_path_increments path bp bpv inv).map (sliceB b)) := by
  have hN : 1 ≤ N := by rcases bp <;> simp at hS <;> omega
  have hincs := rect_incs N B C path bp bpv inv hrect hbpv hN
  have hhead := rect2_headD _ B C _ hincs hS
  have hft : first_term_of path depth bp bpv inv false []
      = bRexp ((compute_path_increments path bp bpv inv).headD [])
          (make_reciprocals depth) depth := by
    rw [first_term_of]
    simp only [Bool.false_eq_true, if_false]
  rw [hft,
    sigFoldB_getD (make_reciprocals depth) inv B b hb _ _
      (by rw [length_bRexp, hhead.1])
      (fun sl hsl => (hincs.2 sl (List.mem_of_mem_drop hsl)).1),
    bRexp_getD _ _ depth b (by rw [hhead.1]; exact hb),
    sigOf]
  congr 1
  · congr 1
    have h0 : sliceB b ([] : List Vec) = [] := rfl
    have h := List.headD_map (sliceB b) (compute_path_increments path bp bpv inv)
      []
    rw [h0] at h
    exact h.symm
  · exact List.map_drop (sliceB b) (compute_path_increments path bp bpv inv) 1

/-- Flat `(B, W)` signature component of a forward-pass result (the
`stream=false` output). -/
def outFlat : SigOutput × List (List Vec) → List Vec
  | (SigOutput.flat sig, _) => sig
  | (SigOutput.streamed _, _) => []

/-- Stream slice `s` of the `(S, B, W)` streamed signature output of a
forward-pass result. -/
def outStream (o : SigOutput × List (List Vec)) (s : ℕ) : List Vec :=
  match o with
  | (SigOutput.streamed sig, _) => sig.getD s []
  | (SigOutput.flat _, _) => []

/-- Model of `signatory::signature_combine_forward`: checks the two
`(batch, signature_channels)` signatures against each other and against the
expected `signature_channels(input_channels, depth)` (the 2-dimensionality
checks are implicit in the `List Vec` type; the single torch channel size is
read off the first batch row), then clones `arg1_inp`, slices the clone and
`arg2_inp` by term and multiplies the views in place; the returned clone is
the flattened product. -/
def signature_combine_forward (arg1_inp arg2_inp : List Vec)
    (input_channels depth : ℕ) : Except String (List Vec) :=
  let num_signature_channels := signature_channels input_channels depth
  if arg1_inp.length ≠ arg2_inp.length then
    Except.error "sigtensor1 and sigtensor2 do not have the same number of batch elements."
  else if (arg1_inp.headD []).length ≠ (arg2_inp.headD []).length then
    Except.error "sigtensor1 and sigtensor2 do not have the same number of channels."
  else if (arg1_inp.headD []).length ≠ num_signature_channels ∨
      (arg2_inp.headD []).length ≠ num_signature_channels then
    Except.error "sigtensor1 or sigtensor2 did not have the expected number of channels."
  else
    Except.ok (List.zipWith
      (fun a1 a2 => joinTA (mult (slice_by_term a1 input_channels depth)
        (slice_by_term a2 input_channels depth))) arg1_inp arg2_inp)

theorem serial_map_length (N B C depth : ℕ) (path : List (List Vec))
    (bp : Bool) (bpv : List Vec) (inv init : Bool) (iv : List Vec)
    (hrect : Rect3 N B C path) (hbpv : bp = true → Rect2 B C bpv)
    (hiv : init = true → iv.length = B)
    (hS : 1 ≤ N - (if bp then 0 else 1)) :
    ((sigFoldB (make_reciprocals depth) inv
        (first_term_of path depth bp bpv inv init iv)
        ((compute_path_increments path bp bpv inv).drop 1)).map joinTA).length
      = B := by
  have hN : 1 ≤ N := by rcases bp <;> simp at hS <;> omega
  have hincs := rect_incs N B C path bp bpv inv hrect hbpv hN
  rw [List.length_map]
  exact length_sigFoldB _ inv B _ _
    (length_first_term_of N B C depth path bp bpv inv init iv hrect hbpv hiv hS)
    (fun sl hsl => (hincs.2 sl (List.mem_of_mem_drop hsl)).1)

theorem incs_slice_shape (N B C : ℕ) (path : List (List Vec)) (bp : Bool)
    (bpv : List Vec) (inv : Bool) (hrect : Rect3 N B C path)
    (hbpv : bp = true → Rect2 B C bpv) (hN : 1 ≤ N) (b : ℕ) (hb : b < B) :
    (∀ v ∈ (compute_path_increments path bp bpv inv).map (sliceB b),
        v.length = C)
    ∧ ((compute_path_increments path bp bpv inv).map (sliceB b)).length
        = N - (if bp then 0 else 1) := by
  have hincs := rect_incs N B C path bp bpv inv hrect hbpv hN
  constructor
  · intro v hv
    rw [List.mem_map] at hv
    rcases hv with ⟨sl, hsl, hsleq⟩
    rw [← hsleq]
    exact length_sliceB B C b hb sl (hincs.2 sl hsl)
  · rw [List.length_map, hincs.1]

theorem forward_map_row (N B C depth : ℕ) (path : List (List Vec)) (bp : Bool)
    (bpv : List Vec) (inv : Bool)
    (hrect : Rect3 N B C path) (hbpv : bp = true → Rect2 B C bpv)
    (hS : 1 ≤ N - (if bp then 0 else 1)) (b : ℕ) (hb : b < B) :
    ((sigFoldB (make_reciprocals depth) inv
        (first_term_of path depth bp bpv inv false [])
        ((compute_path_increments path bp bpv inv).drop 1)).map joinTA).getD b []
      = joinTA (sigOf (make_reciprocals depth) depth inv
          ((compute_path_increments path bp bpv inv).map (sliceB b))) := by
  have hN : 1 ≤ N := by rcases bp <;> simp at hS <;> omega
  have hincs := rect_incs N B C path bp bpv inv hrect hbpv hN
  have hlen : (sigFoldB (make_reciprocals depth) inv
      (first_term_of path depth bp bpv inv false [])
      ((compute_path_increments path bp bpv inv).drop 1)).length = B :=
    length_sigFoldB _ inv B _ _
      (length_first_term_of N B C depth path bp bpv inv false [] hrect hbpv
        (fun h => Bool.noConfusion h) hS)
      (fun sl hsl => (hincs.2 sl (List.mem_of_mem_drop hsl)).1)
  rw [getD_map joinTA _ [] [] b (by rw [hlen]; exact hb),
    forward_flat_getD N B C depth path bp bpv inv hrect hbpv hS b hb]

/-- C1: Chen's identity for the exposed operations.  For a real path of
shape `(N, B, C)` with `N ≥ 2`, depth `D ≥ 1` and split index `m` with
`1 ≤ m ≤ N-2`, the full `stream=false` signature equals
`signature_combine_forward` of the signatures of `path[:m+1]` and
`path[m:]` (exact arithmetic, no basepoint, no inverse, no initial, any
thread parameters). -/
theorem claim_C1_chen_combine (N B C depth m : ℕ)
    (mT1 mP1 mT2 mP2 mT3 mP3 : ℕ) (path : List (List Vec))
    (hrect : Rect3 N B C path) (hN : 2 ≤ N) (hD : 1 ≤ depth) (hB : 1 ≤ B)
    (hm1 : 1 ≤ m) (hm2 : m ≤ N - 2) :
    signature_combine_forward
        (outFlat (signature_forward (path.take (m + 1)) depth false false []
          false false [] mT2 mP2))
        (outFlat (signature_forward (path.drop m) depth false false []
          false false [] mT3 mP3)) C depth
      = Except.ok (outFlat (signature_forward path depth false false []
          false false [] mT1 mP1)) := by
  have hr := fun i hi => make_reciprocals_getD depth i hi
  have hrect1 : Rect3 (m + 1) B C (path.take (m + 1)) :=
    rect3_take N B C (m + 1) path hrect (by omega)
  have hrect2 : Rect3 (N - m) B C (path.drop m) := rect3_drop N B C m path hrect
  have hS0 : 1 ≤ N - (if (false : Bool) then 0 else 1) := by
    simp only [Bool.false_eq_true, if_false]; omega
  have hS1 : 1 ≤ (m + 1) - (if (false : Bool) then 0 else 1) := by
    simp only [Bool.false_eq_true, if_false]; omega
  have hS2 : 1 ≤ (N - m) - (if (false : Bool) then 0 else 1) := by
    simp only [Bool.false_eq_true, if_false]; omega
  rw [signature_forward_false_eq_serial N B C depth path false [] false false
      [] mT1 mP1 hrect (fun h => Bool.noConfusion h) (fun h => Bool.noConfusion h)
      hS0 hB,
    signature_forward_false_eq_serial (m + 1) B C depth (path.take (m + 1))
      false [] false false [] mT2 mP2 hrect1 (fun h => Bool.noConfusion h)
      (fun h => Bool.noConfusion h) hS1 hB,
    signature_forward_false_eq_serial (N - m) B C depth (path.drop m)
      false [] false false [] mT3 mP3 hrect2 (fun h => Bool.noConfusion h)
      (fun h => Bool.noConfusion h) hS2 hB]
  simp only [outFlat]
  set r := make_reciprocals depth with hrdef
  set X1 := (sigFoldB r false
    (first_term_of (path.take (m + 1)) depth false [] false false [])
    ((compute_path_increments (path.take (m + 1)) false [] false).drop 1)).map
    joinTA with hX1def
  set X2 := (sigFoldB r false
    (first_term_of (path.drop m) depth false [] false false [])
    ((compute_path_increments (path.drop m) false [] false).drop 1)).map
    joinTA with hX2def
  set X := (sigFoldB r false (first_term_of path depth false [] false false [])
    ((compute_path_increments path false [] false).drop 1)).map joinTA
    with hXdef
  have hml1 : X1.length = B := serial_map_length (m + 1) B C depth
    (path.take (m + 1)) false [] false false [] hrect1
    (fun h => Bool.noConfusion h) (fun h => Bool.noConfusion h) hS1
  have hml2 : X2.length = B := serial_map_length (N - m) B C depth
    (path.drop m) false [] false false [] hrect2
    (fun h => Bool.noConfusion h) (fun h => Bool.noConfusion h) hS2
  have hml : X.length = B := serial_map_length N B C depth path false []
    false false [] hrect (fun h => Bool.noConfusion h)
    (fun h => Bool.noConfusion h) hS0
  have hmr1 := fun (b : ℕ) (hb : b < B) => forward_map_row (m + 1) B C depth
    (path.take (m + 1)) false [] false hrect1 (fun h => Bool.noConfusion h)
    hS1 b hb
  have hmr2 := fun (b : ℕ) (hb : b < B) => forward_map_row (N - m) B C depth
    (path.drop m) false [] false hrect2 (fun h => Bool.noConfusion h)
    hS2 b hb
  have hmr := fun (b : ℕ) (hb : b < B) => forward_map_row N B C depth path
    false [] false hrect (fun h => Bool.noConfusion h) hS0 b hb
  have hsl1 := fun (b : ℕ) (hb : b < B) => incs_slice_shape (m + 1) B C
    (path.take (m + 1)) false [] false hrect1 (fun h => Bool.noConfusion h)
    (by omega) b hb
  have hsl2 := fun (b : ℕ) (hb : b < B) => incs_slice_shape (N - m) B C
    (path.drop m) false [] false hrect2 (fun h => Bool.noConfusion h)
    (by omega) b hb
  have hsl := fun (b : ℕ) (hb : b < B) => incs_slice_shape N B C path
    false [] false hrect (fun h => Bool.noConfusion h) (by omega) b hb
  have hsh1 : ∀ (b : ℕ), b < B → TAShape C depth (sigOf r depth false
      ((compute_path_increments (path.take (m + 1)) false [] false).map
        (sliceB b))) := by
    intro b hb
    apply sigOf_shape C depth r hr false _ (hsl1 b hb).1
    apply List.ne_nil_of_length_pos
    rw [(hsl1 b hb).2]
    simp only [Bool.false_eq_true, if_false]
    omega
  have hsh2 : ∀ (b : ℕ), b < B → TAShape C depth (sigOf r depth false
      ((compute_path_increments (path.drop m) false [] false).map
        (sliceB b))) := by
    intro b hb
    apply sigOf_shape C depth r hr false _ (hsl2 b hb).1
    apply List.ne_nil_of_length_pos
    rw [(hsl2 b hb).2]
    simp only [Bool.false_eq_true, if_false]
    omega
  have hhead1 : (X1.headD []).length = signature_channels C depth := by
    rw [headD_eq_getD_zero, hmr1 0 (by omega)]
    exact length_joinTA C depth _ (hsh1 0 (by omega))
  have hhead2 : (X2.headD []).length = signature_channels C depth := by
    rw [headD_eq_getD_zero, hmr2 0 (by omega)]
    exact length_joinTA C depth _ (hsh2 0 (by omega))
  rw [signature_combine_forward]
  rw [if_neg (fun h => h (hml1.trans hml2.symm)),
    if_neg (fun h => h (hhead1.trans hhead2.symm)),
    if_neg (by push_neg; exact ⟨hhead1, hhead2⟩)]
  congr 1
  apply list_eq_of_getD ([] : Vec)
  · rw [List.length_zipWith, hml1, hml2, hml]
    simp
  · intro b hb
    rw [List.length_zipWith, hml1, hml2] at hb
    have hbB : b < B := by omega
    rw [getD_zipWith _ X1 X2 [] [] [] b (by omega) (by omega),
      hmr1 b hbB, hmr2 b hbB, hmr b hbB,
      slice_by_term_joinTA C depth _ (hsh1 b hbB),
      slice_by_term_joinTA C depth _ (hsh2 b hbB),
      incs_take path [] false m, incs_drop path [] false m,
      List.map_take, List.map_drop]
    congr 1
    rw [← sigOf_append_false C depth r hr _ _
        (fun v hv => (hsl b hbB).1 v (List.mem_of_mem_take hv))
        (fun v hv => (hsl b hbB).1 v (List.mem_of_mem_drop hv))
        (List.ne_nil_of_length_pos (by
          rw [List.length_take, (hsl b hbB).2]
          simp only [Bool.false_eq_true, if_false]
          omega))
        (List.ne_nil_of_length_pos (by
          rw [List.length_drop, (hsl b hbB).2]
          simp only [Bool.false_eq_true, if_false]
          omega)),
      List.take_append_drop]

theorem claim_C1_chen_combine_witness :
    Rect3 3 1 1 [[[(0 : ℚ)]], [[1]], [[3]]] ∧
    signature_combine_forward
        (outFlat (signature_forward ([[[(0 : ℚ)]], [[1]], [[3]]].take (1 + 1))
          1 false false [] false false [] 1 1))
        (outFlat (signature_forward ([[[(0 : ℚ)]], [[1]], [[3]]].drop 1)
          1 false false [] false false [] 1 1)) 1 1
      = Except.ok (outFlat (signature_forward [[[(0 : ℚ)]], [[1]], [[3]]]
          1 false false [] false false [] 1 1)) :=
  ⟨by decide,
    claim_C1_chen_combine 3 1 1 1 1 1 1 1 1 1 1 [[[(0 : ℚ)]], [[1]], [[3]]]
      (by decide) (by decide) (by decide) (by decide) (by decide) (by decide)⟩

/-- Evaluation of the `stream=true` branch of the forward driver: the output
is the scan of the fused kernel over the trailing increments. -/
theorem signature_forward_stream_eq (path : List (List Vec)) (depth : ℕ)
    (bp : Bool) (bpv : List Vec) (inv init : Bool) (iv : List Vec)
    (mT mP : ℕ) :
    signature_forward path depth true bp bpv inv init iv mT mP
      = (SigOutput.streamed
          ((List.scanl
              (fun acc nx => bFused nx acc inv (make_reciprocals depth))
              (first_term_of path depth bp bpv inv init iv)
              ((compute_path_increments path bp bpv inv).drop 1)).map
            (fun bt => bt.map joinTA)),
        compute_path_increments path bp bpv inv) := rfl

/-- C2: stream prefix consistency.  For a path of shape `(N, B, C)` with
`N ≥ 2`, depth `D ≥ 1` and stream index `s ≤ S-1` (`S = N-1`, no
basepoint), slice `s` of the `stream=true` signature equals the
`stream=false` signature of `path[:s+2]`, with the same `inverse` and
`initial` flags in both calls. -/
theorem claim_C2_stream_prefix (N B C depth s : ℕ) (mT1 mP1 mT2 mP2 : ℕ)
    (path : List (List Vec)) (inv init : Bool) (iv : List Vec)
    (hrect : Rect3 N B C path)
    (hiv : init = true → Rect2 B (signature_channels C depth) iv)
    (hN : 2 ≤ N) (hB : 1 ≤ B) (hs : s ≤ N - 2) :
    outStream (signature_forward path depth true false [] inv init iv mT1 mP1) s
      = outFlat (signature_forward (path.take (s + 2)) depth false false []
          inv init iv mT2 mP2) := by
  have hrect2 : Rect3 (s + 2) B C (path.take (s + 2)) :=
    rect3_take N B C (s + 2) path hrect (by omega)
  have hS2 : 1 ≤ (s + 2) - (if (false : Bool) then 0 else 1) := by
    simp only [Bool.false_eq_true, if_false]; omega
  have hincs := rect_incs N B C path false [] inv hrect
    (fun h => Bool.noConfusion h) (by omega)
  have hincslen : (compute_path_increments path false [] inv).length = N - 1 := by
    have := hincs.1
    simp only [Bool.false_eq_true, if_false] at this
    exact this
  rw [signature_forward_false_eq_serial (s + 2) B C depth (path.take (s + 2))
      false [] inv init iv mT2 mP2 hrect2 (fun h => Bool.noConfusion h) hiv
      hS2 hB,
    signature_forward_stream_eq path depth false [] inv init iv mT1 mP1]
  simp only [outFlat, outStream]
  have hfirst : first_term_of (path.take (s + 2)) depth false [] inv init iv
      = first_term_of path depth false [] inv init iv := by
    simp only [first_term_of]
    rw [headD_take path [] (s + 2) (by omega),
      show s + 2 = (s + 1) + 1 from by omega,
      incs_take path [] inv (s + 1),
      headD_take (compute_path_increments path false [] inv) [] (s + 1)
        (by omega)]
  have hincs2 : compute_path_increments (path.take (s + 2)) false [] inv
      = (compute_path_increments path false [] inv).take (s + 1) := by
    rw [show s + 2 = (s + 1) + 1 from by omega]
    exact incs_take path [] inv (s + 1)
  rw [hfirst, hincs2]
  have hdt : ((compute_path_increments path false [] inv).take (s + 1)).drop 1
      = ((compute_path_increments path false [] inv).drop 1).take s := by
    rw [show s + 1 = 1 + s from by omega]
    exact (List.take_drop 1 s _).symm
  rw [hdt]
  have hscanlen : s < (List.scanl
      (fun acc nx => bFused nx acc inv (make_reciprocals depth))
      (first_term_of path depth false [] inv init iv)
      ((compute_path_increments path false [] inv).drop 1)).length := by
    rw [List.length_scanl, List.length_drop, hincslen]
    omega
  rw [getD_map (fun bt : List TA => bt.map joinTA) _ [] [] s hscanlen,
    scanl_getD _ _ _ ([] : List TA) s
      (by rw [List.length_drop, hincslen]; omega)]
  rfl

theorem claim_C2_stream_prefix_witness :
    Rect3 3 1 1 [[[(0 : ℚ)]], [[1]], [[3]]] ∧
    outStream (signature_forward [[[(0 : ℚ)]], [[1]], [[3]]] 1 true false []
        false false [] 1 1) 1
      = outFlat (signature_forward ([[[(0 : ℚ)]], [[1]], [[3]]].take (1 + 2))
          1 false false [] false false [] 1 1) :=
  ⟨by decide,
    claim_C2_stream_prefix 3 1 1 1 1 1 1 1 1 [[[(0 : ℚ)]], [[1]], [[3]]]
      false false [] (by decide) (fun h => Bool.noConfusion h) (by decide)
      (by decide) (by decide)⟩

/-- C3: inverse property.  For a path of shape `(N, B, C)` with `N ≥ 2` and
depth `D ≥ 1`, the `stream=false` signature with `inverse=true` equals the
plain signature of the stream-reversed path, for any thread parameters on
either side (so in particular when either call uses the chunked-parallel
driver). -/
theorem claim_C3_inverse_reverse (N B C depth : ℕ) (mT1 mP1 mT2 mP2 : ℕ)
    (path : List (List Vec)) (hrect : Rect3 N B C path) (hN : 2 ≤ N)
    (hB : 1 ≤ B) :
    outFlat (signature_forward path depth false false [] true false [] mT1 mP1)
      = outFlat (signature_forward path.reverse depth false false [] false
          false [] mT2 mP2) := by
  have hrectR := rect3_reverse N B C path hrect
  have hS0 : 1 ≤ N - (if (false : Bool) then 0 else 1) := by
    simp only [Bool.false_eq_true, if_false]; omega
  rw [signature_forward_false_eq_serial N B C depth path false [] true false
      [] mT1 mP1 hrect (fun h => Bool.noConfusion h)
      (fun h => Bool.noConfusion h) hS0 hB,
    signature_forward_false_eq_serial N B C depth path.reverse false [] false
      false [] mT2 mP2 hrectR (fun h => Bool.noConfusion h)
      (fun h => Bool.noConfusion h) hS0 hB]
  simp only [outFlat]
  have hr := fun i hi => make_reciprocals_getD depth i hi
  have hml1 := serial_map_length N B C depth path false [] true false []
    hrect (fun h => Bool.noConfusion h) (fun h => Bool.noConfusion h) hS0
  have hml2 := serial_map_length N B C depth path.reverse false [] false
    false [] hrectR (fun h => Bool.noConfusion h)
    (fun h => Bool.noConfusion h) hS0
  apply list_eq_of_getD ([] : Vec) _ _ (hml1.trans hml2.symm)
  intro b hb
  rw [hml1] at hb
  rw [forward_map_row N B C depth path false [] true hrect
      (fun h => Bool.noConfusion h) hS0 b hb,
    forward_map_row N B C depth path.reverse false [] false hrectR
      (fun h => Bool.noConfusion h) hS0 b hb]
  congr 1
  rw [incs_reverse path [] [], List.map_reverse]
  exact sigOf_true_eq_reverse C depth _ hr _
    (incs_slice_shape N B C path false [] true hrect
      (fun h => Bool.noConfusion h) (by omega) b hb).1
    (List.ne_nil_of_length_pos (by
      rw [(incs_slice_shape N B C path false [] true hrect
        (fun h => Bool.noConfusion h) (by omega) b hb).2]
      simp only [Bool.false_eq_true, if_false]
      omega))

theorem claim_C3_inverse_reverse_witness :
    Rect3 3 1 1 [[[(0 : ℚ)]], [[1]], [[3]]] ∧
    outFlat (signature_forward [[[(0 : ℚ)]], [[1]], [[3]]] 2 false false []
        true false [] 1 1)
      = outFlat (signature_forward [[[(0 : ℚ)]], [[1]], [[3]]].reverse 2 false
          false [] false false [] 1 1) :=
  ⟨by decide,
    claim_C3_inverse_reverse 3 1 1 2 1 1 1 1 [[[(0 : ℚ)]], [[1]], [[3]]]
      (by decide) (by decide) (by decide)⟩

/-- C5: parallelism invariance.  For every valid input the `stream=false`
forward pass returns the same signature-and-increments pair for every
setting of the thread-count parameters (`omp_get_max_threads()` and
`get_max_parallelism()`): both equal the serial fold. -/
theorem claim_C5_parallelism_invariance (N B C depth : ℕ)
    (mT1 mP1 mT2 mP2 : ℕ) (path : List (List Vec)) (bp : Bool)
    (bpv : List Vec) (inv init : Bool) (iv : List Vec)
    (hrect : Rect3 N B C path) (hbpv : bp = true → Rect2 B C bpv)
    (hiv : init = true → Rect2 B (signature_channels C depth) iv)
    (hS : 1 ≤ N - (if bp then 0 else 1)) (hB : 1 ≤ B) :
    signature_forward path depth false bp bpv inv init iv mT1 mP1
      = signature_forward path depth false bp bpv inv init iv mT2 mP2 := by
  rw [signature_forward_false_eq_serial N B C depth path bp bpv inv init iv
      mT1 mP1 hrect hbpv hiv hS hB,
    signature_forward_false_eq_serial N B C depth path bp bpv inv init iv
      mT2 mP2 hrect hbpv hiv hS hB]

theorem claim_C5_parallelism_invariance_witness :
    Rect3 2 1 1 [[[(0 : ℚ)]], [[2]]] ∧
    signature_forward [[[(0 : ℚ)]], [[2]]] 2 false false [] false false [] 1 1
      = signature_forward [[[(0 : ℚ)]], [[2]]] 2 false false [] false false []
          8 4 :=
  ⟨by decide,
    claim_C5_parallelism_invariance 2 1 1 2 1 1 8 4 [[[(0 : ℚ)]], [[2]]]
      false [] false false [] (by decide) (fun h => Bool.noConfusion h)
      (fun h => Bool.noConfusion h) (by decide) (by decide)⟩

instance (C D : ℕ) (A : TA) : Decidable (TAShape C D A) := by
  unfold TAShape; infer_instance

/-- C4: round-trip invertibility of the fused kernel.  Applying
`mult_fused_restricted_exp` with increment `x` and then with `-x` (either
orientation of the `inverse` flag, reciprocals as built by
`misc::make_reciprocals`) restores the original element exactly; hence the
`stream=false` backward pass recovers the signature at stream `s-1` from
the signature at stream `s` by running the kernel with the negated
increment. -/
theorem claim_C4_fused_roundtrip (C D : ℕ) (x : Vec) (A : TA) (inv : Bool)
    (l : List Vec) (y : Vec) (hx : x.length = C) (hA : TAShape C D A)
    (hl : ∀ v ∈ l, v.length = C) (hy : y.length = C) (hne : l ≠ []) :
    mult_fused_restricted_exp (vneg x)
        (mult_fused_restricted_exp x A inv (make_reciprocals D)) inv
        (make_reciprocals D) = A
    ∧ mult_fused_restricted_exp (vneg y)
        (sigOf (make_reciprocals D) D inv (l ++ [y])) inv (make_reciprocals D)
      = sigOf (make_reciprocals D) D inv l := by
  have hr := fun i hi => make_reciprocals_getD D i hi
  constructor
  · exact fused_roundtrip C D x A inv (make_reciprocals D) hr hx hA
  · rw [sigOf_snoc (make_reciprocals D) D inv l y hne]
    exact fused_roundtrip C D y _ inv (make_reciprocals D) hr hy
      (sigOf_shape C D (make_reciprocals D) hr inv l hl hne)

theorem claim_C4_fused_roundtrip_witness :
    TAShape 1 2 [[(1 : ℚ)], [3]] ∧
    (mult_fused_restricted_exp (vneg [(2 : ℚ)])
        (mult_fused_restricted_exp [(2 : ℚ)] [[(1 : ℚ)], [3]] false
          (make_reciprocals 2)) false (make_reciprocals 2) = [[(1 : ℚ)], [3]]
    ∧ mult_fused_restricted_exp (vneg [(5 : ℚ)])
        (sigOf (make_reciprocals 2) 2 false ([[(1 : ℚ)]] ++ [[(5 : ℚ)]]))
        false (make_reciprocals 2)
      = sigOf (make_reciprocals 2) 2 false [[(1 : ℚ)]]) :=
  ⟨by decide,
    claim_C4_fused_roundtrip 1 2 [(2 : ℚ)] [[(1 : ℚ)], [3]] false
      [[(1 : ℚ)]] [(5 : ℚ)] (by decide) (by decide) (by decide) (by decide)
      (by decide)⟩

/-- C6: restricted exponential postcondition.  For `x` of channel size `C`
and depth `D ≥ 1`, with `r = make_reciprocals D` (length `D-1`,
`r[i] = 1/(i+2)`), `restricted_exp` writes `out[0] = x`, satisfies the
recurrence `out[k] = (out[k-1] ⊗ x) · r[k-1]` for `1 ≤ k < D`, and its
grade-`(k+1)` term equals `x^{⊗(k+1)} / (k+1)!`. -/
theorem claim_C6_restricted_exp (C D : ℕ) (x : Vec) (hx : x.length = C)
    (hD : 1 ≤ D) :
    (make_reciprocals D).length = D - 1
    ∧ (∀ i, i < D - 1 → (make_reciprocals D).getD i 0 = 1 / ((i : ℚ) + 2))
    ∧ (restricted_exp x (make_reciprocals D) D).length = D
    ∧ gr (restricted_exp x (make_reciprocals D) D) 0 = x
    ∧ (∀ k, 1 ≤ k → k < D →
        gr (restricted_exp x (make_reciprocals D) D) k
          = smul ((make_reciprocals D).getD (k - 1) 0)
              (kron (gr (restricted_exp x (make_reciprocals D) D) (k - 1)) x))
    ∧ (∀ k, k < D →
        gr (restricted_exp x (make_reciprocals D) D) k
          = smul (1 / (((k + 1).factorial : ℕ) : ℚ)) (xpow x (k + 1))) := by
  have hr := fun i hi => make_reciprocals_getD D i hi
  refine ⟨length_make_reciprocals D, hr, length_restricted_exp x _ D, ?_, ?_, ?_⟩
  · rw [gr_restricted_exp x _ D 0 hD]
    rfl
  · intro k hk1 hk2
    obtain ⟨m, rfl⟩ : ∃ m, k = m + 1 := ⟨k - 1, by omega⟩
    simp only [Nat.add_sub_cancel]
    rw [gr_restricted_exp x _ D (m + 1) hk2,
      gr_restricted_exp x _ D m (by omega)]
    show smul ((make_reciprocals D).getD m 0)
        (kron x (rexpAux x (make_reciprocals D) m))
      = smul ((make_reciprocals D).getD m 0)
          (kron (rexpAux x (make_reciprocals D) m) x)
    congr 1
    rw [rexpAux_eq x _ D hr m (by omega), kron_smul_right, kron_smul_left]
    congr 1
    rw [kron_xpow_left, ← xpow_succ]
  · intro k hk
    rw [gr_restricted_exp x _ D k hk]
    exact rexpAux_eq x _ D hr k hk

theorem claim_C6_restricted_exp_witness :
    ([(1 : ℚ), 2] : Vec).length = 2 ∧ 1 ≤ 3 ∧
    ((make_reciprocals 3).length = 3 - 1
    ∧ (∀ i, i < 3 - 1 → (make_reciprocals 3).getD i 0 = 1 / ((i : ℚ) + 2))
    ∧ (restricted_exp [(1 : ℚ), 2] (make_reciprocals 3) 3).length = 3
    ∧ gr (restricted_exp [(1 : ℚ), 2] (make_reciprocals 3) 3) 0 = [(1 : ℚ), 2]
    ∧ (∀ k, 1 ≤ k → k < 3 →
        gr (restricted_exp [(1 : ℚ), 2] (make_reciprocals 3) 3) k
          = smul ((make_reciprocals 3).getD (k - 1) 0)
              (kron (gr (restricted_exp [(1 : ℚ), 2] (make_reciprocals 3) 3)
                (k - 1)) [(1 : ℚ), 2]))
    ∧ (∀ k, k < 3 →
        gr (restricted_exp [(1 : ℚ), 2] (make_reciprocals 3) 3) k
          = smul (1 / (((k + 1).factorial : ℕ) : ℚ))
              (xpow [(1 : ℚ), 2] (k + 1)))) :=
  ⟨by decide, by decide,
    claim_C6_restricted_exp 2 3 [(1 : ℚ), 2] (by decide) (by decide)⟩

/-- C7 (amended): path-increment extraction.  For a path of shape
`(N, B, C)`, `compute_path_increments` returns `(S, B, C)` with
`S = N-1` (no basepoint) or `S = N` (basepoint); without a basepoint
`result[s] = path[s+1] - path[s]` (`inverse=false`) or
`path[s] - path[s+1]` (`inverse=true`); with a basepoint
`result[0] = path[0] - bp` (or `bp - path[0]` under inverse) and, for
`1 ≤ s < N`, `result[s] = path[s] - path[s-1]` (or `path[s-1] - path[s]`
under inverse) - not the claimed `path[s+1] - path[s]`. -/
theorem claim_C7_path_increments (N B C : ℕ) (path : List (List Vec))
    (bp : Bool) (bpv : List Vec) (inv : Bool)
    (hrect : Rect3 N B C path) (hN : 1 ≤ N) :
    (compute_path_increments path bp bpv inv).length
      = (if bp then N else N - 1)
    ∧ (bp = false → inv = false → ∀ s, s < N - 1 →
        (compute_path_increments path bp bpv inv).getD s []
          = bsub (path.getD (s + 1) []) (path.getD s []))
    ∧ (bp = false → inv = true → ∀ s, s < N - 1 →
        (compute_path_increments path bp bpv inv).getD s []
          = bsub (path.getD s []) (path.getD (s + 1) []))
    ∧ (bp = true → inv = false →
        (compute_path_increments path bp bpv inv).getD 0 []
            = bsub (path.getD 0 []) bpv
        ∧ ∀ s, 1 ≤ s → s < N →
            (compute_path_increments path bp bpv inv).getD s []
              = bsub (path.getD s []) (path.getD (s - 1) []))
    ∧ (bp = true → inv = true →
        (compute_path_increments path bp bpv inv).getD 0 []
            = bsub bpv (path.getD 0 [])
        ∧ ∀ s, 1 ≤ s → s < N →
            (compute_path_increments path bp bpv inv).getD s []
              = bsub (path.getD (s - 1) []) (path.getD s [])) := by
  have hlen : path.length = N := hrect.1
  have hd1 : (path.drop 1).length = N - 1 := by rw [List.length_drop, hlen]
  refine ⟨?_, ?_, ?_, ?_, ?_⟩
  · cases bp with
    | false =>
      cases inv with
      | false =>
        have h : compute_path_increments path false bpv false
            = List.zipWith bsub (path.drop 1) path := rfl
        rw [h, List.length_zipWith, hd1, hlen]
        simp only [Bool.false_eq_true, if_false]
        omega
      | true =>
        have h : compute_path_increments path false bpv true
            = List.zipWith bsub path (path.drop 1) := rfl
        rw [h, List.length_zipWith, hd1, hlen]
        simp only [Bool.false_eq_true, if_false]
        omega
    | true =>
      cases inv with
      | false =>
        have h : compute_path_increments path true bpv false
            = bsub (path.headD []) bpv
              :: List.zipWith bsub (path.drop 1) path := rfl
        rw [h, List.length_cons, List.length_zipWith, hd1, hlen]
        simp only [if_true]
        omega
      | true =>
        have h : compute_path_increments path true bpv true
            = bsub bpv (path.headD [])
              :: List.zipWith bsub path (path.drop 1) := rfl
        rw [h, List.length_cons, List.length_zipWith, hd1, hlen]
        simp only [if_true]
        omega
  · rintro rfl rfl
    intro s hs
    have h : compute_path_increments path false bpv false
        = List.zipWith bsub (path.drop 1) path := rfl
    rw [h, getD_zipWith bsub (path.drop 1) path [] [] [] s (by omega)
        (by rw [hd1, hlen]; omega),
      getD_drop path [] 1 s, Nat.add_comm 1 s]
  · rintro rfl rfl
    intro s hs
    have h : compute_path_increments path false bpv true
        = List.zipWith bsub path (path.drop 1) := rfl
    rw [h]
    rw [show List.zipWith bsub path (path.drop 1)
        = List.zipWith bsub (path.take ((path.drop 1).length)) (path.drop 1)
        from (zipWith_take_left bsub path (path.drop 1) _ (le_refl _)).symm]
    rw [getD_zipWith bsub _ (path.drop 1) [] [] [] s
        (by rw [List.length_take, hd1, hlen]; omega)
        (by rw [List.length_take, hd1, hlen]; omega),
      getD_take path [] _ s (by rw [hd1]; omega),
      getD_drop path [] 1 s, Nat.add_comm 1 s]
  · rintro rfl rfl
    have h : compute_path_increments path true bpv false
        = bsub (path.headD []) bpv
          :: List.zipWith bsub (path.drop 1) path := rfl
    constructor
    · rw [h, List.getD_cons_zero, headD_eq_getD_zero]
    · intro s hs1 hs2
      obtain ⟨t, rfl⟩ : ∃ t, s = t + 1 := ⟨s - 1, by omega⟩
      rw [h, List.getD_cons_succ,
        getD_zipWith bsub (path.drop 1) path [] [] [] t (by omega)
          (by rw [hd1, hlen]; omega),
        getD_drop path [] 1 t, Nat.add_comm 1 t, Nat.add_sub_cancel]
  · rintro rfl rfl
    have h : compute_path_increments path true bpv true
        = bsub bpv (path.headD [])
          :: List.zipWith bsub path (path.drop 1) := rfl
    constructor
    · rw [h, List.getD_cons_zero, headD_eq_getD_zero]
    · intro s hs1 hs2
      obtain ⟨t, rfl⟩ : ∃ t, s = t + 1 := ⟨s - 1, by omega⟩
      rw [h, List.getD_cons_succ]
      rw [show List.zipWith bsub path (path.drop 1)
          = List.zipWith bsub (path.take ((path.drop 1).length)) (path.drop 1)
          from (zipWith_take_left bsub path (path.drop 1) _ (le_refl _)).symm]
      rw [getD_zipWith bsub _ (path.drop 1) [] [] [] t
          (by rw [List.length_take, hd1, hlen]; omega)
          (by rw [List.length_take, hd1, hlen]; omega),
        getD_take path [] _ t (by rw [hd1]; omega),
        getD_drop path [] 1 t, Nat.add_comm 1 t, Nat.add_sub_cancel]

/-- C7 counterexample: with a basepoint, the code's increment at stream
index `1` for `path = [[[0]], [[1]], [[4]]]`, `bp = [[0]]` is
`path[1] - path[0] = [[1]]`, while the spec's table row
`result[s] = path[s+1] - path[s]` for `s ≥ 1` gives
`path[2] - path[1] = [[3]]`. -/
theorem claim_C7_counterexample :
    (compute_path_increments [[[(0 : ℚ)]], [[1]], [[4]]] true [[(0 : ℚ)]]
        false).getD 1 [] = [[(1 : ℚ)]]
    ∧ bsub ([[[(0 : ℚ)]], [[1]], [[4]]].getD 2 [])
        ([[[(0 : ℚ)]], [[1]], [[4]]].getD 1 []) = [[(3 : ℚ)]]
    ∧ ([[(1 : ℚ)]] : List Vec) ≠ [[(3 : ℚ)]] :=
  ⟨by show [[(1 : ℚ) + -0]] = [[(1 : ℚ)]]; norm_num,
    by show [[(4 : ℚ) + -1]] = [[(3 : ℚ)]]; norm_num,
    by intro h; rw [List.cons.injEq, List.cons.injEq] at h; norm_num at h⟩

theorem claim_C7_path_increments_witness :
    Rect3 3 1 1 [[[(0 : ℚ)]], [[1]], [[4]]] ∧
    ((compute_path_increments [[[(0 : ℚ)]], [[1]], [[4]]] true [[(0 : ℚ)]]
        false).length = (if true then 3 else 3 - 1)
    ∧ (true = false → false = false → ∀ s, s < 3 - 1 →
        (compute_path_increments [[[(0 : ℚ)]], [[1]], [[4]]] true [[(0 : ℚ)]]
          false).getD s []
          = bsub ([[[(0 : ℚ)]], [[1]], [[4]]].getD (s + 1) [])
              ([[[(0 : ℚ)]], [[1]], [[4]]].getD s []))
    ∧ (true = false → false = true → ∀ s, s < 3 - 1 →
        (compute_path_increments [[[(0 : ℚ)]], [[1]], [[4]]] true [[(0 : ℚ)]]
          false).getD s []
          = bsub ([[[(0 : ℚ)]], [[1]], [[4]]].getD s [])
              ([[[(0 : ℚ)]], [[1]], [[4]]].getD (s + 1) []))
    ∧ (true = true → false = false →
        (compute_path_increments [[[(0 : ℚ)]], [[1]], [[4]]] true [[(0 : ℚ)]]
            false).getD 0 []
            = bsub ([[[(0 : ℚ)]], [[1]], [[4]]].getD 0 []) [[(0 : ℚ)]]
        ∧ ∀ s, 1 ≤ s → s < 3 →
            (compute_path_increments [[[(0 : ℚ)]], [[1]], [[4]]] true
              [[(0 : ℚ)]] false).getD s []
              = bsub ([[[(0 : ℚ)]], [[1]], [[4]]].getD s [])
                  ([[[(0 : ℚ)]], [[1]], [[4]]].getD (s - 1) []))
    ∧ (true = true → false = true →
        (compute_path_increments [[[(0 : ℚ)]], [[1]], [[4]]] true [[(0 : ℚ)]]
            false).getD 0 []
            = bsub [[(0 : ℚ)]] ([[[(0 : ℚ)]], [[1]], [[4]]].getD 0 [])
        ∧ ∀ s, 1 ≤ s → s < 3 →
            (compute_path_increments [[[(0 : ℚ)]], [[1]], [[4]]] true
              [[(0 : ℚ)]] false).getD s []
              = bsub ([[[(0 : ℚ)]], [[1]], [[4]]].getD (s - 1) [])
                  ([[[(0 : ℚ)]], [[1]], [[4]]].getD s []))) :=
  ⟨by decide,
    claim_C7_path_increments 3 1 1 [[[(0 : ℚ)]], [[1]], [[4]]] true
      [[(0 : ℚ)]] false (by decide) (by decide)⟩

/-- Tensor metadata for the argument checks of `signature_checkargs`:
shape, floating-point flag, and the dtype/device tags that
`misc::make_opts` compares. -/
structure TensorMeta where
  sizes : List ℕ
  floating : Bool
  dtype : ℕ
  device : ℕ

/-- `tensor.size(d)` for the dimension constants of the missing
`misc.hpp`, which must be negative (counted from the end:
`channel_dim = -1`, `batch_dim = -2`, `stream_dim = -3`) for the same
constants to index both the 3-dimensional `(stream, batch, channel)`
path of the spec's layout and the 2-dimensional `(batch, channel)`
`basepoint_value` / `initial_value`: `sizeEnd t k` is `t.size(-1-k)`. -/
def sizeEnd (t : TensorMeta) (k : ℕ) : ℕ :=
  t.sizes.getD (t.sizes.length - 1 - k) 0

/-- Model of `signatory::signature_checkargs`, checks in source order
(`depth` is the C++ signed `s_size_type`).  `signature_channels` for the
`initial_value` check is the spec-modelled width. -/
def signature_checkargs (path : TensorMeta) (depth : ℤ) (basepoint : Bool)
    (basepoint_value : TensorMeta) (initial : Bool)
    (initial_value : TensorMeta) : Except String Unit :=
  if path.sizes.length = 2 then
    Except.error "path must be a 3-dimensional tensor (wrap a single path in a batch dimension)"
  else if path.sizes.length ≠ 3 then
    Except.error "path must be a 3-dimensional tensor"
  else if sizeEnd path 1 = 0 ∨ sizeEnd path 2 = 0 ∨ sizeEnd path 0 = 0 then
    Except.error "path cannot have dimensions of size zero"
  else if basepoint = false ∧ sizeEnd path 2 = 1 then
    Except.error "path must have stream dimension of size at least 2"
  else if depth < 1 then
    Except.error "depth must be an integer greater than or equal to one"
  else if path.floating = false then
    Except.error "path must be of floating point type"
  else if basepoint = true ∧ basepoint_value.sizes.length ≠ 2 then
    Except.error "basepoint must be a 2-dimensional tensor"
  else if basepoint = true ∧ (sizeEnd basepoint_value 0 ≠ sizeEnd path 0
      ∨ sizeEnd basepoint_value 1 ≠ sizeEnd path 1) then
    Except.error "basepoint and path must have dimensions of the same size"
  else if basepoint = true ∧ (basepoint_value.dtype ≠ path.dtype
      ∨ basepoint_value.device ≠ path.device) then
    Except.error "basepoint does not have the same dtype or device as path"
  else if initial = true ∧ initial_value.sizes.length ≠ 2 then
    Except.error "initial must be a 2-dimensional tensor"
  else if initial = true ∧ (sizeEnd initial_value 0
        ≠ signature_channels (sizeEnd path 0) depth.toNat
      ∨ sizeEnd initial_value 1 ≠ sizeEnd path 1) then
    Except.error "initial must have correctly sized batch and channel dimensions"
  else if initial = true ∧ (initial_value.dtype ≠ path.dtype
      ∨ initial_value.device ≠ path.device) then
    Except.error "initial does not have the same dtype or device as path"
  else Except.ok ()

/-- `signature_forward` runs `signature_checkargs` at entry, before any
allocation or computation: a failed check propagates the error and no
signature output is produced. -/
def signature_forward_checked (pathMeta : TensorMeta)
    (path : List (List Vec)) (depth : ℤ) (stream basepoint : Bool)
    (bpvMeta : TensorMeta) (bpv : List Vec) (inverse initial : Bool)
    (ivMeta : TensorMeta) (iv : List Vec) (mT mP : ℕ) :
    Except String (SigOutput × List (List Vec)) :=
  match signature_checkargs pathMeta depth basepoint bpvMeta initial ivMeta with
  | Except.error e => Except.error e
  | Except.ok _ =>
      Except.ok (signature_forward path depth.toNat stream basepoint bpv
        inverse initial iv mT mP)

attribute [irreducible] signature_channels

theorem except_error_exists (x : Except String Unit) :
    (∃ e, x = Except.error e) ↔ ¬(x = Except.ok ()) := by
  cases x with
  | error a => simp
  | ok u => cases u; simp

/-- `signature_checkargs` succeeds exactly when every check of the source,
in source order, passes. -/
theorem signature_checkargs_ok_iff (path : TensorMeta) (depth : ℤ)
    (bp : Bool) (bpv : TensorMeta) (init : Bool) (iv : TensorMeta) :
    signature_checkargs path depth bp bpv init iv = Except.ok ()
      ↔ (¬(path.sizes.length = 2) ∧ ¬(path.sizes.length ≠ 3)
        ∧ ¬(sizeEnd path 1 = 0 ∨ sizeEnd path 2 = 0 ∨ sizeEnd path 0 = 0)
        ∧ ¬(bp = false ∧ sizeEnd path 2 = 1)
        ∧ ¬(depth < 1)
        ∧ ¬(path.floating = false)
        ∧ ¬(bp = true ∧ bpv.sizes.length ≠ 2)
        ∧ ¬(bp = true ∧ (sizeEnd bpv 0 ≠ sizeEnd path 0
            ∨ sizeEnd bpv 1 ≠ sizeEnd path 1))
        ∧ ¬(bp = true ∧ (bpv.dtype ≠ path.dtype ∨ bpv.device ≠ path.device))
        ∧ ¬(init = true ∧ iv.sizes.length ≠ 2)
        ∧ ¬(init = true ∧ (sizeEnd iv 0
              ≠ signature_channels (sizeEnd path 0) depth.toNat
            ∨ sizeEnd iv 1 ≠ sizeEnd path 1))
        ∧ ¬(init = true ∧ (iv.dtype ≠ path.dtype
            ∨ iv.device ≠ path.device))) := by
  rw [signature_checkargs]
  by_cases h1 : path.sizes.length = 2
  case pos => rw [if_pos h1]; simp [h1]
  rw [if_neg h1]
  by_cases h2 : path.sizes.length ≠ 3
  case pos => rw [if_pos h2]; simp [h1, h2]
  rw [if_neg h2]
  by_cases h3 : sizeEnd path 1 = 0 ∨ sizeEnd path 2 = 0 ∨ sizeEnd path 0 = 0
  case pos => rw [if_pos h3]; simp [h1, h2, h3]
  rw [if_neg h3]
  by_cases h4 : bp = false ∧ sizeEnd path 2 = 1
  case pos => rw [if_pos h4]; simp [h1, h2, h3, h4]
  rw [if_neg h4]
  by_cases h5 : depth < 1
  case pos => rw [if_pos h5]; simp [h1, h2, h3, h4, h5]
  rw [if_neg h5]
  by_cases h6 : path.floating = false
  case pos => rw [if_pos h6]; simp [h1, h2, h3, h4, h5, h6]
  rw [if_neg h6]
  by_cases h7 : bp = true ∧ bpv.sizes.length ≠ 2
  case pos => rw [if_pos h7]; simp [h1, h2, h3, h4, h5, h6, h7]
  rw [if_neg h7]
  by_cases h8 : bp = true ∧ (sizeEnd bpv 0 ≠ sizeEnd path 0
      ∨ sizeEnd bpv 1 ≠ sizeEnd path 1)
  case pos => rw [if_pos h8]; simp [h1, h2, h3, h4, h5, h6, h7, h8]
  rw [if_neg h8]
  by_cases h9 : bp = true ∧ (bpv.dtype ≠ path.dtype
      ∨ bpv.device ≠ path.device)
  case pos => rw [if_pos h9]; simp [h1, h2, h3, h4, h5, h6, h7, h8, h9]
  rw [if_neg h9]
  by_cases h10 : init = true ∧ iv.sizes.length ≠ 2
  case pos => rw [if_pos h10]; simp [h1, h2, h3, h4, h5, h6, h7, h8, h9, h10]
  rw [if_neg h10]
  by_cases h11 : init = true ∧ (sizeEnd iv 0
        ≠ signature_channels (sizeEnd path 0) depth.toNat
      ∨ sizeEnd iv 1 ≠ sizeEnd path 1)
  case pos =>
    rw [if_pos h11]
    simp [h1, h2, h3, h4, h5, h6, h7, h8, h9, h10, h11]
  rw [if_neg h11]
  by_cases h12 : init = true ∧ (iv.dtype ≠ path.dtype
      ∨ iv.device ≠ path.device)
  case pos =>
    rw [if_pos h12]
    simp [h1, h2, h3, h4, h5, h6, h7, h8, h9, h10, h11, h12]
  rw [if_neg h12]
  simp [h1, h2, h3, h4, h5, h6, h7, h8, h9, h10, h11, h12]

theorem sizeEnd_three (t : TensorMeta) (a b c : ℕ) (h : t.sizes = [a, b, c]) :
    sizeEnd t 0 = c ∧ sizeEnd t 1 = b ∧ sizeEnd t 2 = a := by
  refine ⟨?_, ?_, ?_⟩ <;> simp [sizeEnd, h]

theorem sizeEnd_two (t : TensorMeta) (x y : ℕ) (h : t.sizes = [x, y]) :
    sizeEnd t 0 = y ∧ sizeEnd t 1 = x := by
  refine ⟨?_, ?_⟩ <;> simp [sizeEnd, h]

set_option maxHeartbeats 800000 in
/-- C8: argument-validation raises-iff.  `signature_checkargs` (run at
entry of `signature_forward`, before any allocation or computation)
errors exactly when: `path` is not 3-dimensional, a `path` axis has size
zero, the stream size is `1` without a basepoint, `depth < 1`, `path` is
not floating-point, or a supplied `basepoint_value` / `initial_value`
disagrees with `path` in the required shape, dtype or device; and on any
such error the checked forward pass returns that error and produces no
signature output. -/
theorem claim_C8_checkargs_raises_iff (path : TensorMeta) (depth : ℤ)
    (bp : Bool) (bpv : TensorMeta) (init : Bool) (iv : TensorMeta) :
    ((∃ e, signature_checkargs path depth bp bpv init iv = Except.error e)
      ↔ (path.sizes.length ≠ 3
        ∨ 0 ∈ path.sizes
        ∨ (bp = false ∧ sizeEnd path 2 = 1)
        ∨ depth < 1
        ∨ path.floating = false
        ∨ (bp = true ∧ (bpv.sizes ≠ [sizeEnd path 1, sizeEnd path 0]
            ∨ bpv.dtype ≠ path.dtype ∨ bpv.device ≠ path.device))
        ∨ (init = true ∧ (iv.sizes ≠ [sizeEnd path 1,
              signature_channels (sizeEnd path 0) depth.toNat]
            ∨ iv.dtype ≠ path.dtype ∨ iv.device ≠ path.device))))
    ∧ (∀ e, signature_checkargs path depth bp bpv init iv = Except.error e →
        ∀ (pathData : List (List Vec)) (stream inverse : Bool)
          (bpvData ivData : List Vec) (mT mP : ℕ),
          signature_forward_checked path pathData depth stream bp bpv bpvData
            inverse init iv ivData mT mP = Except.error e) := by
  constructor
  · rw [except_error_exists, signature_checkargs_ok_iff]
    constructor
    · intro h
      by_contra hs
      apply h
      have hs1 : path.sizes.length = 3 := by
        by_contra hns
        exact hs (Or.inl hns)
      have hs2 : ¬(0 ∈ path.sizes) :=
        fun hm => hs (Or.inr (Or.inl hm))
      have hs4 : ¬(bp = false ∧ sizeEnd path 2 = 1) :=
        fun hm => hs (Or.inr (Or.inr (Or.inl hm)))
      have hs5 : ¬(depth < 1) :=
        fun hm => hs (Or.inr (Or.inr (Or.inr (Or.inl hm))))
      have hs6 : ¬(path.floating = false) :=
        fun hm => hs (Or.inr (Or.inr (Or.inr (Or.inr (Or.inl hm)))))
      have hs7 : ¬(bp = true ∧ (bpv.sizes ≠ [sizeEnd path 1, sizeEnd path 0]
          ∨ bpv.dtype ≠ path.dtype ∨ bpv.device ≠ path.device)) :=
        fun hm => hs (Or.inr (Or.inr (Or.inr (Or.inr (Or.inr (Or.inl hm))))))
      have hs8 : ¬(init = true ∧ (iv.sizes ≠ [sizeEnd path 1,
            signature_channels (sizeEnd path 0) depth.toNat]
          ∨ iv.dtype ≠ path.dtype ∨ iv.device ≠ path.device)) :=
        fun hm => hs (Or.inr (Or.inr (Or.inr (Or.inr (Or.inr (Or.inr hm))))))
      obtain ⟨a, b, c, hsz⟩ := List.length_eq_three.mp hs1
      obtain ⟨hE0, hE1, hE2⟩ := sizeEnd_three path a b c hsz
      refine ⟨by intro hx; omega, fun hx => hx hs1, ?_, hs4, hs5, hs6,
        ?_, ?_, ?_, ?_, ?_, ?_⟩
      · intro hz
        apply hs2
        rw [hE1, hE2, hE0] at hz
        rw [hsz]
        rcases hz with hq | hq | hq <;> subst hq <;> simp
      · rintro ⟨hbp, hbl⟩
        exact hs7 ⟨hbp, Or.inl (fun heq => hbl (by rw [heq]; rfl))⟩
      · rintro ⟨hbp, hor⟩
        refine hs7 ⟨hbp, Or.inl fun heq => ?_⟩
        obtain ⟨hB0, hB1⟩ := sizeEnd_two bpv _ _ heq
        rcases hor with hq | hq
        · exact hq hB0
        · exact hq hB1
      · rintro ⟨hbp, hor⟩
        exact hs7 ⟨hbp, Or.inr hor⟩
      · rintro ⟨hin, hil⟩
        exact hs8 ⟨hin, Or.inl (fun heq => hil (by rw [heq]; rfl))⟩
      · rintro ⟨hin, hor⟩
        refine hs8 ⟨hin, Or.inl fun heq => ?_⟩
        obtain ⟨hB0, hB1⟩ := sizeEnd_two iv _ _ heq
        rcases hor with hq | hq
        · exact hq hB0
        · exact hq hB1
      · rintro ⟨hin, hor⟩
        exact hs8 ⟨hin, Or.inr hor⟩
    · intro hs hc
      obtain ⟨hc1, hc2, hc3, hc4, hc5, hc6, hc7, hc8, hc9, hc10, hc11, hc12⟩
        := hc
      have hs1 : path.sizes.length = 3 := not_not.mp hc2
      rcases hs with h | h | h | h | h | h | h
      · exact h hs1
      · obtain ⟨a, b, c, hsz⟩ := List.length_eq_three.mp hs1
        obtain ⟨hE0, hE1, hE2⟩ := sizeEnd_three path a b c hsz
        apply hc3
        rw [hE1, hE2, hE0]
        rw [hsz] at h
        simp only [List.mem_cons, List.not_mem_nil, or_false] at h
        rcases h with hq | hq | hq
        · exact Or.inr (Or.inl hq.symm)
        · exact Or.inl hq.symm
        · exact Or.inr (Or.inr hq.symm)
      · exact hc4 h
      · exact hc5 h
      · exact hc6 h
      · rcases h with ⟨hbp, hor⟩
        rcases hor with hsz | hdt | hdv
        · have hbl : bpv.sizes.length = 2 := by
            by_contra hb
            exact hc7 ⟨hbp, hb⟩
          obtain ⟨x, y, hxy⟩ := List.length_eq_two.mp hbl
          obtain ⟨hB0, hB1⟩ := sizeEnd_two bpv x y hxy
          apply hsz
          have h8 : ¬(sizeEnd bpv 0 ≠ sizeEnd path 0
              ∨ sizeEnd bpv 1 ≠ sizeEnd path 1) :=
            fun hcc => hc8 ⟨hbp, hcc⟩
          push_neg at h8
          rw [hxy, ← h8.1, ← h8.2, hB0, hB1]
        · exact hc9 ⟨hbp, Or.inl hdt⟩
        · exact hc9 ⟨hbp, Or.inr hdv⟩
      · rcases h with ⟨hin, hor⟩
        rcases hor with hsz | hdt | hdv
        · have hil : iv.sizes.length = 2 := by
            by_contra hb
            exact hc10 ⟨hin, hb⟩
          obtain ⟨x, y, hxy⟩ := List.length_eq_two.mp hil
          obtain ⟨hB0, hB1⟩ := sizeEnd_two iv x y hxy
          apply hsz
          have h11 : ¬(sizeEnd iv 0
                ≠ signature_channels (sizeEnd path 0) depth.toNat
              ∨ sizeEnd iv 1 ≠ sizeEnd path 1) :=
            fun hcc => hc11 ⟨hin, hcc⟩
          push_neg at h11
          rw [hxy, ← h11.1, ← h11.2, hB0, hB1]
        · exact hc12 ⟨hin, Or.inl hdt⟩
        · exact hc12 ⟨hin, Or.inr hdv⟩
  · intro e he pathData stream inverse bpvData ivData mT mP
    rw [signature_forward_checked, he]

/-- A tensor at the aliasing level: the id of its underlying storage
buffer.  Views (`operator[]`, `narrow`, `view`, `unsqueeze`, `detach`,
`misc::slice_by_term`, `misc::slice_at_stream`) share their argument's
base id; `clone`, `empty`, `empty_like`, `zeros_like` and every
out-of-place arithmetic result get a fresh id. -/
structure TensorRef where
  base : ℕ

/-- Allocation/write state threaded through the aliasing model: the next
fresh buffer id and the bases of all buffers written so far. -/
structure AllocSt where
  next : ℕ
  writes : List ℕ

/-- A fresh buffer (`torch::empty`, `empty_like`, `zeros_like`, `clone`,
out-of-place arithmetic). -/
def allocT (s : AllocSt) : TensorRef × AllocSt :=
  (⟨s.next⟩, ⟨s.next + 1, s.writes⟩)

/-- An in-place write (`copy_`, `+=`, `-=`, `*=`, `zero_`, `addcmul_`,
`baddbmm_`, `mul_out`, `bmm_out`, `addmm_`) through a view of `t`. -/
def writeT (t : TensorRef) (s : AllocSt) : AllocSt :=
  ⟨s.next, t.base :: s.writes⟩

/-- Writes of `ta_ops::restricted_exp(in, out, reciprocals)`: the `copy_`,
`mul_out` into a view and `*=` all write `out` elements, which are views
of one signature buffer `out`; `in` and `reciprocals` are only read (the
per-depth loop is collapsed: all its writes hit the same base). -/
def restricted_exp_alias (out : TensorRef) (s : AllocSt) : AllocSt :=
  writeT out s

/-- Writes/allocations of `ta_ops::mult_fused_restricted_exp(next, prev,
inverse, reciprocals)`: `next_divided` and the `scratch` chain are fresh
out-of-place results (collapsed to one allocation each); the `addcmul_`
into `prev_view` and the final `prev[0] += next` write `prev`, the common
base of the by-term views; `next` is only read. -/
def mult_fused_alias (prev : TensorRef) (s : AllocSt) : AllocSt :=
  writeT prev (allocT (allocT s).2).2

/-- Writes of `ta_ops::mult(arg1, arg2)` (also of the three-argument
overload used by the chunk combine): `mult_inner`'s `addcmul_` and the
`+=` write `arg1`; `arg2` is only read. -/
def mult_alias (arg1 : TensorRef) (s : AllocSt) : AllocSt :=
  writeT arg1 s

/-- Writes/allocations of `ta_ops::mult_fused_restricted_exp_backward`:
fresh `all_scratches` (out-of-place `addcmul`), `grad_next_divided`
(`zeros_like`) and `all_grad_scratches` (`empty_like`, then written by
`bmm_out`); in-place writes into `grad_next` (`copy_`, `baddbmm_`, the
final `addmm_`) and into the `grad_prev` views (`+=`); `next` and `prev`
are only read. -/
def mult_fused_backward_alias (grad_next grad_prev : TensorRef)
    (s : AllocSt) : AllocSt :=
  writeT grad_prev
    (writeT (allocT (allocT (allocT s).2).2).1
      (writeT grad_next (allocT (allocT (allocT s).2).2).2))

/-- Writes of `ta_ops::restricted_exp_backward`: `grad_in` (`bmm_out`,
`baddbmm_`, `+=`, `copy_`) and the `grad_out` views (`*=`, `baddbmm_`);
`in` and `out` are only read. -/
def restricted_exp_backward_alias (grad_in grad_out : TensorRef)
    (s : AllocSt) : AllocSt :=
  writeT grad_out (writeT grad_in s)

/-- Writes/allocations of `signature::detail::compute_path_increments`:
with a basepoint the result is materialized in a fresh buffer
(`empty_like` then `copy_`, `copy_`, `-=`; or `clone` then `-=`, `-=`)
and only that fresh buffer is written; without a basepoint the
out-of-place subtraction of two stream `narrow`s allocates the result.
`path` and `basepoint_value` are only read. -/
def compute_path_increments_alias (path basepoint_value : TensorRef)
    (basepoint inverse : Bool) (s : AllocSt) : TensorRef × AllocSt :=
  if basepoint then
    if inverse then
      ((allocT s).1,
        writeT (allocT s).1 (writeT (allocT s).1
          (writeT (allocT s).1 (allocT s).2)))
    else
      ((allocT s).1, writeT (allocT s).1 (writeT (allocT s).1 (allocT s).2))
  else allocT s

/-- Writes of `signature_forward_inner` / `signature_forward_inner_cpu`
driving `loops` stream indices: per index, under `stream` a
`signature[i].copy_(signature[i-1])`, then the fused kernel into the
by-term views - all writes hit the one `signature` buffer. -/
def forward_inner_alias (stream : Bool) (signature : TensorRef) (loops : ℕ)
    (s : AllocSt) : AllocSt :=
  (List.range loops).foldl (fun s _ =>
    mult_fused_alias signature (if stream then writeT signature s else s)) s

/-- One chunk of the OpenMP block of `signature_forward`: a fresh
`omp_signature` (`torch::empty`), `restricted_exp` into it, then the
fused kernel for the rest of the chunk. -/
def omp_chunk_alias (loops : ℕ) (s : AllocSt) : AllocSt :=
  (List.range loops).foldl
    (fun s2 _ => mult_fused_alias (allocT s).1 s2)
    (restricted_exp_alias (allocT s).1 (allocT s).2)

/-- All used OpenMP chunks of `signature_forward`. -/
def omp_chunks_alias (loops T : ℕ) (s : AllocSt) : AllocSt :=
  (List.range T).foldl (fun s _ => omp_chunk_alias loops s) s

/-- The combine loop of `signature_forward`: per used chunk one
three-argument `mult` into the views of `signature`. -/
def mult_combine_alias (signature : TensorRef) (T : ℕ) (s : AllocSt) :
    AllocSt :=
  (List.range T).foldl (fun s _ => mult_alias signature s) s

/-- Aliasing/allocation model of `signatory::signature_forward` after
`signature_checkargs`: which buffers each statement of the source writes.
`detach` aliases the inputs; `make_reciprocals` allocates; the increments
are built by `compute_path_increments`; `signature` is a fresh
`torch::empty` in both `stream` branches, `first_term` and the by-term
slices are views of it; the first term is `initial_value` copied into
`first_term` plus the fused kernel, or `restricted_exp`; then either the
serial inner driver (`cuda`, or `stream_threads = 1`, i.e. `parallel`
false) runs `loops` rounds on `signature`, or the OpenMP branch builds
`T` chunk signatures in fresh buffers and combines them into `signature`.
`path`, `basepoint_value` and `initial_value` enter only as read
operands.  Returns the signature and saved-increments handles with the
final state. -/
def signature_forward_alias (path basepoint_value initial_value : TensorRef)
    (stream basepoint inverse initial cuda parallel : Bool) (loops T : ℕ)
    (s0 : AllocSt) : (TensorRef × TensorRef) × AllocSt :=
  let s1 := (allocT s0).2
  let path_increments :=
    (compute_path_increments_alias path basepoint_value basepoint inverse
      s1).1
  let s2 :=
    (compute_path_increments_alias path basepoint_value basepoint inverse
      s1).2
  let signature := (allocT s2).1
  let s3 := (allocT s2).2
  let s4 :=
    if initial then mult_fused_alias signature (writeT signature s3)
    else restricted_exp_alias signature s3
  let s5 :=
    if cuda ∨ parallel = false then
      forward_inner_alias stream signature loops s4
    else mult_combine_alias signature T (omp_chunks_alias loops T s4)
  ((signature, path_increments), s5)

/-- Aliasing/allocation model of `signatory::signature_backward`:
`detach` aliases the inputs; `make_reciprocals` allocates;
`grad_signature_at_stream` is a `clone` (fresh) of `grad_signature[-1]`
or of `grad_signature`, and its by-term slices are views of that clone;
`signature_by_term_at_stream` aliases `signature` under `stream` and a
fresh `signature.clone()` otherwise; `grad_path_increments` is
`empty_like`.  The main loop (`loops` rounds) rolls the clone backward
with the fused kernel on `-next` (out-of-place negation) when not
`stream`, runs the fused backward into `grad_path_increments` and the
gradient clone, and under `stream` accumulates `+=` into the gradient
clone.  The epilogue under `initial ∧ stream` first replaces each
at-stream view by its `clone`; then the fused kernel plus its backward
(`initial`) or `restricted_exp_backward` run.  Finally
`compute_path_increments_backward` allocates and fills `grad_path` and
the basepoint gradient (`grad_path_increments[0]` aliases our own
buffer; `-grad_path_increments[0]` and `torch::empty` allocate).
`grad_signature`, `signature` and `path_increments` are only read. -/
def signature_backward_alias
    (grad_signature signature path_increments : TensorRef)
    (stream basepoint inverse initial : Bool) (loops : ℕ) (s0 : AllocSt) :
    (TensorRef × TensorRef × TensorRef) × AllocSt :=
  let s1 := (allocT s0).2
  let grad_signature_at_stream := (allocT s1).1
  let s2 := (allocT s1).2
  let sig_at_stream := if stream then signature else (allocT s2).1
  let s3 := if stream then s2 else (allocT s2).2
  let grad_path_increments := (allocT s3).1
  let s4 := (allocT s3).2
  let s5 := (List.range loops).foldl (fun s _ =>
      let sa :=
        if stream then s else mult_fused_alias sig_at_stream (allocT s).2
      let sb := mult_fused_backward_alias grad_path_increments
        grad_signature_at_stream sa
      if stream then writeT grad_signature_at_stream sb else sb) s4
  let sig_final :=
    if initial ∧ stream then (allocT s5).1 else sig_at_stream
  let s6 := if initial ∧ stream then (allocT s5).2 else s5
  let s7 :=
    if initial then
      mult_fused_backward_alias grad_path_increments
        grad_signature_at_stream (mult_fused_alias sig_final (allocT s6).2)
    else restricted_exp_backward_alias grad_path_increments
      grad_signature_at_stream s6
  let grad_path := (allocT s7).1
  let s8 := writeT grad_path (allocT s7).2
  let grad_basepoint_value :=
    if basepoint then
      if inverse then grad_path_increments else (allocT s8).1
    else (allocT s8).1
  let s9 := if basepoint = true ∧ inverse = true then s8 else (allocT s8).2
  ((grad_path, grad_basepoint_value, grad_signature_at_stream), s9)

/-- Invariant of the aliasing model: every id written so far was
allocated at or after the watermark `n0`. -/
def StOK (n0 : ℕ) (s : AllocSt) : Prop :=
  n0 ≤ s.next ∧ ∀ w ∈ s.writes, n0 ≤ w

theorem stOK_allocT (n0 : ℕ) (s : AllocSt) (h : StOK n0 s) :
    n0 ≤ (allocT s).1.base ∧ StOK n0 (allocT s).2 :=
  ⟨h.1, ⟨by have := h.1; show n0 ≤ s.next + 1; omega, h.2⟩⟩

theorem stOK_writeT (n0 : ℕ) (t : TensorRef) (s : AllocSt) (h : StOK n0 s)
    (ht : n0 ≤ t.base) : StOK n0 (writeT t s) := by
  refine ⟨h.1, fun w hw => ?_⟩
  rcases List.mem_cons.mp hw with hq | hq
  · rw [hq]; exact ht
  · exact h.2 w hq

theorem stOK_restricted_exp_alias (n0 : ℕ) (t : TensorRef) (s : AllocSt)
    (h : StOK n0 s) (ht : n0 ≤ t.base) :
    StOK n0 (restricted_exp_alias t s) := stOK_writeT n0 t s h ht

theorem stOK_mult_fused_alias (n0 : ℕ) (t : TensorRef) (s : AllocSt)
    (h : StOK n0 s) (ht : n0 ≤ t.base) : StOK n0 (mult_fused_alias t s) :=
  stOK_writeT n0 t _ (stOK_allocT n0 _ (stOK_allocT n0 s h).2).2 ht

theorem stOK_mult_alias (n0 : ℕ) (t : TensorRef) (s : AllocSt)
    (h : StOK n0 s) (ht : n0 ≤ t.base) : StOK n0 (mult_alias t s) :=
  stOK_writeT n0 t s h ht

theorem stOK_mult_fused_backward_alias (n0 : ℕ) (t u : TensorRef)
    (s : AllocSt) (h : StOK n0 s) (ht : n0 ≤ t.base) (hu : n0 ≤ u.base) :
    StOK n0 (mult_fused_backward_alias t u s) := by
  have h3 := (stOK_allocT n0 _ (stOK_allocT n0 _ (stOK_allocT n0 s h).2).2)
  exact stOK_writeT n0 u _
    (stOK_writeT n0 _ _ (stOK_writeT n0 t _ h3.2 ht)
      (by
        show n0 ≤ (allocT (allocT (allocT s).2).2).1.base
        exact h3.1)) hu

theorem stOK_restricted_exp_backward_alias (n0 : ℕ) (t u : TensorRef)
    (s : AllocSt) (h : StOK n0 s) (ht : n0 ≤ t.base) (hu : n0 ≤ u.base) :
    StOK n0 (restricted_exp_backward_alias t u s) :=
  stOK_writeT n0 u _ (stOK_writeT n0 t s h ht) hu

theorem stOK_compute_path_increments_alias (n0 : ℕ) (p bpv : TensorRef)
    (bp inv : Bool) (s : AllocSt) (h : StOK n0 s) :
    n0 ≤ (compute_path_increments_alias p bpv bp inv s).1.base
    ∧ StOK n0 (compute_path_increments_alias p bpv bp inv s).2 := by
  have ha := stOK_allocT n0 s h
  cases bp with
  | false => exact ha
  | true =>
    cases inv with
    | false =>
      exact ⟨ha.1, stOK_writeT n0 _ _ (stOK_writeT n0 _ _ ha.2 ha.1) ha.1⟩
    | true =>
      exact ⟨ha.1, stOK_writeT n0 _ _
        (stOK_writeT n0 _ _ (stOK_writeT n0 _ _ ha.2 ha.1) ha.1) ha.1⟩

theorem stOK_foldl {α : Type} (n0 : ℕ) (f : AllocSt → α → AllocSt)
    (hf : ∀ s a, StOK n0 s → StOK n0 (f s a)) :
    ∀ (l : List α) (s : AllocSt), StOK n0 s → StOK n0 (l.foldl f s) := by
  intro l
  induction l with
  | nil => intro s h; exact h
  | cons a t ih => intro s h; exact ih (f s a) (hf s a h)

theorem stOK_forward_inner_alias (n0 : ℕ) (stream : Bool) (t : TensorRef)
    (loops : ℕ) (s : AllocSt) (h : StOK n0 s) (ht : n0 ≤ t.base) :
    StOK n0 (forward_inner_alias stream t loops s) := by
  apply stOK_foldl n0 _ _ _ _ h
  intro s2 _ h2
  apply stOK_mult_fused_alias n0 t _ _ ht
  cases stream with
  | false => exact h2
  | true => exact stOK_writeT n0 t s2 h2 ht

theorem stOK_omp_chunk_alias (n0 loops : ℕ) (s : AllocSt) (h : StOK n0 s) :
    StOK n0 (omp_chunk_alias loops s) := by
  have ha := stOK_allocT n0 s h
  apply stOK_foldl n0 _ (fun s2 _ h2 => stOK_mult_fused_alias n0 _ s2 h2 ha.1)
  exact stOK_restricted_exp_alias n0 _ _ ha.2 ha.1

theorem stOK_omp_chunks_alias (n0 loops T : ℕ) (s : AllocSt)
    (h : StOK n0 s) : StOK n0 (omp_chunks_alias loops T s) :=
  stOK_foldl n0 _ (fun s2 _ h2 => stOK_omp_chunk_alias n0 loops s2 h2) _ s h

theorem stOK_mult_combine_alias (n0 : ℕ) (t : TensorRef) (T : ℕ)
    (s : AllocSt) (h : StOK n0 s) (ht : n0 ≤ t.base) :
    StOK n0 (mult_combine_alias t T s) :=
  stOK_foldl n0 _ (fun s2 _ h2 => stOK_mult_alias n0 t s2 h2 ht) _ s h

theorem stOK_signature_forward_alias (n0 : ℕ) (p bpv iv : TensorRef)
    (stream bp inv init cuda par : Bool) (loops T : ℕ) (s : AllocSt)
    (h : StOK n0 s) :
    StOK n0 ((signature_forward_alias p bpv iv stream bp inv init cuda par
      loops T s).2) := by
  simp only [signature_forward_alias]
  have h1 : StOK n0 (allocT s).2 := (stOK_allocT n0 s h).2
  have h2 := (stOK_compute_path_increments_alias n0 p bpv bp inv _ h1).2
  set S2 := (compute_path_increments_alias p bpv bp inv (allocT s).2).2
    with hS2
  have h3 := stOK_allocT n0 S2 h2
  set SIG := (allocT S2).1 with hSIG
  set S3 := (allocT S2).2 with hS3
  have h4 : StOK n0 (if init then mult_fused_alias SIG (writeT SIG S3)
      else restricted_exp_alias SIG S3) := by
    cases init with
    | false => exact stOK_restricted_exp_alias n0 SIG S3 h3.2 h3.1
    | true =>
      exact stOK_mult_fused_alias n0 SIG _
        (stOK_writeT n0 SIG S3 h3.2 h3.1) h3.1
  by_cases hc : cuda = true ∨ par = false
  · rw [if_pos hc]
    exact stOK_forward_inner_alias n0 stream SIG loops _ h4 h3.1
  · rw [if_neg hc]
    exact stOK_mult_combine_alias n0 SIG T _
      (stOK_omp_chunks_alias n0 loops T _ h4) h3.1

theorem stOK_signature_backward_alias (n0 : ℕ) (g sg pi : TensorRef)
    (stream bp inv init : Bool) (loops : ℕ) (s : AllocSt) (h : StOK n0 s) :
    StOK n0 ((signature_backward_alias g sg pi stream bp inv init loops
      s).2) := by
  simp only [signature_backward_alias]
  have h1 : StOK n0 (allocT s).2 := (stOK_allocT n0 s h).2
  have hgss := stOK_allocT n0 (allocT s).2 h1
  set GSS := (allocT (allocT s).2).1 with hGSS
  set S2 := (allocT (allocT s).2).2 with hS2
  have hs3 : StOK n0 (if stream then S2 else (allocT S2).2) := by
    cases stream with
    | false => exact (stOK_allocT n0 S2 hgss.2).2
    | true => exact hgss.2
  set S3 := if stream then S2 else (allocT S2).2 with hS3def
  have hgpi := stOK_allocT n0 S3 hs3
  set GPI := (allocT S3).1 with hGPI
  set S4 := (allocT S3).2 with hS4
  have hsas : stream = false → n0 ≤ (if stream then sg
      else (allocT S2).1).base := by
    intro hst
    rw [hst]
    simp only [Bool.false_eq_true, if_false]
    exact (stOK_allocT n0 S2 hgss.2).1
  set SAS := if stream then sg else (allocT S2).1 with hSAS
  have h5 : StOK n0 ((List.range loops).foldl (fun s _ =>
      let sa := if stream then s else mult_fused_alias SAS (allocT s).2
      let sb := mult_fused_backward_alias GPI GSS sa
      if stream then writeT GSS sb else sb) S4) := by
    apply stOK_foldl n0 _ _ _ _ hgpi.2
    intro s2 _ h2
    have hsa : StOK n0 (if stream then s2
        else mult_fused_alias SAS (allocT s2).2) := by
      cases stream with
      | true => exact h2
      | false =>
        exact stOK_mult_fused_alias n0 SAS _ (stOK_allocT n0 s2 h2).2
          (hsas rfl)
    have hsb := stOK_mult_fused_backward_alias n0 GPI GSS _ hsa
      hgpi.1 hgss.1
    cases stream with
    | true => exact stOK_writeT n0 GSS _ hsb hgss.1
    | false => exact hsb
  set S5 := (List.range loops).foldl (fun s _ =>
      let sa := if stream then s else mult_fused_alias SAS (allocT s).2
      let sb := mult_fused_backward_alias GPI GSS sa
      if stream then writeT GSS sb else sb) S4 with hS5
  have hs6 : StOK n0 (if init = true ∧ stream = true then (allocT S5).2
      else S5) := by
    by_cases his : init = true ∧ stream = true
    · rw [if_pos his]; exact (stOK_allocT n0 S5 h5).2
    · rw [if_neg his]; exact h5
  have hsigf : (if init = true ∧ stream = true then (allocT S5).1
      else SAS).base ≥ n0 ∨ (init = true → stream = false) := by
    by_cases his : init = true ∧ stream = true
    · rw [if_pos his]; exact Or.inl (stOK_allocT n0 S5 h5).1
    · rw [if_neg his]
      by_cases hst : stream = true
      · exact Or.inr (fun hin => absurd ⟨hin, hst⟩ his)
      · left
        rw [hSAS]
        have hst2 : stream = false := by
          cases stream
          · rfl
          · exact absurd rfl hst
        rw [hst2]
        simp only [Bool.false_eq_true, if_false]
        exact (stOK_allocT n0 S2 hgss.2).1
  set SIGF := if init = true ∧ stream = true then (allocT S5).1 else SAS
    with hSIGF
  set S6 := if init = true ∧ stream = true then (allocT S5).2 else S5
    with hS6
  have h7 : StOK n0 (if init then
      mult_fused_backward_alias GPI GSS
        (mult_fused_alias SIGF (allocT S6).2)
    else restricted_exp_backward_alias GPI GSS S6) := by
    cases init with
    | false =>
      exact stOK_restricted_exp_backward_alias n0 GPI GSS S6 hs6
        hgpi.1 hgss.1
    | true =>
      have hb : n0 ≤ SIGF.base := by
        rcases hsigf with hq | hq
        · exact hq
        · rw [hSIGF, hq rfl]
          simp only [Bool.true_eq_false, and_false, if_false] at hs6 ⊢
          rw [hSAS, hq rfl]
          simp only [Bool.false_eq_true, if_false]
          exact (stOK_allocT n0 S2 hgss.2).1
      exact stOK_mult_fused_backward_alias n0 GPI GSS _
        (stOK_mult_fused_alias n0 SIGF _
          (stOK_allocT n0 S6 hs6).2 hb) hgpi.1 hgss.1
  set S7 := if init then
      mult_fused_backward_alias GPI GSS
        (mult_fused_alias SIGF (allocT S6).2)
    else restricted_exp_backward_alias GPI GSS S6 with hS7
  have h8 : StOK n0 (writeT (allocT S7).1 (allocT S7).2) :=
    stOK_writeT n0 _ _ (stOK_allocT n0 S7 h7).2 (stOK_allocT n0 S7 h7).1
  set S8 := writeT (allocT S7).1 (allocT S7).2 with hS8
  by_cases hbi : bp = true ∧ inv = true
  · rw [if_pos hbi]; exact h8
  · rw [if_neg hbi]; exact (stOK_allocT n0 S8 h8).2

/-- C9: frame property of the forward pass.  In the aliasing model of
`signature_forward`, starting from a state whose allocation watermark is
above the bases of `path`, `basepoint_value` and `initial_value`, no
write of the call (any flags, any loop/chunk counts, serial, CUDA or
OpenMP branch) touches those input buffers: all in-place work happens on
buffers allocated during the call. -/
theorem claim_C9_forward_frame (p bpv iv : TensorRef)
    (stream bp inv init cuda par : Bool) (loops T n0 : ℕ)
    (hp : p.base < n0) (hbpv : bpv.base < n0) (hiv : iv.base < n0) :
    p.base ∉ ((signature_forward_alias p bpv iv stream bp inv init cuda par
        loops T ⟨n0, []⟩).2).writes
    ∧ bpv.base ∉ ((signature_forward_alias p bpv iv stream bp inv init cuda
        par loops T ⟨n0, []⟩).2).writes
    ∧ iv.base ∉ ((signature_forward_alias p bpv iv stream bp inv init cuda
        par loops T ⟨n0, []⟩).2).writes := by
  have hok := stOK_signature_forward_alias n0 p bpv iv stream bp inv init
    cuda par loops T ⟨n0, []⟩
    ⟨le_refl n0, fun w hw => absurd hw (List.not_mem_nil w)⟩
  refine ⟨fun hm => ?_, fun hm => ?_, fun hm => ?_⟩ <;>
    · have := hok.2 _ hm
      omega

/-- C10: frame property of the backward pass.  In the aliasing model of
`signature_backward`, starting from a state whose allocation watermark is
above the bases of `grad_signature`, `signature` and `path_increments`,
no write of the call (any flags, any loop count) touches those input
buffers: the rolled-back signature and the accumulated gradient live in
clones allocated during the call. -/
theorem claim_C10_backward_frame (g sg pi : TensorRef)
    (stream bp inv init : Bool) (loops n0 : ℕ)
    (hg : g.base < n0) (hsg : sg.base < n0) (hpi : pi.base < n0) :
    g.base ∉ ((signature_backward_alias g sg pi stream bp inv init loops
        ⟨n0, []⟩).2).writes
    ∧ sg.base ∉ ((signature_backward_alias g sg pi stream bp inv init loops
        ⟨n0, []⟩).2).writes
    ∧ pi.base ∉ ((signature_backward_alias g sg pi stream bp inv init loops
        ⟨n0, []⟩).2).writes := by
  have hok := stOK_signature_backward_alias n0 g sg pi stream bp inv init
    loops ⟨n0, []⟩ ⟨le_refl n0, fun w hw => absurd hw (List.not_mem_nil w)⟩
  refine ⟨fun hm => ?_, fun hm => ?_, fun hm => ?_⟩ <;>
    · have := hok.2 _ hm
      omega

theorem claim_C9_forward_frame_witness :
    (⟨0⟩ : TensorRef).base < 3 ∧ (⟨1⟩ : TensorRef).base < 3
    ∧ (⟨2⟩ : TensorRef).base < 3
    ∧ ((⟨0⟩ : TensorRef).base ∉ ((signature_forward_alias ⟨0⟩ ⟨1⟩ ⟨2⟩ false
        true false true false true 2 2 ⟨3, []⟩).2).writes
      ∧ (⟨1⟩ : TensorRef).base ∉ ((signature_forward_alias ⟨0⟩ ⟨1⟩ ⟨2⟩ false
        true false true false true 2 2 ⟨3, []⟩).2).writes
      ∧ (⟨2⟩ : TensorRef).base ∉ ((signature_forward_alias ⟨0⟩ ⟨1⟩ ⟨2⟩ false
        true false true false true 2 2 ⟨3, []⟩).2).writes) :=
  ⟨by decide, by decide, by decide,
    claim_C9_forward_frame ⟨0⟩ ⟨1⟩ ⟨2⟩ false true false true false true 2 2 3
      (by decide) (by decide) (by decide)⟩

theorem claim_C10_backward_frame_witness :
    (⟨0⟩ : TensorRef).base < 3 ∧ (⟨1⟩ : TensorRef).base < 3
    ∧ (⟨2⟩ : TensorRef).base < 3
    ∧ ((⟨0⟩ : TensorRef).base ∉ ((signature_backward_alias ⟨0⟩ ⟨1⟩ ⟨2⟩ false
        true false true 2 ⟨3, []⟩).2).writes
      ∧ (⟨1⟩ : TensorRef).base ∉ ((signature_backward_alias ⟨0⟩ ⟨1⟩ ⟨2⟩ false
        true false true 2 ⟨3, []⟩).2).writes
      ∧ (⟨2⟩ : TensorRef).base ∉ ((signature_backward_alias ⟨0⟩ ⟨1⟩ ⟨2⟩ false
        true false true 2 ⟨3, []⟩).2).writes) :=
  ⟨by decide, by decide, by decide,
    claim_C10_backward_frame ⟨0⟩ ⟨1⟩ ⟨2⟩ false true false true 2 3
      (by decide) (by decide) (by decide)⟩

end Signatory
